import Mathlib

/-!
Verification of the WRF `namelist.wps` interactive configuration tool
(`WRF_Namelist.wps_Interactive_Configuration_Tool.py`).

This file gives a shallow embedding of the tool's core, pure components:

* the nesting geometry helpers (`suggest_nest_location` and the inline
  fit-check / repair logic of `configure_geogrid`),
* the domain-list synchronizer `adjust_params_for_max_dom`,
* the namelist codec (`read_existing_namelist` / `write_namelist_wps`),

and proves the spec's testable properties about them.

Modelling conventions:

* Python strings are embedded as `List Char` (`Str` below); the Python
  string operations used by the source (`strip`, `split`, `startswith`,
  `endswith`, slicing, `lower`) are defined here over `List Char` with the
  same semantics.  A text file is a list of lines (the source only writes
  whole `\n`-terminated lines and reads line by line).
* Python `int` is `Int`; `//` is `Int.fdiv` and `%` is `Int.fmod`
  (floor division / sign-of-divisor remainder, as in Python).
* Python `float` is modelled as an exact rational `Rat`.  Every float value
  produced or consumed in the verified fragment is an integral-valued
  double (for example `34.0`), on which IEEE doubles and exact rationals
  agree, including their decimal rendering `"<int>.0"`.
* Python `dict` (which preserves insertion order) is an insertion-ordered
  association list `List (Str × Value)`; assignment to an existing key
  replaces the value in place, assignment to a fresh key appends.
* Runtime exceptions (`KeyError`, `IndexError`, `TypeError`, ...) are the
  `PyRes.exn` result; `while` loops are given explicit fuel, and a fuelled
  computation returns `none` exactly when the fuel runs out, which is the
  marker used to reason about (non-)termination of the source's loops.
* Numeric literal parsing via Python's `int(...)` / `float(...)` is
  modelled on the decimal grammar; PEP-515 underscore separators and the
  `inf` / `nan` spellings (which contain no `'.'` and therefore never reach
  the `float` call site in the reader) are not modelled.
-/

namespace Wps

/-- Python strings, embedded as lists of characters. -/
abbrev Str := List Char

/-- Conversion from Lean string literals to the embedded string type. -/
def strOf (x : String) : Str := x.data

/-! ## Nesting geometry (source: `suggest_nest_location`, lines 320-326,
and the inline fit check / repair in `configure_geogrid`, lines 580-599).

All quantities here are the tool's grid sizes and 1-based grid positions,
validated as positive integers by the surrounding session, so they are
embedded as `Nat`.  `math.ceil(a / b)` on positive integers is the exact
ceiling division `(a + b - 1) / b`. -/

/-- `math.ceil(a / b)` for positive integers. -/
def ceilDivNat (a b : Nat) : Nat := (a + b - 1) / b

/-- Source `suggest_nest_location(parent_dim, nest_dim, ratio)`:
`parent_center = parent_dim // 2`;
`nest_size_in_parent = math.ceil(nest_dim / ratio)`;
`max(1, parent_center - nest_size_in_parent // 2)`.
(`Nat` subtraction truncates at `0`, and `max 1 0 = 1 = max 1 n` for any
non-positive Python value, so the `Nat` reading agrees with Python.) -/
def suggestNestLocation (parentDim nestDim r : Nat) : Nat :=
  let parentCenter := parentDim / 2
  let nestSizeInParent := ceilDivNat nestDim r
  max 1 (parentCenter - nestSizeInParent / 2)

/-- Source `configure_geogrid` lines 580-587: the fit check for a nested
domain.  Returns `(i_end, j_end, fits)` where the source warns exactly
when `i_end > parent_we or j_end > parent_sn`. -/
def checkFit (parentWe parentSn nestWe nestSn r iStart jStart : Nat) :
    Nat × Nat × Bool :=
  let iEnd := iStart + ceilDivNat nestWe r - 1
  let jEnd := jStart + ceilDivNat nestSn r - 1
  (iEnd, jEnd, !(decide (parentWe < iEnd) || decide (parentSn < jEnd)))

/-- Source `configure_geogrid` lines 589-599: the repair step offered when
the fit check fails.  Each exceeded axis is independently reset to
`max(1, parent_dim - math.ceil(nest_dim / ratio) + 1)`; an axis within
bounds keeps its start value. -/
def repairFit (parentWe parentSn nestWe nestSn r iStart jStart : Nat) :
    Nat × Nat :=
  let iEnd := iStart + ceilDivNat nestWe r - 1
  let jEnd := jStart + ceilDivNat nestSn r - 1
  let iStart' := if parentWe < iEnd then max 1 (parentWe - ceilDivNat nestWe r + 1)
    else iStart
  let jStart' := if parentSn < jEnd then max 1 (parentSn - ceilDivNat nestSn r + 1)
    else jStart
  (iStart', jStart')

/-- Ceiling division agrees with the mathematical ceiling of the rational
quotient (the spec's `ceil(nest_dim/ratio)`), for a positive divisor. -/
theorem ceilDivNat_eq_ceil (a b : Nat) (hb : 1 ≤ b) :
    (ceilDivNat a b : ℤ) = ⌈(a : ℚ) / (b : ℚ)⌉ := by
  have hb0 : (0 : ℚ) < (b : ℚ) := by exact_mod_cast hb
  have hdm := Nat.div_add_mod (a + b - 1) b
  have hmod := Nat.mod_lt (a + b - 1) (show 0 < b by omega)
  have h1 : a ≤ b * ((a + b - 1) / b) := by omega
  have h2 : b * ((a + b - 1) / b) < a + b := by omega
  have h1q : (a : ℚ) ≤ (((a + b - 1) / b : ℕ) : ℚ) * (b : ℚ) := by
    rw [mul_comm]; exact_mod_cast h1
  have h2q : (((a + b - 1) / b : ℕ) : ℚ) * (b : ℚ) < (a : ℚ) + (b : ℚ) := by
    rw [mul_comm]; exact_mod_cast h2
  rw [eq_comm, Int.ceil_eq_iff]
  constructor
  · have hlt : ((ceilDivNat a b : ℕ) : ℚ) - 1 < (a : ℚ) / (b : ℚ) := by
      rw [lt_div_iff hb0, ceilDivNat]
      nlinarith [h2q]
    exact_mod_cast hlt
  · have hle : (a : ℚ) / (b : ℚ) ≤ ((ceilDivNat a b : ℕ) : ℚ) := by
      rw [div_le_iff hb0, ceilDivNat]
      exact h1q
    exact_mod_cast hle

/-- Helper: the ceiling division of a positive numerator is at least 1. -/
theorem one_le_ceilDivNat (a b : Nat) (ha : 1 ≤ a) (hb : 1 ≤ b) :
    1 ≤ ceilDivNat a b := by
  rw [ceilDivNat, Nat.one_le_div_iff (by omega)]
  omega

/-- C2 counterexample: `suggest_nest_location(100, 31, 3)` does not return
44; the code computes `max(1, 100//2 - math.ceil(31/3)//2)
= max(1, 50 - 11//2) = max(1, 50 - 5) = 45`. -/
theorem c2_counterexample : ¬ (suggestNestLocation 100 31 3 = 44) := by decide

/-- C2 (amended): `suggest_start(100, 31, 3)` returns exactly 45, which is
`max(1, 100//2 - ceil(31/3)//2)` with integer halving of the parent
dimension, ceiling division for the nest size, and integer halving of the
nest size, per spec section 4.3. -/
theorem c2_suggest_start_scenario :
    suggestNestLocation 100 31 3 = 45 ∧
    (suggestNestLocation 100 31 3 : ℤ) =
      max 1 ((100 : ℤ) / 2 - ⌈(31 : ℚ) / (3 : ℚ)⌉ / 2) := by
  constructor
  · decide
  · have h := ceilDivNat_eq_ceil 31 3 (by decide)
    norm_num at h
    rw [← h]
    decide

/-- C4: the fit check of `configure_geogrid` computes
`i_end = i_start + ceil(nest_we/ratio) - 1` and
`j_end = j_start + ceil(nest_sn/ratio) - 1` (with the mathematical ceiling
of the rational quotient), and reports the placement as fitting iff
`i_end <= parent_we` and `j_end <= parent_sn`; in particular a placement
beyond the parent bounds yields `fits = false`. -/
theorem c4_check_fit (pwe psn nwe nsn r iS jS : Nat)
    (hnwe : 1 ≤ nwe) (hnsn : 1 ≤ nsn) (hr : 1 ≤ r)
    (hiS : 1 ≤ iS) (hjS : 1 ≤ jS) :
    ((checkFit pwe psn nwe nsn r iS jS).1 : ℤ)
        = iS + ⌈(nwe : ℚ) / (r : ℚ)⌉ - 1 ∧
    ((checkFit pwe psn nwe nsn r iS jS).2.1 : ℤ)
        = jS + ⌈(nsn : ℚ) / (r : ℚ)⌉ - 1 ∧
    ((checkFit pwe psn nwe nsn r iS jS).2.2 = true ↔
      (checkFit pwe psn nwe nsn r iS jS).1 ≤ pwe ∧
      (checkFit pwe psn nwe nsn r iS jS).2.1 ≤ psn) ∧
    (pwe < (checkFit pwe psn nwe nsn r iS jS).1 ∨
        psn < (checkFit pwe psn nwe nsn r iS jS).2.1 →
      (checkFit pwe psn nwe nsn r iS jS).2.2 = false) := by
  have hcw := one_le_ceilDivNat nwe r hnwe hr
  have hcs := one_le_ceilDivNat nsn r hnsn hr
  have e1 : (checkFit pwe psn nwe nsn r iS jS).1 = iS + ceilDivNat nwe r - 1 := rfl
  have e2 : (checkFit pwe psn nwe nsn r iS jS).2.1 = jS + ceilDivNat nsn r - 1 := rfl
  have e3 : (checkFit pwe psn nwe nsn r iS jS).2.2
      = !(decide (pwe < iS + ceilDivNat nwe r - 1)
          || decide (psn < jS + ceilDivNat nsn r - 1)) := rfl
  refine ⟨?_, ?_, ?_, ?_⟩
  · rw [e1, ← ceilDivNat_eq_ceil nwe r hr]
    omega
  · rw [e2, ← ceilDivNat_eq_ceil nsn r hr]
    omega
  · rw [e1, e2, e3]
    simp only [Bool.not_eq_true', Bool.or_eq_false_iff, decide_eq_false_iff_not]
    omega
  · rw [e1, e2, e3]
    simp only [Bool.not_eq_false', Bool.or_eq_true, decide_eq_true_eq]
    omega

/-- C5 counterexample: for a nest whose footprint is larger than the
parent (`parent_we = 5`, `nest_we = 100`, `ratio = 1`), `check_fit`
reports `fits = false` but the placement produced by the repair step still
does not fit, refuting "the resulting placement fits within the parent per
check_fit". -/
theorem c5_counterexample :
    (checkFit 5 5 100 3 1 1 1).2.2 = false ∧
    repairFit 5 5 100 3 1 1 1 = (1, 1) ∧
    (checkFit 5 5 100 3 1 (repairFit 5 5 100 3 1 1 1).1
      (repairFit 5 5 100 3 1 1 1).2).2.2 = false := by decide

/-- C5 (amended): for every placement reported as not fitting by
`check_fit`, the repair sets the start of each exceeded axis independently
to `max(1, parent_dim - ceil(nest_dim/ratio) + 1)` and leaves the start of
an axis within bounds unchanged; provided the nest footprint is no larger
than the parent on each axis (`ceil(nest_we/ratio) <= parent_we` and
`ceil(nest_sn/ratio) <= parent_sn`), the repaired placement fits per
`check_fit`. -/
theorem c5_repair (pwe psn nwe nsn r iS jS : Nat)
    (hnwe : 1 ≤ nwe) (hnsn : 1 ≤ nsn) (hr : 1 ≤ r)
    (hiS : 1 ≤ iS) (hjS : 1 ≤ jS)
    (hwe : ceilDivNat nwe r ≤ pwe) (hsn : ceilDivNat nsn r ≤ psn)
    (hnofit : (checkFit pwe psn nwe nsn r iS jS).2.2 = false) :
    (pwe < iS + ceilDivNat nwe r - 1 →
      (repairFit pwe psn nwe nsn r iS jS).1
        = max 1 (pwe - ceilDivNat nwe r + 1)) ∧
    (¬ pwe < iS + ceilDivNat nwe r - 1 →
      (repairFit pwe psn nwe nsn r iS jS).1 = iS) ∧
    (psn < jS + ceilDivNat nsn r - 1 →
      (repairFit pwe psn nwe nsn r iS jS).2
        = max 1 (psn - ceilDivNat nsn r + 1)) ∧
    (¬ psn < jS + ceilDivNat nsn r - 1 →
      (repairFit pwe psn nwe nsn r iS jS).2 = jS) ∧
    (checkFit pwe psn nwe nsn r (repairFit pwe psn nwe nsn r iS jS).1
      (repairFit pwe psn nwe nsn r iS jS).2).2.2 = true := by
  have hcw := one_le_ceilDivNat nwe r hnwe hr
  have hcs := one_le_ceilDivNat nsn r hnsn hr
  have e1 : (repairFit pwe psn nwe nsn r iS jS).1
      = if pwe < iS + ceilDivNat nwe r - 1
          then max 1 (pwe - ceilDivNat nwe r + 1) else iS := rfl
  have e2 : (repairFit pwe psn nwe nsn r iS jS).2
      = if psn < jS + ceilDivNat nsn r - 1
          then max 1 (psn - ceilDivNat nsn r + 1) else jS := rfl
  refine ⟨?_, ?_, ?_, ?_, ?_⟩
  · intro h; rw [e1, if_pos h]
  · intro h; rw [e1, if_neg h]
  · intro h; rw [e2, if_pos h]
  · intro h; rw [e2, if_neg h]
  · have e3 : ∀ a b : Nat, (checkFit pwe psn nwe nsn r a b).2.2
        = !(decide (pwe < a + ceilDivNat nwe r - 1)
            || decide (psn < b + ceilDivNat nsn r - 1)) := fun _ _ => rfl
    rw [e3, e1, e2]
    simp only [Bool.not_eq_true', Bool.or_eq_false_iff, decide_eq_false_iff_not]
    constructor
    · split
      · omega
      · omega
    · split
      · omega
      · omega

/-- C4 witness: the fit check at the concrete placement
`(parent 100x100, nest 31x31, ratio 3, start (44, 44))`. -/
theorem c4_witness :
    ((checkFit 100 100 31 31 3 44 44).1 : ℤ) = 54 ∧
    ((checkFit 100 100 31 31 3 44 44).2.1 : ℤ) = 54 ∧
    (checkFit 100 100 31 31 3 44 44).2.2 = true := by
  have h := c4_check_fit 100 100 31 31 3 44 44 (by decide) (by decide) (by decide)
    (by decide) (by decide)
  have hc : ⌈((31 : ℕ) : ℚ) / ((3 : ℕ) : ℚ)⌉ = (11 : ℤ) := by
    rw [← ceilDivNat_eq_ceil 31 3 (by decide)]
    decide
  refine ⟨?_, ?_, (h.2.2.1).mpr (by decide)⟩
  · rw [h.1, hc]
    decide
  · rw [h.2.1, hc]
    decide

/-- C5 witness: a 12x30 nest at ratio 3 placed at (9, 1) in a 10x10 parent
exceeds the west-east axis; the repair resets `i_parent_start` to 7,
leaves `j_parent_start` at 1, and the repaired placement fits. -/
theorem c5_witness :
    (repairFit 10 10 12 30 3 9 1).1 = 7 ∧
    (repairFit 10 10 12 30 3 9 1).2 = 1 ∧
    (checkFit 10 10 12 30 3 (repairFit 10 10 12 30 3 9 1).1
      (repairFit 10 10 12 30 3 9 1).2).2.2 = true := by
  have h := c5_repair 10 10 12 30 3 9 1 (by decide) (by decide) (by decide)
    (by decide) (by decide) (by decide) (by decide) (by decide)
  refine ⟨?_, ?_, h.2.2.2.2⟩
  · rw [h.1 (by decide)]
    decide
  · rw [h.2.2.2.1 (by decide)]

/-! ## Values, parameter mappings, and Python runtime primitives

Parameter values are integers, floats (exact rationals, see the header),
strings, or lists of scalars; a parameter mapping is an insertion-ordered
association list mirroring a Python `dict`. -/

/-- An element of a list-valued parameter. -/
inductive Scalar where
  | SInt (i : Int)
  | SFloat (q : ℚ)
  | SStr (s : Str)
deriving DecidableEq

/-- A parameter value: scalar or list, as stored by the tool. -/
inductive Value where
  | VInt (i : Int)
  | VFloat (q : ℚ)
  | VStr (s : Str)
  | VList (xs : List Scalar)
deriving DecidableEq

/-- A section's parameters: an insertion-ordered `dict`. -/
abbrev Params := List (Str × Value)

/-- `dict` lookup (first, i.e. unique, occurrence of the key). -/
def dlookup (p : Params) (k : Str) : Option Value :=
  match p with
  | [] => none
  | (k', v) :: rest => if k' = k then some v else dlookup rest k

/-- Python `key in params`. -/
def dcontains (p : Params) (k : Str) : Bool := (dlookup p k).isSome

/-- Python `params[key] = v`: replace in place if the key exists
(keeping its position), otherwise append. -/
def dset (p : Params) (k : Str) (v : Value) : Params :=
  match p with
  | [] => [(k, v)]
  | (k', v') :: rest => if k' = k then (k, v) :: rest else (k', v') :: dset rest k v

/-- Result of a Python computation: a value, or an uncaught exception
(`KeyError`, `IndexError`, `TypeError`, `ZeroDivisionError`, ...). -/
inductive PyRes (α : Type) where
  | ok (a : α)
  | exn
deriving DecidableEq

instance : Monad PyRes where
  pure := PyRes.ok
  bind := fun r f => match r with | .ok a => f a | .exn => .exn

@[simp] theorem pyres_ok_bind {α β : Type} (a : α) (f : α → PyRes β) :
    (PyRes.ok a >>= f) = f a := rfl

@[simp] theorem pyres_exn_bind {α β : Type} (f : α → PyRes β) :
    ((PyRes.exn : PyRes α) >>= f) = PyRes.exn := rfl

@[simp] theorem pyres_pure_eq {α : Type} (a : α) :
    (pure a : PyRes α) = PyRes.ok a := rfl

/-- Python `params[key]` on a dict: `KeyError` when absent. -/
def dgetP (p : Params) (k : Str) : PyRes Value :=
  match dlookup p k with
  | some v => .ok v
  | none => .exn

/-- Python `len(...)`: defined on lists and strings, `TypeError` on
numbers. -/
def pyLen : Value → PyRes Nat
  | .VList xs => .ok xs.length
  | .VStr s => .ok s.length
  | _ => .exn

/-- Python `x.append(e)`: only lists have `append`. -/
def pyAppendS : Value → Scalar → PyRes Value
  | .VList xs, x => .ok (.VList (xs ++ [x]))
  | _, _ => .exn

/-- Python `x[-1]`: last element of a list, or (as a one-character string)
of a string; `IndexError` when empty. -/
def pyLastS : Value → PyRes Scalar
  | .VList xs =>
    match xs.getLast? with
    | some x => .ok x
    | none => .exn
  | .VStr s =>
    match s.getLast? with
    | some c => .ok (.SStr [c])
    | none => .exn
  | _ => .exn

/-- Python `x[i]` with an integer index: negative indices count from the
end; out-of-range indices raise `IndexError`. -/
def pyIndexS (v : Value) (i : Int) : PyRes Scalar :=
  match v with
  | .VList xs =>
    if 0 ≤ (if i < 0 then i + xs.length else i) then
      match xs.get? (if i < 0 then i + xs.length else i).toNat with
      | some x => .ok x
      | none => .exn
    else .exn
  | .VStr s =>
    if 0 ≤ (if i < 0 then i + s.length else i) then
      match s.get? (if i < 0 then i + s.length else i).toNat with
      | some c => .ok (.SStr [c])
      | none => .exn
    else .exn
  | _ => .exn

/-- Python `x - 1` on a scalar. -/
def sSub1 : Scalar → PyRes Scalar
  | .SInt i => .ok (.SInt (i - 1))
  | .SFloat q => .ok (.SFloat (q - 1))
  | .SStr _ => .exn

/-- A scalar used as a list index must be an integer. -/
def sToIdx : Scalar → PyRes Int
  | .SInt i => .ok i
  | _ => .exn

/-- Python `a // b` (floor division; `float` results stay `float`). -/
def sFloorDiv : Scalar → Scalar → PyRes Scalar
  | .SInt a, .SInt b => if b = 0 then .exn else .ok (.SInt (Int.fdiv a b))
  | .SInt a, .SFloat b => if b = 0 then .exn else .ok (.SFloat ((⌊(a : ℚ) / b⌋ : ℤ) : ℚ))
  | .SFloat a, .SInt b => if b = 0 then .exn else .ok (.SFloat ((⌊a / (b : ℚ)⌋ : ℤ) : ℚ))
  | .SFloat a, .SFloat b => if b = 0 then .exn else .ok (.SFloat ((⌊a / b⌋ : ℤ) : ℚ))
  | _, _ => .exn

/-- Python `a - b` on scalars. -/
def sSub : Scalar → Scalar → PyRes Scalar
  | .SInt a, .SInt b => .ok (.SInt (a - b))
  | .SInt a, .SFloat b => .ok (.SFloat ((a : ℚ) - b))
  | .SFloat a, .SInt b => .ok (.SFloat (a - (b : ℚ)))
  | .SFloat a, .SFloat b => .ok (.SFloat (a - b))
  | _, _ => .exn

/-- Python `max(1, x)` (`max` keeps the first argument on ties, so an
integral tie yields the `int` 1). -/
def sMax1 : Scalar → PyRes Scalar
  | .SInt i => .ok (.SInt (max 1 i))
  | .SFloat q => if 1 < q then .ok (.SFloat q) else .ok (.SInt 1)
  | .SStr _ => .exn

/-- Source lines 142-144: `if last_val % 2 == 0: last_val += 1` (Python
`%` has the divisor's sign, i.e. `Int.fmod`).  A string raises
`TypeError` here (strings with `%`-format specifiers, which Python would
instead format, are not modelled: they never occur in grid-size lists). -/
def sBump : Scalar → PyRes Scalar
  | .SInt i => .ok (.SInt (if Int.fmod i 2 = 0 then i + 1 else i))
  | .SFloat q => .ok (if q - 2 * ((⌊q / 2⌋ : ℤ) : ℚ) = 0 then .SFloat (q + 1) else .SFloat q)
  | .SStr _ => .exn

/-- Python `x[:m]` for a natural `m`. -/
def pySliceTake : Value → Nat → PyRes Value
  | .VList xs, m => .ok (.VList (xs.take m))
  | .VStr s, m => .ok (.VStr (s.take m))
  | _, _ => .exn

/-! ## The domain list synchronizer
(source: `adjust_params_for_max_dom`, lines 101-158). -/

/-- Key `"parent_id"`. -/
def kPid : Str := strOf ("parent_id")

/-- Key `"parent_grid_ratio"`. -/
def kPgr : Str := strOf ("parent_grid_ratio")

/-- Key `"i_parent_start"`. -/
def kIps : Str := strOf ("i_parent_start")

/-- Key `"j_parent_start"`. -/
def kJps : Str := strOf ("j_parent_start")

/-- Key `"e_we"`. -/
def kEwe : Str := strOf ("e_we")

/-- Key `"e_sn"`. -/
def kEsn : Str := strOf ("e_sn")

/-- Key `"geog_data_res"`. -/
def kGdr : Str := strOf ("geog_data_res")

/-- The source's `list_params` (line 103). -/
def listParams : List Str := [kPid, kPgr, kIps, kJps, kEwe, kEsn, kGdr]

/-- `params[key].append(x)` followed by no further statements: the value
at `key` must be a list; the mapping with the element appended is
returned. -/
def appendK (p : Params) (key : Str) (v : Value) (x : Scalar) : PyRes Params := do
  let v' ← pyAppendS v x
  pure (dset p key v')

/-- The suggested start value appended by the `i_parent_start` /
`j_parent_start` branch (source lines 127-130 resp. 132-135):
`parent_idx = params["parent_id"][n] - 1`;
`center = params[dim_key][parent_idx] // 2`;
`child_size = params[dim_key][n-1] // params["parent_grid_ratio"][n-1]`;
`max(1, center - child_size // 2)`, where `n = len(params[key])` and
`dim_key` is `"e_we"` resp. `"e_sn"`. -/
def ijScalar (p : Params) (dimKey : Str) (n : Nat) : PyRes Scalar := do
  let pid ← dgetP p kPid
  let pidn ← pyIndexS pid (n : Int)
  let pidm1 ← sSub1 pidn
  let pidx ← sToIdx pidm1
  let dv ← dgetP p dimKey
  let pcell ← pyIndexS dv pidx
  let center ← sFloorDiv pcell (.SInt 2)
  let a ← pyIndexS dv ((n : Int) - 1)
  let pgr ← dgetP p kPgr
  let b ← pyIndexS pgr ((n : Int) - 1)
  let cs ← sFloorDiv a b
  let cs2 ← sFloorDiv cs (.SInt 2)
  let df ← sSub center cs2
  sMax1 df

/-- The condition `key == K and len(params[key]) > 0 and
len(params[dim_key]) > len(params[key])` of source lines 126 and 131, with
Python's short-circuit evaluation (the sibling lookup can raise). -/
def ijCond (p : Params) (key target dimKey : Str) (n : Nat) : PyRes Bool :=
  if key = target then
    (if 0 < n then do
        let dv ← dgetP p dimKey
        let m ← pyLen dv
        pure (decide (n < m))
      else pure false)
  else pure false

/-- One iteration of the `while len(params[key]) < max_dom` body of
`adjust_params_for_max_dom` (source lines 113-153), for the given key.
When no branch applies (the `parent_id` / `parent_grid_ratio` branches
require a non-empty list), the body performs no mutation and the result is
the unchanged mapping — which is how the surrounding loop can fail to make
progress. -/
def growOnce (p : Params) (key : Str) : PyRes Params := do
  let v ← dgetP p key
  let n ← pyLen v
  if key = kPid then
    if 0 < n then appendK p key v (.SInt (n : Int))
    else pure p
  else if key = kPgr then
    if 0 < n then
      if n = 1 then appendK p key v (.SInt 3)
      else do
        let x ← pyLastS v
        appendK p key v x
    else pure p
  else if key = kIps ∨ key = kJps then do
    let c1 ← ijCond p key kIps kEwe n
    if c1 then do
      let mx ← ijScalar p kEwe n
      appendK p key v mx
    else do
      let c2 ← ijCond p key kJps kEsn n
      if c2 then do
        let mx ← ijScalar p kEsn n
        appendK p key v mx
      else appendK p key v (.SInt 1)
  else if key = kEwe ∨ key = kEsn then
    if 0 < n then do
      let x ← pyLastS v
      let x' ← sBump x
      appendK p key v x'
    else appendK p key v (.SInt 100)
  else if key = kGdr then
    if 0 < n then do
      let x ← pyLastS v
      appendK p key v x
    else appendK p key v (.SStr (strOf ("default")))
  else pure p

/-- The `while len(params[key]) < max_dom` loop (source line 113), with
explicit fuel; `none` means the fuel ran out (the marker used to witness
non-termination). -/
def growLoop (fuel : Nat) (p : Params) (key : Str) (maxDom : Nat) :
    Option (PyRes Params) :=
  match fuel with
  | 0 => none
  | fuel + 1 =>
    match dgetP p key with
    | .exn => some .exn
    | .ok v =>
      match pyLen v with
      | .exn => some .exn
      | .ok n =>
        if n < maxDom then
          match growOnce p key with
          | .exn => some .exn
          | .ok p' => growLoop fuel p' key maxDom
        else some (.ok p)

/-- The per-key step of `adjust_params_for_max_dom`: skip an absent key
(source line 109), run the growth loop, then trim with
`params[key] = params[key][:max_dom]` (source line 156). -/
def syncKey (fuel : Nat) (p : Params) (key : Str) (maxDom : Nat) :
    Option (PyRes Params) :=
  if dcontains p key then
    match growLoop fuel p key maxDom with
    | none => none
    | some .exn => some .exn
    | some (.ok p') =>
      match dgetP p' key with
      | .exn => some .exn
      | .ok v =>
        match pySliceTake v maxDom with
        | .exn => some .exn
        | .ok v' => some (.ok (dset p' key v'))
  else some (.ok p)

/-- The `for key in list_params` loop of `adjust_params_for_max_dom`. -/
def adjustGo (fuel : Nat) (maxDom : Nat) : List Str → Params → Option (PyRes Params)
  | [], p => some (.ok p)
  | k :: ks, p =>
    match syncKey fuel p k maxDom with
    | none => none
    | some .exn => some .exn
    | some (.ok p') => adjustGo fuel maxDom ks p'

/-- Source `adjust_params_for_max_dom(params, max_dom)` (lines 101-158),
with explicit fuel for the growth loops. -/
def adjustParamsForMaxDom (fuel : Nat) (p : Params) (maxDom : Nat) :
    Option (PyRes Params) :=
  adjustGo fuel maxDom listParams p

/-! ### Dictionary lemmas -/

theorem dlookup_dset_self (p : Params) (k : Str) (v : Value) :
    dlookup (dset p k v) k = some v := by
  induction p with
  | nil => simp [dset, dlookup]
  | cons kv rest ih =>
    obtain ⟨k', v'⟩ := kv
    by_cases h : k' = k
    · subst h
      simp [dset, dlookup]
    · simp [dset, dlookup, h, ih]

theorem dlookup_dset_ne (p : Params) (k k' : Str) (v : Value) (h : k' ≠ k) :
    dlookup (dset p k v) k' = dlookup p k' := by
  have h' : k ≠ k' := Ne.symm h
  induction p with
  | nil => simp [dset, dlookup, h']
  | cons kv rest ih =>
    obtain ⟨a, w⟩ := kv
    by_cases ha : a = k
    · subst ha
      simp [dset, dlookup, h']
    · simp [dset, dlookup, ha, ih]

theorem dset_eq_of_lookup (p : Params) (k : Str) (v : Value)
    (h : dlookup p k = some v) : dset p k v = p := by
  induction p with
  | nil => simp [dlookup] at h
  | cons kv rest ih =>
    obtain ⟨a, w⟩ := kv
    by_cases ha : a = k
    · subst ha
      simp [dlookup] at h
      simp [dset, h]
    · simp [dlookup, ha] at h
      simp [dset, ha, ih h]

theorem dlookup_eq_none_iff (p : Params) (k : Str) :
    dlookup p k = none ↔ k ∉ p.map Prod.fst := by
  induction p with
  | nil => simp [dlookup]
  | cons kv rest ih =>
    obtain ⟨a, w⟩ := kv
    simp only [dlookup, List.map_cons, List.mem_cons]
    by_cases ha : a = k
    · subst ha
      rw [if_pos rfl]
      exact ⟨fun h1 => Option.noConfusion h1, fun h1 => absurd (Or.inl rfl) h1⟩
    · rw [if_neg ha, ih]
      constructor
      · intro h1 h2
        rcases h2 with h2 | h2
        · exact ha h2.symm
        · exact h1 h2
      · intro h1 h2
        exact h1 (Or.inr h2)

theorem keys_dset (p : Params) (k : Str) (v : Value)
    (h : dlookup p k ≠ none) :
    (dset p k v).map Prod.fst = p.map Prod.fst := by
  induction p with
  | nil => simp [dlookup] at h
  | cons kv rest ih =>
    obtain ⟨a, w⟩ := kv
    by_cases ha : a = k
    · subst ha
      simp [dset]
    · simp [dlookup, ha] at h
      simp [dset, ha, ih h]

/-- Association lists with the same (duplicate-free) key sequence and the
same lookups are equal. -/
theorem params_ext : ∀ (p q : Params),
    q.map Prod.fst = p.map Prod.fst →
    (p.map Prod.fst).Nodup →
    (∀ k, dlookup q k = dlookup p k) → q = p := by
  intro p
  induction p with
  | nil =>
    intro q hk _ _
    cases q with
    | nil => rfl
    | cons a l => simp at hk
  | cons hd rest ih =>
    intro q hk hnd hl
    obtain ⟨k₀, v₀⟩ := hd
    cases q with
    | nil => simp at hk
    | cons qhd qrest =>
      obtain ⟨k₁, v₁⟩ := qhd
      simp only [List.map_cons, List.cons.injEq] at hk
      have hk1 : k₁ = k₀ := hk.1
      have hkrest : qrest.map Prod.fst = rest.map Prod.fst := hk.2
      simp only [List.map_cons, List.nodup_cons] at hnd
      have hv : v₁ = v₀ := by
        have h0 := hl k₀
        simp only [dlookup] at h0
        rw [if_pos hk1] at h0
        simp only [ite_true, if_true, eq_self_iff_true] at h0
        exact Option.some.inj h0
      have hrest : qrest = rest := by
        refine ih qrest hkrest hnd.2 ?_
        intro k
        by_cases hk0 : k = k₀
        · subst hk0
          have h1 : dlookup qrest k = none := by
            rw [dlookup_eq_none_iff, hkrest]
            exact hnd.1
          have h2 : dlookup rest k = none := by
            rw [dlookup_eq_none_iff]
            exact hnd.1
          rw [h1, h2]
        · have h0 := hl k
          simp only [dlookup] at h0
          have hne1 : ¬ (k₁ = k) := by
            rw [hk1]
            intro hh
            exact hk0 hh.symm
          have hne0 : ¬ (k₀ = k) := by
            intro hh
            exact hk0 hh.symm
          rw [if_neg hne1, if_neg hne0] at h0
          exact h0
      rw [hk1, hv, hrest]

/-! ### Structure of one growth iteration -/

theorem bind_ok_iff {α β : Type} (m : PyRes α) (f : α → PyRes β) (b : β) :
    (m >>= f) = .ok b ↔ ∃ a, m = .ok a ∧ f a = .ok b := by
  cases m <;> simp

theorem dgetP_ok_iff (p : Params) (k : Str) (v : Value) :
    dgetP p k = .ok v ↔ dlookup p k = some v := by
  rw [dgetP]
  cases h : dlookup p k <;> simp

theorem appendK_ok {p : Params} {key : Str} {v : Value} {x : Scalar} {p' : Params}
    (h : appendK p key v x = .ok p') :
    ∃ xs, v = .VList xs ∧ p' = dset p key (.VList (xs ++ [x])) := by
  cases v <;> simp [appendK, pyAppendS] at h
  case VList xs => exact ⟨xs, rfl, h.symm⟩

/-- The "append" disjunct of `growOnce_ok_shape`, abstracted. -/
theorem growOnce_append_case {p : Params} {key : Str} {v : Value} {x : Scalar}
    {p' : Params} (hv : dgetP p key = .ok v) (h : appendK p key v x = .ok p') :
    ∃ xs y, dlookup p key = some (.VList xs)
      ∧ p' = dset p key (.VList (xs ++ [y])) := by
  rcases appendK_ok h with ⟨xs, rfl, rfl⟩
  exact ⟨xs, x, (dgetP_ok_iff _ _ _).mp hv, rfl⟩

/-- Every successful growth iteration either appends exactly one element
to the (list) value at `key`, or — only for `parent_id` /
`parent_grid_ratio` with an empty value — does nothing. -/
theorem growOnce_ok_shape {p : Params} {key : Str} {p' : Params}
    (hk : key ∈ listParams) (h : growOnce p key = .ok p') :
    (∃ xs x, dlookup p key = some (.VList xs)
      ∧ p' = dset p key (.VList (xs ++ [x]))) ∨
    ((key = kPid ∨ key = kPgr) ∧ p' = p
      ∧ ∃ v, dlookup p key = some v ∧ pyLen v = .ok 0) := by
  rw [growOnce] at h
  rcases (bind_ok_iff _ _ _).mp h with ⟨v, hv, h⟩
  rcases (bind_ok_iff _ _ _).mp h with ⟨n, hn, h⟩
  simp only [listParams, List.mem_cons, List.not_mem_nil, or_false] at hk
  rcases hk with rfl | rfl | rfl | rfl | rfl | rfl | rfl
  · -- parent_id
    rw [if_pos rfl] at h
    by_cases h0 : 0 < n
    · rw [if_pos h0] at h
      exact Or.inl (growOnce_append_case hv h)
    · rw [if_neg h0] at h
      simp only [pyres_pure_eq, PyRes.ok.injEq] at h
      subst h
      refine Or.inr ⟨Or.inl rfl, rfl, v, (dgetP_ok_iff _ _ _).mp hv, ?_⟩
      have : n = 0 := by omega
      rw [← this]
      exact hn
  · -- parent_grid_ratio
    rw [if_neg (by decide), if_pos rfl] at h
    by_cases h0 : 0 < n
    · rw [if_pos h0] at h
      by_cases h1 : n = 1
      · rw [if_pos h1] at h
        exact Or.inl (growOnce_append_case hv h)
      · rw [if_neg h1] at h
        rcases (bind_ok_iff _ _ _).mp h with ⟨x, _, h⟩
        exact Or.inl (growOnce_append_case hv h)
    · rw [if_neg h0] at h
      simp only [pyres_pure_eq, PyRes.ok.injEq] at h
      subst h
      refine Or.inr ⟨Or.inr rfl, rfl, v, (dgetP_ok_iff _ _ _).mp hv, ?_⟩
      have : n = 0 := by omega
      rw [← this]
      exact hn
  · -- i_parent_start
    rw [if_neg (by decide), if_neg (by decide), if_pos (Or.inl rfl)] at h
    rcases (bind_ok_iff _ _ _).mp h with ⟨c1, _, h⟩
    cases c1
    · simp only [Bool.false_eq_true, if_false] at h
      rcases (bind_ok_iff _ _ _).mp h with ⟨c2, _, h⟩
      cases c2
      · simp only [Bool.false_eq_true, if_false] at h
        exact Or.inl (growOnce_append_case hv h)
      · simp only [if_true] at h
        rcases (bind_ok_iff _ _ _).mp h with ⟨mx, _, h⟩
        exact Or.inl (growOnce_append_case hv h)
    · simp only [if_true] at h
      rcases (bind_ok_iff _ _ _).mp h with ⟨mx, _, h⟩
      exact Or.inl (growOnce_append_case hv h)
  · -- j_parent_start
    rw [if_neg (by decide), if_neg (by decide), if_pos (Or.inr rfl)] at h
    rcases (bind_ok_iff _ _ _).mp h with ⟨c1, _, h⟩
    cases c1
    · simp only [Bool.false_eq_true, if_false] at h
      rcases (bind_ok_iff _ _ _).mp h with ⟨c2, _, h⟩
      cases c2
      · simp only [Bool.false_eq_true, if_false] at h
        exact Or.inl (growOnce_append_case hv h)
      · simp only [if_true] at h
        rcases (bind_ok_iff _ _ _).mp h with ⟨mx, _, h⟩
        exact Or.inl (growOnce_append_case hv h)
    · simp only [if_true] at h
      rcases (bind_ok_iff _ _ _).mp h with ⟨mx, _, h⟩
      exact Or.inl (growOnce_append_case hv h)
  · -- e_we
    rw [if_neg (by decide), if_neg (by decide), if_neg (by decide),
      if_pos (Or.inl rfl)] at h
    by_cases h0 : 0 < n
    · rw [if_pos h0] at h
      rcases (bind_ok_iff _ _ _).mp h with ⟨x, _, h⟩
      rcases (bind_ok_iff _ _ _).mp h with ⟨x', _, h⟩
      exact Or.inl (growOnce_append_case hv h)
    · rw [if_neg h0] at h
      exact Or.inl (growOnce_append_case hv h)
  · -- e_sn
    rw [if_neg (by decide), if_neg (by decide), if_neg (by decide),
      if_pos (Or.inr rfl)] at h
    by_cases h0 : 0 < n
    · rw [if_pos h0] at h
      rcases (bind_ok_iff _ _ _).mp h with ⟨x, _, h⟩
      rcases (bind_ok_iff _ _ _).mp h with ⟨x', _, h⟩
      exact Or.inl (growOnce_append_case hv h)
    · rw [if_neg h0] at h
      exact Or.inl (growOnce_append_case hv h)
  · -- geog_data_res
    rw [if_neg (by decide), if_neg (by decide), if_neg (by decide),
      if_neg (by decide), if_pos rfl] at h
    by_cases h0 : 0 < n
    · rw [if_pos h0] at h
      rcases (bind_ok_iff _ _ _).mp h with ⟨x, _, h⟩
      exact Or.inl (growOnce_append_case hv h)
    · rw [if_neg h0] at h
      exact Or.inl (growOnce_append_case hv h)

/-! ### Growth loop lemmas -/

/-- A successful growth loop run only rewrites the list at `key`: its
original elements stay in place, new elements are appended, the length
reaches exactly `maxDom` when growth was needed, and every other key is
untouched. -/
theorem growLoop_ok_shape : ∀ (fuel : Nat) (p : Params) (key : Str)
    (maxDom : Nat) (p' : Params), key ∈ listParams →
    growLoop fuel p key maxDom = some (.ok p') →
    (∀ k, k ≠ key → dlookup p' k = dlookup p k) ∧
    p'.map Prod.fst = p.map Prod.fst ∧
    (∀ xs, dlookup p key = some (.VList xs) →
      ∃ t, dlookup p' key = some (.VList (xs ++ t)) ∧
        (xs.length < maxDom → (xs ++ t).length = maxDom) ∧
        (maxDom ≤ xs.length → t = [])) := by
  intro fuel
  induction fuel with
  | zero =>
    intro p key maxDom p' hk h
    simp [growLoop] at h
  | succ fuel ih =>
    intro p key maxDom p' hk h
    rw [growLoop] at h
    split at h
    · simp at h
    · rename_i v hget
      split at h
      · simp at h
      · rename_i n hlen
        split at h
        · rename_i hlt
          split at h
          · simp at h
          · rename_i p₁ hgrow
            obtain ⟨hfr, hkeys, hval⟩ := ih p₁ key maxDom p' hk h
            rcases growOnce_ok_shape hk hgrow with ⟨xs, x, hxs, rfl⟩ | ⟨_, rfl, _⟩
            · have hpresent : dlookup p key ≠ none := by
                rw [hxs]
                exact fun hc => Option.noConfusion hc
              refine ⟨?_, ?_, ?_⟩
              · intro k hkne
                rw [hfr k hkne, dlookup_dset_ne _ _ _ _ hkne]
              · rw [hkeys, keys_dset _ _ _ hpresent]
              · intro ys hys
                rw [hxs] at hys
                have hysxs : ys = xs := by
                  have := Option.some.inj hys
                  cases this
                  rfl
                subst hysxs
                obtain ⟨t, ht, hlen2, hshort⟩ :=
                  hval (ys ++ [x]) (by rw [dlookup_dset_self])
                have hvxs : v = Value.VList ys := by
                  have h1 := (dgetP_ok_iff p key v).mp hget
                  rw [hxs] at h1
                  exact (Option.some.inj h1).symm
                have hn : n = ys.length := by
                  rw [hvxs] at hlen
                  simpa [pyLen] using (PyRes.ok.inj hlen).symm
                refine ⟨[x] ++ t, ?_, ?_, ?_⟩
                · rw [ht, List.append_assoc]
                · intro _
                  by_cases h2 : (ys ++ [x]).length < maxDom
                  · have := hlen2 h2
                    rw [List.append_assoc] at this
                    exact this
                  · have ht0 : t = [] := hshort (by omega)
                    subst ht0
                    simp only [List.append_nil] at *
                    simp only [List.length_append, List.length_singleton] at h2 ⊢
                    omega
                · intro hge
                  omega
            · exact ⟨hfr, hkeys, hval⟩
        · rename_i hlt
          have hp : p = p' := by
            have h1 := Option.some.inj h
            exact PyRes.ok.inj h1
          subst hp
          refine ⟨fun _ _ => rfl, rfl, ?_⟩
          intro xs hxs
          have hvxs : v = Value.VList xs := by
            have h1 := (dgetP_ok_iff p key v).mp hget
            rw [hxs] at h1
            exact (Option.some.inj h1).symm
          have hn : n = xs.length := by
            rw [hvxs] at hlen
            simpa [pyLen] using (PyRes.ok.inj hlen).symm
          exact ⟨[], by simpa using hxs, by omega, fun _ => rfl⟩

/-- The non-emptiness precondition for the keys whose growth branch can
fail to make progress: if `parent_id` (resp. `parent_grid_ratio`) is
present, it maps to a non-empty list. -/
def PreNE (p : Params) : Prop :=
  (∀ v, dlookup p kPid = some v → ∃ xs, v = Value.VList xs ∧ xs ≠ []) ∧
  (∀ v, dlookup p kPgr = some v → ∃ xs, v = Value.VList xs ∧ xs ≠ [])

/-- With the non-emptiness precondition on the processed key, the growth
loop cannot run out of fuel: every iteration either raises or appends
exactly one element. -/
theorem growLoop_total_aux : ∀ (fuel : Nat) (p : Params) (key : Str) (maxDom : Nat),
    key ∈ listParams →
    ((key = kPid ∨ key = kPgr) → ∀ v, dlookup p key = some v →
      ∃ xs, v = Value.VList xs ∧ xs ≠ []) →
    (∀ v n, dlookup p key = some v → pyLen v = .ok n → maxDom + 1 - n ≤ fuel) →
    1 ≤ fuel →
    growLoop fuel p key maxDom ≠ none := by
  intro fuel
  induction fuel with
  | zero => intro p key maxDom _ _ _ h1; omega
  | succ fuel ih =>
    intro p key maxDom hk hpre hbound _
    rw [growLoop]
    split
    · exact fun hc => Option.noConfusion hc
    · rename_i v hget
      split
      · exact fun hc => Option.noConfusion hc
      · rename_i n hlen
        split
        · rename_i hlt
          split
          · exact fun hc => Option.noConfusion hc
          · rename_i p₁ hgrow
            have hlook : dlookup p key = some v := (dgetP_ok_iff p key v).mp hget
            have hb := hbound v n hlook hlen
            rcases growOnce_ok_shape hk hgrow with ⟨xs, x, hxs, rfl⟩ | ⟨hpk, rfl, v₂, hv₂, hlen₂⟩
            · have hvxs : v = Value.VList xs := by
                rw [hlook] at hxs
                exact Option.some.inj hxs
              have hn : n = xs.length := by
                rw [hvxs] at hlen
                simpa [pyLen] using (PyRes.ok.inj hlen).symm
              refine ih _ key maxDom hk ?_ ?_ ?_
              · intro hcase v' hv'
                rw [dlookup_dset_self] at hv'
                refine ⟨xs ++ [x], (Option.some.inj hv').symm, by simp⟩
              · intro v' n' hv' hlen'
                rw [dlookup_dset_self] at hv'
                have : v' = Value.VList (xs ++ [x]) := (Option.some.inj hv').symm
                rw [this] at hlen'
                have hn' : n' = xs.length + 1 := by
                  simpa [pyLen] using (PyRes.ok.inj hlen').symm
                omega
              · omega
            · -- no-progress branch contradicts the precondition:
              -- the value would have to be an empty list
              rw [hlook] at hv₂
              have hvv : v = v₂ := Option.some.inj hv₂
              subst hvv
              rcases hpre hpk v hlook with ⟨xs, rfl, hne⟩
              have h0 : xs.length = 0 := PyRes.ok.inj hlen₂
              exact absurd (List.eq_nil_of_length_eq_zero h0) hne
        · exact fun hc => Option.noConfusion hc

/-- A successful `syncKey` only rewrites `key` (trim included), and an
absent key is skipped. -/
theorem syncKey_frame {fuel : Nat} {p : Params} {key : Str} {maxDom : Nat}
    {p' : Params} (hk : key ∈ listParams)
    (h : syncKey fuel p key maxDom = some (.ok p')) :
    (∀ k, k ≠ key → dlookup p' k = dlookup p k) ∧
    p'.map Prod.fst = p.map Prod.fst ∧
    (dlookup p key = none → p' = p) := by
  rw [syncKey] at h
  by_cases hc : dcontains p key
  · rw [if_pos hc] at h
    have hsome : dlookup p key ≠ none := by
      rw [dcontains, Option.isSome_iff_exists] at hc
      rcases hc with ⟨v, hv⟩
      rw [hv]
      exact fun hcon => Option.noConfusion hcon
    split at h
    · simp at h
    · simp at h
    · rename_i p₁ hr
      obtain ⟨hfr, hkeys, _⟩ := growLoop_ok_shape fuel p key maxDom p₁ hk hr
      split at h
      · simp at h
      · rename_i v hv
        split at h
        · simp at h
        · rename_i v' hv'
          have hp' : p' = dset p₁ key v' := (PyRes.ok.inj (Option.some.inj h)).symm
          subst hp'
          have hp₁some : dlookup p₁ key ≠ none := by
            rw [(dgetP_ok_iff p₁ key v).mp hv]
            exact fun hcon => Option.noConfusion hcon
          refine ⟨?_, ?_, ?_⟩
          · intro k hkne
            rw [dlookup_dset_ne _ _ _ _ hkne, hfr k hkne]
          · rw [keys_dset _ _ _ hp₁some, hkeys]
          · intro habs
            exact absurd habs hsome
  · rw [if_neg hc] at h
    have hp' : p' = p := (PyRes.ok.inj (Option.some.inj h)).symm
    subst hp'
    exact ⟨fun _ _ => rfl, rfl, fun _ => rfl⟩

/-- `syncKey` cannot run out of fuel under the non-emptiness precondition
for the key it processes. -/
theorem syncKey_total {fuel : Nat} {p : Params} {key : Str} {maxDom : Nat}
    (hk : key ∈ listParams)
    (hpre : (key = kPid ∨ key = kPgr) → ∀ v, dlookup p key = some v →
      ∃ xs, v = Value.VList xs ∧ xs ≠ [])
    (hfuel : maxDom + 1 ≤ fuel) :
    syncKey fuel p key maxDom ≠ none := by
  rw [syncKey]
  by_cases hc : dcontains p key
  · rw [if_pos hc]
    have hbound : ∀ v n, dlookup p key = some v → pyLen v = .ok n →
        maxDom + 1 - n ≤ fuel := by
      intro v n _ _
      omega
    have hgl := growLoop_total_aux fuel p key maxDom hk hpre hbound (by omega)
    split
    · rename_i heq
      exact absurd heq hgl
    · exact fun hcon => Option.noConfusion hcon
    · rename_i p₁ hr
      split
      · exact fun hcon => Option.noConfusion hcon
      · rename_i v hv
        split
        · exact fun hcon => Option.noConfusion hcon
        · exact fun hcon => Option.noConfusion hcon
  · rw [if_neg hc]
    exact fun hcon => Option.noConfusion hcon

/-- A successful `syncKey` with a positive target preserves the
non-emptiness precondition. -/
theorem syncKey_preserves_preNE {fuel : Nat} {p : Params} {key : Str}
    {maxDom : Nat} {p₁ : Params} (hk : key ∈ listParams) (hmd : 1 ≤ maxDom)
    (h : syncKey fuel p key maxDom = some (.ok p₁))
    (hpre : PreNE p) : PreNE p₁ := by
  have main : ∀ kk, (kk = kPid ∨ kk = kPgr) →
      (∀ v, dlookup p kk = some v → ∃ xs, v = Value.VList xs ∧ xs ≠ []) →
      ∀ v₁, dlookup p₁ kk = some v₁ → ∃ xs, v₁ = Value.VList xs ∧ xs ≠ [] := by
    intro kk _ hp v₁ hv₁
    by_cases hkeq : kk = key
    · subst hkeq
      rw [syncKey] at h
      by_cases hc : dcontains p kk
      · rw [if_pos hc] at h
        split at h
        · simp at h
        · simp at h
        · rename_i p₀ hr
          split at h
          · simp at h
          · rename_i v₀ hv₀
            split at h
            · simp at h
            · rename_i v' hv'
              have hp₁ : p₁ = dset p₀ kk v' := (PyRes.ok.inj (Option.some.inj h)).symm
              rw [dcontains, Option.isSome_iff_exists] at hc
              rcases hc with ⟨w, hw⟩
              rcases hp w hw with ⟨xs, rfl, hne⟩
              obtain ⟨_, _, hval⟩ := growLoop_ok_shape fuel p kk maxDom p₀ hk hr
              rcases hval xs hw with ⟨t, ht, _, _⟩
              have hv₀e : v₀ = Value.VList (xs ++ t) := by
                have h1 := (dgetP_ok_iff p₀ kk v₀).mp hv₀
                rw [ht] at h1
                exact (Option.some.inj h1).symm
              have hv'e : v' = Value.VList ((xs ++ t).take maxDom) := by
                rw [hv₀e] at hv'
                exact (PyRes.ok.inj hv').symm
              rw [hp₁, dlookup_dset_self] at hv₁
              refine ⟨(xs ++ t).take maxDom, ?_, ?_⟩
              · rw [← hv'e]
                exact (Option.some.inj hv₁).symm
              · intro hnil
                have hlen0 := congrArg List.length hnil
                rw [List.length_take] at hlen0
                simp only [List.length_nil] at hlen0
                have hxs : 1 ≤ (xs ++ t).length := by
                  have := List.length_pos.mpr hne
                  simp only [List.length_append]
                  omega
                omega
      · rw [if_neg hc] at h
        have hp₁ : p₁ = p := (PyRes.ok.inj (Option.some.inj h)).symm
        rw [hp₁] at hv₁
        exact hp v₁ hv₁
    · obtain ⟨hfr, _, _⟩ := syncKey_frame hk h
      rw [hfr kk hkeq] at hv₁
      exact hp v₁ hv₁
  exact ⟨main kPid (Or.inl rfl) hpre.1, main kPgr (Or.inr rfl) hpre.2⟩

/-- The per-key loop of the synchronizer cannot run out of fuel under the
non-emptiness precondition. -/
theorem adjustGo_total : ∀ (ks : List Str) (p : Params) (fuel maxDom : Nat),
    (∀ k ∈ ks, k ∈ listParams) → PreNE p → 1 ≤ maxDom →
    maxDom + 1 ≤ fuel →
    adjustGo fuel maxDom ks p ≠ none := by
  intro ks
  induction ks with
  | nil =>
    intro p fuel maxDom _ _ _ _
    rw [adjustGo]
    exact fun hcon => Option.noConfusion hcon
  | cons k ks ih =>
    intro p fuel maxDom hks hpre hmd hfuel
    rw [adjustGo]
    have hk : k ∈ listParams := hks k (List.mem_cons_self k ks)
    have hpk : (k = kPid ∨ k = kPgr) → ∀ v, dlookup p k = some v →
        ∃ xs, v = Value.VList xs ∧ xs ≠ [] := by
      intro hcase
      rcases hcase with rfl | rfl
      · exact hpre.1
      · exact hpre.2
    have hsk := syncKey_total hk hpk hfuel
    split
    · rename_i heq
      exact absurd heq hsk
    · exact fun hcon => Option.noConfusion hcon
    · rename_i p₁ heq
      exact ih p₁ fuel maxDom (fun kk hkk => hks kk (List.mem_cons_of_mem k hkk))
        (syncKey_preserves_preNE hk hmd heq hpre) hmd hfuel

/-- A successful synchronizer run leaves every key outside the processed
set untouched, and preserves the key sequence. -/
theorem adjustGo_frame : ∀ (ks : List Str) (p p' : Params) (fuel maxDom : Nat),
    (∀ k ∈ ks, k ∈ listParams) →
    adjustGo fuel maxDom ks p = some (.ok p') →
    (∀ k, k ∉ ks → dlookup p' k = dlookup p k) ∧
    p'.map Prod.fst = p.map Prod.fst := by
  intro ks
  induction ks with
  | nil =>
    intro p p' fuel maxDom _ h
    rw [adjustGo] at h
    have hp : p' = p := (PyRes.ok.inj (Option.some.inj h)).symm
    subst hp
    exact ⟨fun _ _ => rfl, rfl⟩
  | cons k ks ih =>
    intro p p' fuel maxDom hks h
    rw [adjustGo] at h
    split at h
    · simp at h
    · simp at h
    · rename_i p₁ heq
      have hk : k ∈ listParams := hks k (List.mem_cons_self k ks)
      obtain ⟨hfr1, hkeys1, _⟩ := syncKey_frame hk heq
      obtain ⟨hfr2, hkeys2⟩ := ih p₁ p' fuel maxDom
        (fun kk hkk => hks kk (List.mem_cons_of_mem k hkk)) h
      refine ⟨?_, hkeys2.trans hkeys1⟩
      intro kk hkk
      have hne : kk ≠ k := fun hcon => hkk (hcon ▸ List.mem_cons_self k ks)
      have hnotin : kk ∉ ks := fun hcon => hkk (List.mem_cons_of_mem k hcon)
      rw [hfr2 kk hnotin, hfr1 kk hne]

/-- With `parent_id` empty, the growth loop makes no progress and every
fuel amount is exhausted. -/
theorem adjust_diverges :
    ∀ fuel, adjustParamsForMaxDom fuel [(kPid, Value.VList [])] 1 = none := by
  have hstep : ∀ f, growLoop (f + 1) [(kPid, Value.VList [])] kPid 1
      = growLoop f [(kPid, Value.VList [])] kPid 1 := fun _ => rfl
  have hloop : ∀ f, growLoop f [(kPid, Value.VList [])] kPid 1 = none := by
    intro f
    induction f with
    | zero => rfl
    | succ f ih =>
      rw [hstep]
      exact ih
  intro fuel
  have hsync : syncKey fuel [(kPid, Value.VList [])] kPid 1 = none := by
    rw [syncKey, if_pos (by decide : dcontains [(kPid, Value.VList [])] kPid = true),
      hloop fuel]
  have h1 : adjustParamsForMaxDom fuel [(kPid, Value.VList [])] 1
      = match syncKey fuel [(kPid, Value.VList [])] kPid 1 with
        | none => none
        | some .exn => some .exn
        | some (.ok p') => adjustGo fuel 1 [kPgr, kIps, kJps, kEwe, kEsn, kGdr] p' := rfl
  rw [h1, hsync]

/-- C9: when `parent_id` and `parent_grid_ratio`, if present, map to
non-empty lists, `adjust_params_for_max_dom` terminates for every target
`max_dom >= 1` (every successful growth iteration appends exactly one
element to the list being grown, so `max_dom + 1` loop iterations per key
always suffice); without the non-emptiness precondition termination is not
guaranteed (with `parent_id = []` the loop body makes no progress and the
call diverges). -/
theorem c9_sync_termination :
    (∀ (p : Params) (maxDom fuel : Nat),
      1 ≤ maxDom → PreNE p → maxDom + 1 ≤ fuel →
      adjustParamsForMaxDom fuel p maxDom ≠ none) ∧
    (∀ (p : Params) (key : Str) (p' : Params), key ∈ listParams →
      (∀ v, dlookup p key = some v → ∃ xs, v = Value.VList xs ∧ xs ≠ []) →
      growOnce p key = .ok p' →
      ∃ xs x, dlookup p key = some (.VList xs)
        ∧ p' = dset p key (.VList (xs ++ [x]))) ∧
    (∃ (p : Params) (maxDom : Nat), 1 ≤ maxDom ∧
      ∀ fuel, adjustParamsForMaxDom fuel p maxDom = none) := by
  refine ⟨?_, ?_, ?_⟩
  · intro p maxDom fuel hmd hpre hfuel
    exact adjustGo_total listParams p fuel maxDom (fun _ hk => hk) hpre hmd hfuel
  · intro p key p' hk hpre hgrow
    rcases growOnce_ok_shape hk hgrow with happ | ⟨_, _, v, hv, hlen0⟩
    · exact happ
    · rcases hpre v hv with ⟨xs, rfl, hne⟩
      have h0 : xs.length = 0 := PyRes.ok.inj hlen0
      exact absurd (List.eq_nil_of_length_eq_zero h0) hne
  · exact ⟨[(kPid, Value.VList [])], 1, le_refl 1, adjust_diverges⟩

/-- C9 witness: with `parent_id = [1]` non-empty, the synchronizer with
target 2 and fuel 3 does not run out of fuel. -/
theorem c9_witness :
    adjustParamsForMaxDom 3 [(kPid, Value.VList [Scalar.SInt 1])] 2 ≠ none := by
  have hpre : PreNE [(kPid, Value.VList [Scalar.SInt 1])] := by
    constructor
    · intro v hv
      have h1 : dlookup [(kPid, Value.VList [Scalar.SInt 1])] kPid
          = some (Value.VList [Scalar.SInt 1]) := by decide
      rw [h1] at hv
      exact ⟨[Scalar.SInt 1], (Option.some.inj hv).symm, by decide⟩
    · intro v hv
      have h1 : dlookup [(kPid, Value.VList [Scalar.SInt 1])] kPgr = none := by decide
      rw [h1] at hv
      exact Option.noConfusion hv
  exact c9_sync_termination.1 [(kPid, Value.VList [Scalar.SInt 1])] 2 3
    (by omega) hpre (by omega)

/-- C10: a completed synchronizer run changes only the values of the
seven list keys: every other key's value is unchanged, the key sequence
(and so the key set) is preserved, and a list key absent from the mapping
remains absent. -/
theorem c10_sync_frame (p : Params) (maxDom fuel : Nat) (p' : Params)
    (h : adjustParamsForMaxDom fuel p maxDom = some (.ok p')) :
    (∀ k, k ∉ listParams → dlookup p' k = dlookup p k) ∧
    p'.map Prod.fst = p.map Prod.fst ∧
    (∀ k, k ∈ listParams → dlookup p k = none → dlookup p' k = none) := by
  obtain ⟨hfr, hkeys⟩ := adjustGo_frame listParams p p' fuel maxDom (fun _ hk => hk) h
  refine ⟨hfr, hkeys, ?_⟩
  intro k _ hnone
  rw [dlookup_eq_none_iff] at hnone ⊢
  rw [hkeys]
  exact hnone

/-- C10 witness: with only `dx` and `e_we` present, the run to `max_dom`
2 leaves `dx` unchanged, keeps the key sequence, and creates no
`parent_id`. -/
theorem c10_witness :
    dlookup [(strOf ("dx"), Value.VInt 30000),
        (kEwe, Value.VList [Scalar.SInt 100, Scalar.SInt 101])] (strOf ("dx"))
      = dlookup [(strOf ("dx"), Value.VInt 30000),
        (kEwe, Value.VList [Scalar.SInt 100])] (strOf ("dx")) ∧
    ([(strOf ("dx"), Value.VInt 30000),
        (kEwe, Value.VList [Scalar.SInt 100, Scalar.SInt 101])] : Params).map Prod.fst
      = ([(strOf ("dx"), Value.VInt 30000),
        (kEwe, Value.VList [Scalar.SInt 100])] : Params).map Prod.fst ∧
    dlookup [(strOf ("dx"), Value.VInt 30000),
        (kEwe, Value.VList [Scalar.SInt 100, Scalar.SInt 101])] kPid = none := by
  have h := c10_sync_frame
    [(strOf ("dx"), Value.VInt 30000), (kEwe, Value.VList [Scalar.SInt 100])] 2 3
    [(strOf ("dx"), Value.VInt 30000),
      (kEwe, Value.VList [Scalar.SInt 100, Scalar.SInt 101])]
    (by decide)
  exact ⟨h.1 (strOf ("dx")) (by decide), h.2.1,
    h.2.2 kPid (by decide) (by decide)⟩

/-- C6: growing `e_we` (or `e_sn`) appends an entry equal to the previous
one, incremented by 1 when the previous entry is even, and appends 100
when the list was empty; in particular growing `e_we` from `[100]` to
target length 3 yields exactly `[100, 101, 101]`. -/
theorem c6_ewe_growth :
    (∀ (p : Params) (key : Str) (xs : List Int), (key = kEwe ∨ key = kEsn) →
      dlookup p key = some (.VList (xs.map Scalar.SInt)) →
      growOnce p key = .ok (dset p key (.VList (xs.map Scalar.SInt ++
        [Scalar.SInt (match xs.getLast? with
          | none => 100
          | some v => if Int.fmod v 2 = 0 then v + 1 else v)])))) ∧
    adjustParamsForMaxDom 5 [(kEwe, Value.VList [Scalar.SInt 100])] 3
      = some (.ok [(kEwe,
          Value.VList [Scalar.SInt 100, Scalar.SInt 101, Scalar.SInt 101])]) := by
  constructor
  · intro p key xs hkey hv
    have hget : dgetP p key = .ok (.VList (xs.map Scalar.SInt)) :=
      (dgetP_ok_iff _ _ _).mpr hv
    have hne1 : key ≠ kPid := by
      rcases hkey with rfl | rfl <;> decide
    have hne2 : key ≠ kPgr := by
      rcases hkey with rfl | rfl <;> decide
    have hne3 : key ≠ kIps := by
      rcases hkey with rfl | rfl <;> decide
    have hne4 : key ≠ kJps := by
      rcases hkey with rfl | rfl <;> decide
    rcases List.eq_nil_or_concat xs with rfl | ⟨ys, v, rfl⟩
    · rw [growOnce, hget]
      simp [pyLen, appendK, pyAppendS, hne1, hne2, hne3, hne4, hkey]
    · have hlast : ((ys ++ [v]).map Scalar.SInt).getLast? = some (Scalar.SInt v) := by
        rw [List.map_append]
        exact List.getLast?_concat _
      rw [growOnce, hget]
      simp [pyLen, appendK, pyAppendS, hne1, hne2, hne3, hne4, hkey,
        pyLastS, hlast, sBump, List.getLast?_concat, List.concat_eq_append]
  · decide

/-- C6 witness: one growth iteration on `e_we = [4]` appends `5` (4 is
even, so it is bumped). -/
theorem c6_witness :
    growOnce [(kEwe, Value.VList [Scalar.SInt 4])] kEwe
      = .ok [(kEwe, Value.VList [Scalar.SInt 4, Scalar.SInt 5])] := by
  have h := c6_ewe_growth.1 [(kEwe, Value.VList [Scalar.SInt 4])] kEwe [4]
    (Or.inl rfl) (by decide)
  rw [h]
  decide

/-- First-pass value tracking: a successful `syncKey` on a list of length
at most `maxDom` produces a list of length exactly `maxDom` whose prefix
is the original list. -/
theorem syncKey_value {fuel : Nat} {p : Params} {key : Str} {maxDom : Nat}
    {p₁ : Params} {xs : List Scalar} (hk : key ∈ listParams)
    (h : syncKey fuel p key maxDom = some (.ok p₁))
    (hv : dlookup p key = some (.VList xs)) (hle : xs.length ≤ maxDom) :
    ∃ ys, dlookup p₁ key = some (.VList ys)
      ∧ ys.take xs.length = xs ∧ ys.length = maxDom := by
  rw [syncKey] at h
  have hc : dcontains p key := by
    rw [dcontains, hv]
    rfl
  rw [if_pos hc] at h
  split at h
  · simp at h
  · simp at h
  · rename_i p₀ hr
    obtain ⟨_, _, hval⟩ := growLoop_ok_shape fuel p key maxDom p₀ hk hr
    rcases hval xs hv with ⟨t, ht, hlen2, hshort⟩
    split at h
    · simp at h
    · rename_i v₀ hv₀
      split at h
      · simp at h
      · rename_i v' hv'
        have hp₁ : p₁ = dset p₀ key v' := (PyRes.ok.inj (Option.some.inj h)).symm
        have hv₀e : v₀ = Value.VList (xs ++ t) := by
          have h1 := (dgetP_ok_iff p₀ key v₀).mp hv₀
          rw [ht] at h1
          exact (Option.some.inj h1).symm
        have hv'e : v' = Value.VList ((xs ++ t).take maxDom) := by
          rw [hv₀e] at hv'
          exact (PyRes.ok.inj hv').symm
        refine ⟨(xs ++ t).take maxDom, ?_, ?_, ?_⟩
        · rw [hp₁, hv'e, dlookup_dset_self]
        · rw [List.take_take]
          have hmin : min xs.length maxDom = xs.length := by omega
          rw [hmin]
          exact List.take_left xs t
        · rw [List.length_take]
          by_cases hlt : xs.length < maxDom
          · have := hlen2 hlt
            omega
          · have ht0 : t = [] := hshort (by omega)
            subst ht0
            simp only [List.append_nil]
            omega

/-- Helper: with the current length already at least the target, one unit
of fuel makes the growth loop return at once. -/
theorem growLoop_nogrow {p : Params} {key : Str} {n : Nat} {ys : List Scalar}
    (hv : dlookup p key = some (.VList ys)) (hge : ¬ ys.length < n) :
    ∀ f, 1 ≤ f → growLoop f p key n = some (.ok p) := by
  intro f hf
  cases f with
  | zero => omega
  | succ f =>
    rw [growLoop]
    rw [show dgetP p key = .ok (.VList ys) from (dgetP_ok_iff _ _ _).mpr hv]
    simp only [pyLen]
    rw [if_neg hge]

/-- Second-pass value tracking: a successful `syncKey` whose target is at
most the current length only trims the list to its first `n` elements. -/
theorem syncKey_trim {fuel : Nat} {p : Params} {key : Str} {n : Nat}
    {p₁ : Params} {ys : List Scalar}
    (h : syncKey fuel p key n = some (.ok p₁))
    (hv : dlookup p key = some (.VList ys)) (hge : n ≤ ys.length) :
    p₁ = dset p key (.VList (ys.take n)) := by
  rw [syncKey] at h
  have hc : dcontains p key := by
    rw [dcontains, hv]
    rfl
  rw [if_pos hc] at h
  have hf1 : 1 ≤ fuel := by
    by_contra hcon
    have : fuel = 0 := by omega
    subst this
    rw [show growLoop 0 p key n = none from rfl] at h
    simp at h
  have hdg : dgetP p key = .ok (.VList ys) := (dgetP_ok_iff _ _ _).mpr hv
  rw [growLoop_nogrow hv (by omega) fuel hf1] at h
  simp only [hdg, pySliceTake, Option.some.injEq, PyRes.ok.injEq] at h
  exact h.symm

/-- First-pass value tracking through the whole key loop. -/
theorem adjustGo_value : ∀ (ks : List Str) (p p' : Params) (fuel maxDom : Nat),
    ks.Nodup → (∀ k ∈ ks, k ∈ listParams) →
    adjustGo fuel maxDom ks p = some (.ok p') →
    ∀ k ∈ ks, ∀ xs, dlookup p k = some (.VList xs) → xs.length ≤ maxDom →
    ∃ ys, dlookup p' k = some (.VList ys)
      ∧ ys.take xs.length = xs ∧ ys.length = maxDom := by
  intro ks
  induction ks with
  | nil =>
    intro p p' fuel maxDom _ _ _ k hkmem
    exact absurd hkmem (List.not_mem_nil k)
  | cons k₀ ks ih =>
    intro p p' fuel maxDom hnd hks h k hkmem xs hxs hle
    rw [adjustGo] at h
    split at h
    · simp at h
    · simp at h
    · rename_i p₁ heq
      have hk₀ : k₀ ∈ listParams := hks k₀ (List.mem_cons_self k₀ ks)
      rcases List.mem_cons.mp hkmem with rfl | hmem
      · rcases syncKey_value hk₀ heq hxs hle with ⟨ys, hys, hpre, hlen⟩
        obtain ⟨hfr2, _⟩ := adjustGo_frame ks p₁ p' fuel maxDom
          (fun kk hkk => hks kk (List.mem_cons_of_mem _ hkk)) h
        have hnotin : k ∉ ks := (List.nodup_cons.mp hnd).1
        refine ⟨ys, ?_, hpre, hlen⟩
        rw [hfr2 k hnotin]
        exact hys
      · have hne : k ≠ k₀ := by
          intro hcon
          subst hcon
          exact (List.nodup_cons.mp hnd).1 hmem
        obtain ⟨hfr1, _, _⟩ := syncKey_frame hk₀ heq
        refine ih p₁ p' fuel maxDom (List.nodup_cons.mp hnd).2
          (fun kk hkk => hks kk (List.mem_cons_of_mem k₀ hkk)) h k hmem xs ?_ hle
        rw [hfr1 k hne]
        exact hxs

/-- Second-pass (trim-only) value tracking through the whole key loop. -/
theorem adjustGo_trim : ∀ (ks : List Str) (p p' : Params) (fuel n : Nat),
    ks.Nodup → (∀ k ∈ ks, k ∈ listParams) →
    (∀ k ∈ ks, ∀ v, dlookup p k = some v →
      ∃ xs, v = Value.VList xs ∧ n ≤ xs.length) →
    adjustGo fuel n ks p = some (.ok p') →
    ∀ k ∈ ks, ∀ xs, dlookup p k = some (.VList xs) →
    dlookup p' k = some (.VList (xs.take n)) := by
  intro ks
  induction ks with
  | nil =>
    intro p p' fuel n _ _ _ _ k hkmem
    exact absurd hkmem (List.not_mem_nil k)
  | cons k₀ ks ih =>
    intro p p' fuel n hnd hks hvals h k hkmem xs hxs
    rw [adjustGo] at h
    split at h
    · simp at h
    · simp at h
    · rename_i p₁ heq
      have hk₀ : k₀ ∈ listParams := hks k₀ (List.mem_cons_self k₀ ks)
      rcases List.mem_cons.mp hkmem with rfl | hmem
      · have hge : n ≤ xs.length := by
          rcases hvals k (List.mem_cons_self k ks) _ hxs with ⟨zs, hz, hlen⟩
          have : zs = xs := by
            cases hz
            rfl
          subst this
          exact hlen
        have hp₁ : p₁ = dset p k (.VList (xs.take n)) := syncKey_trim heq hxs hge
        obtain ⟨hfr2, _⟩ := adjustGo_frame ks p₁ p' fuel n
          (fun kk hkk => hks kk (List.mem_cons_of_mem _ hkk)) h
        have hnotin : k ∉ ks := (List.nodup_cons.mp hnd).1
        rw [hfr2 k hnotin, hp₁, dlookup_dset_self]
      · have hne : k ≠ k₀ := by
          intro hcon
          subst hcon
          exact (List.nodup_cons.mp hnd).1 hmem
        obtain ⟨hfr1, _, _⟩ := syncKey_frame hk₀ heq
        refine ih p₁ p' fuel n (List.nodup_cons.mp hnd).2
          (fun kk hkk => hks kk (List.mem_cons_of_mem k₀ hkk)) ?_ h k hmem xs ?_
        · intro kk hkk v hval
          refine hvals kk (List.mem_cons_of_mem k₀ hkk) v ?_
          have hkkne : kk ≠ k₀ := by
            intro hcon
            subst hcon
            exact (List.nodup_cons.mp hnd).1 hkk
          rw [← hfr1 kk hkkne]
          exact hval
        · rw [hfr1 k hne]
          exact hxs

/-- C7: growing every list parameter from length `n` to `m >= n` and then
shrinking back to `n` restores the original mapping exactly (growth only
appends, truncation keeps the first `n` entries); as a special case, a
run whose target equals the current length leaves the mapping unchanged. -/
theorem c7_grow_shrink (p : Params) (n m f₁ f₂ : Nat) (p₁ p₂ : Params)
    (hnd : (p.map Prod.fst).Nodup)
    (hlists : ∀ k ∈ listParams, ∀ v, dlookup p k = some v →
      ∃ xs, v = Value.VList xs ∧ xs.length = n)
    (hnm : n ≤ m)
    (h₁ : adjustParamsForMaxDom f₁ p m = some (.ok p₁))
    (h₂ : adjustParamsForMaxDom f₂ p₁ n = some (.ok p₂)) :
    p₂ = p ∧ ∀ (f : Nat) (q : Params),
      adjustParamsForMaxDom f p n = some (.ok q) → q = p := by
  have lnodup : listParams.Nodup := by decide
  have hidem : ∀ (f : Nat) (q : Params),
      adjustParamsForMaxDom f p n = some (.ok q) → q = p := by
    intro f q hq
    obtain ⟨hfr, hkeys⟩ := adjustGo_frame listParams p q f n (fun _ hk => hk) hq
    have htrim := adjustGo_trim listParams p q f n lnodup (fun _ hk => hk)
      (fun k hk v hv => by
        rcases hlists k hk v hv with ⟨xs, he, hl⟩
        exact ⟨xs, he, le_of_eq hl.symm⟩) hq
    refine params_ext p q hkeys hnd ?_
    intro k
    by_cases hkmem : k ∈ listParams
    · cases hval : dlookup p k with
      | none =>
        rw [dlookup_eq_none_iff, hkeys]
        rw [dlookup_eq_none_iff] at hval
        exact hval
      | some w =>
        rcases hlists k hkmem w hval with ⟨xs, rfl, hlen⟩
        have h3 := htrim k hkmem xs hval
        rw [h3]
        rw [show xs.take n = xs from List.take_all_of_le (le_of_eq hlen)]
    · rw [hfr k hkmem]
  refine ⟨?_, hidem⟩
  obtain ⟨hfr1, hkeys1⟩ := adjustGo_frame listParams p p₁ f₁ m (fun _ hk => hk) h₁
  obtain ⟨hfr2, hkeys2⟩ := adjustGo_frame listParams p₁ p₂ f₂ n (fun _ hk => hk) h₂
  have hval1 := adjustGo_value listParams p p₁ f₁ m lnodup (fun _ hk => hk) h₁
  have hlists₁ : ∀ k ∈ listParams, ∀ v, dlookup p₁ k = some v →
      ∃ ys, v = Value.VList ys ∧ n ≤ ys.length := by
    intro k hk v hv
    cases hval : dlookup p k with
    | none =>
      have hnone : dlookup p₁ k = none := by
        rw [dlookup_eq_none_iff, hkeys1]
        rw [dlookup_eq_none_iff] at hval
        exact hval
      rw [hnone] at hv
      exact Option.noConfusion hv
    | some w =>
      rcases hlists k hk w hval with ⟨xs, rfl, hlen⟩
      rcases hval1 k hk xs hval (by omega) with ⟨ys, hys, _, hyslen⟩
      rw [hys] at hv
      exact ⟨ys, (Option.some.inj hv).symm, by omega⟩
  have htrim := adjustGo_trim listParams p₁ p₂ f₂ n lnodup (fun _ hk => hk)
    hlists₁ h₂
  refine params_ext p p₂ (hkeys2.trans hkeys1) hnd ?_
  intro k
  by_cases hkmem : k ∈ listParams
  · cases hval : dlookup p k with
    | none =>
      rw [dlookup_eq_none_iff, hkeys2.trans hkeys1]
      rw [dlookup_eq_none_iff] at hval
      exact hval
    | some w =>
      rcases hlists k hkmem w hval with ⟨xs, rfl, hlen⟩
      rcases hval1 k hkmem xs hval (by omega) with ⟨ys, hys, hpre, hyslen⟩
      have h3 := htrim k hkmem ys hys
      rw [h3]
      rw [show ys.take n = xs from by rw [← hlen]; exact hpre]
  · rw [hfr2 k hkmem, hfr1 k hkmem]

/-- C7 witness: `e_we = [100]` grown to length 3 and shrunk back to
length 1 is restored exactly. -/
theorem c7_witness :
    adjustParamsForMaxDom 5 [(kEwe, Value.VList [Scalar.SInt 100])] 3
      = some (.ok [(kEwe,
          Value.VList [Scalar.SInt 100, Scalar.SInt 101, Scalar.SInt 101])]) ∧
    adjustParamsForMaxDom 2 [(kEwe,
        Value.VList [Scalar.SInt 100, Scalar.SInt 101, Scalar.SInt 101])] 1
      = some (.ok [(kEwe, Value.VList [Scalar.SInt 100])]) ∧
    ([(kEwe, Value.VList [Scalar.SInt 100])] : Params)
      = [(kEwe, Value.VList [Scalar.SInt 100])] := by
  have hlists : ∀ k ∈ listParams, ∀ v,
      dlookup [(kEwe, Value.VList [Scalar.SInt 100])] k = some v →
      ∃ xs, v = Value.VList xs ∧ xs.length = 1 := by
    intro k _ v hv
    by_cases hke : k = kEwe
    · subst hke
      have h1 : dlookup [(kEwe, Value.VList [Scalar.SInt 100])] kEwe
          = some (Value.VList [Scalar.SInt 100]) := by decide
      rw [h1] at hv
      exact ⟨[Scalar.SInt 100], (Option.some.inj hv).symm, by decide⟩
    · simp only [dlookup] at hv
      rw [if_neg (fun hh => hke hh.symm)] at hv
      exact Option.noConfusion hv
  have h := c7_grow_shrink [(kEwe, Value.VList [Scalar.SInt 100])] 1 3 5 2
    [(kEwe, Value.VList [Scalar.SInt 100, Scalar.SInt 101, Scalar.SInt 101])]
    [(kEwe, Value.VList [Scalar.SInt 100])]
    (by decide) hlists (by omega) (by decide) (by decide)
  exact ⟨by decide, by decide, h.1⟩

/-! ## The namelist codec
(source: `read_existing_namelist`, lines 160-253, and
`write_namelist_wps`, lines 719-762).

The reader and writer work line by line; a file is a list of lines.
The Python string operations used by the source are defined here over
`List Char` with Python's semantics. -/

/-- The whitespace stripped by Python `str.strip()` (ASCII part). -/
def pyIsSpace (c : Char) : Bool :=
  c = ' ' || c = '\t' || c = '\n' || c = '\r' || c = '\x0b' || c = '\x0c'

/-- Leading-whitespace strip. -/
def stripL (s : Str) : Str := s.dropWhile pyIsSpace

/-- Trailing-whitespace strip. -/
def stripR (s : Str) : Str := (s.reverse.dropWhile pyIsSpace).reverse

/-- Python `s.strip()`. -/
def pyStrip (s : Str) : Str := stripR (stripL s)

/-- Python `s.startswith(c)` for a one-character pattern. -/
def headIs (s : Str) (c : Char) : Bool :=
  match s with
  | [] => false
  | a :: _ => a = c

/-- Python `s.endswith(c)` for a one-character pattern. -/
def lastIs (s : Str) (c : Char) : Bool :=
  match s.getLast? with
  | some a => a = c
  | none => false

/-- Python `s.lower()` (the section names are ASCII, where this agrees
with `Char.toLower`). -/
def pyLower (s : Str) : Str := s.map Char.toLower

/-- Python `s.split("=", 1)`: `none` when `=` does not occur (the source
then sees a 1-element list and skips the line). -/
def splitFirstEq : Str → Option (Str × Str)
  | [] => none
  | c :: rest =>
    if c = '=' then some ([], rest)
    else
      match splitFirstEq rest with
      | none => none
      | some (a, b) => some (c :: a, b)

/-- Python `s.split(",")`. -/
def splitComma : Str → List Str
  | [] => [[]]
  | c :: rest =>
    if c = ',' then [] :: splitComma rest
    else
      match splitComma rest with
      | [] => [[c]]
      | h :: t => (c :: h) :: t

/-- Numeric value of a decimal digit character. -/
def digitVal (c : Char) : Nat := c.toNat - 48

/-- Value of a digit string (no sign). -/
def digitsVal (s : Str) : Nat := s.foldl (fun a c => a * 10 + digitVal c) 0

/-- Python `int(...)` on an unsigned digit string: non-empty, digits
only. -/
def pyIntOfDigits (s : Str) : Option Nat :=
  if s.isEmpty then none
  else if s.all Char.isDigit then some (digitsVal s) else none

/-- Python `int(...)` (PEP-515 underscore separators are not modelled;
they occur in no file this codec writes). -/
def pyInt (s : Str) : Option Int :=
  if headIs (pyStrip s) '-' then
    (pyIntOfDigits ((pyStrip s).drop 1)).map (fun (nn : Nat) => -(nn : Int))
  else if headIs (pyStrip s) '+' then
    (pyIntOfDigits ((pyStrip s).drop 1)).map (fun (nn : Nat) => (nn : Int))
  else (pyIntOfDigits (pyStrip s)).map (fun (nn : Nat) => (nn : Int))

/-- Split at the first `e`/`E` (exponent marker). -/
def splitExp : Str → Str × Option Str
  | [] => ([], none)
  | c :: rest =>
    if c = 'e' ∨ c = 'E' then ([], some rest)
    else (c :: (splitExp rest).1, (splitExp rest).2)

/-- Split at the first `.`. -/
def splitDot : Str → Str × Option Str
  | [] => ([], none)
  | c :: rest =>
    if c = '.' then ([], some rest)
    else (c :: (splitDot rest).1, (splitDot rest).2)

/-- The mantissa of a Python float literal: `digits`, `digits.`,
`.digits` or `digits.digits`, read exactly as a rational. -/
def pyFloatMantissa (s : Str) : Option ℚ :=
  match (splitDot s).2 with
  | none => (pyIntOfDigits (splitDot s).1).map (fun (nn : Nat) => (nn : ℚ))
  | some fp =>
    if (splitDot s).1.isEmpty && fp.isEmpty then none
    else if (splitDot s).1.all Char.isDigit && fp.all Char.isDigit then
      some ((digitsVal (splitDot s).1 : ℚ) + (digitsVal fp : ℚ) / (10 : ℚ) ^ fp.length)
    else none

/-- Sign prefix of a numeric literal. -/
def pySign (t : Str) : ℚ × Str :=
  if headIs t '-' then (-1, t.drop 1)
  else if headIs t '+' then (1, t.drop 1)
  else (1, t)

/-- Sign of a float exponent part. -/
def pyExpSign (es : Str) : Bool × Str :=
  if headIs es '-' then (false, es.drop 1)
  else if headIs es '+' then (true, es.drop 1)
  else (true, es)

/-- Python `float(...)` on the decimal grammar, read exactly as a
rational (see the header; `inf` / `nan`, which contain no `'.'`, never
reach the reader's `float` call site). -/
def pyFloat (s : Str) : Option ℚ :=
  match pyFloatMantissa (splitExp (pySign (pyStrip s)).2).1 with
  | none => none
  | some q =>
    match (splitExp (pySign (pyStrip s)).2).2 with
    | none => some ((pySign (pyStrip s)).1 * q)
    | some es =>
      match pyIntOfDigits (pyExpSign es).2 with
      | none => none
      | some e =>
        some ((pySign (pyStrip s)).1 * q *
          (if (pyExpSign es).1 then (10 : ℚ) ^ e else 1 / (10 : ℚ) ^ e))

/-- Decimal digits of a natural number, most significant first. -/
def natDigits (n : Nat) : List Nat :=
  if h : n < 10 then [n]
  else
    have : n / 10 < n := Nat.div_lt_self (by omega) (by omega)
    natDigits (n / 10) ++ [n % 10]

/-- Python `str(...)` of a natural number. -/
def natRepr (n : Nat) : Str := (natDigits n).map Nat.digitChar

/-- Python `str(...)` of an `int`. -/
def intRepr (i : Int) : Str :=
  if i < 0 then '-' :: natRepr i.natAbs else natRepr i.toNat

/-- Fractional decimal digits of `r / den` by long division (fuelled). -/
def fracDigits : Nat → Nat → Nat → List Nat
  | 0, _, _ => []
  | _, 0, _ => []
  | fuel + 1, r, den => (r * 10) / den :: fracDigits fuel ((r * 10) % den) den

/-- Python `str(...)` of a float.  CPython prints the shortest
round-tripping decimal; on integral doubles — the only floats this
development produces — that is `"<int>.0"`, modelled exactly.  For other
values an exact (capped) decimal expansion is printed; those branches are
never exercised here. -/
def floatRepr (q : ℚ) : Str :=
  if q.den = 1 then intRepr q.num ++ ['.', '0']
  else
    (if q < 0 then ['-'] else []) ++
      natRepr (|q|.num.toNat / |q|.den) ++
      '.' :: ((fracDigits 30 (|q|.num.toNat % |q|.den) |q|.den).map Nat.digitChar)

/-- Python `f"'{x}'"`. -/
def quoteStr (s : Str) : Str := '\'' :: s ++ ['\'']

/-- Python `str(x)` of a scalar. -/
def scalarStr : Scalar → Str
  | .SInt i => intRepr i
  | .SFloat q => floatRepr q
  | .SStr s => s

/-- `isinstance(x, str)` for a scalar. -/
def isSStrB : Scalar → Bool
  | .SStr _ => true
  | _ => false

/-- Python `", ".join(...)`. -/
def joinCommaSpace : List Str → Str
  | [] => []
  | [x] => x
  | x :: xs => x ++ ',' :: ' ' :: joinCommaSpace xs

/-- Source `format_value` (lines 723-733): lists are comma+space-joined
(quoting every element if all are strings, else the plain `str` of each);
a string scalar is quoted; numbers use their natural text form. -/
def formatValue : Value → Str
  | .VList xs =>
    if xs.all isSStrB then joinCommaSpace (xs.map (fun x => quoteStr (scalarStr x)))
    else joinCommaSpace (xs.map scalarStr)
  | .VStr s => quoteStr s
  | .VInt i => intRepr i
  | .VFloat q => floatRepr q

/-- One serialized parameter line: `f" {key} = {format_value(value)},"`. -/
def fmtLine (kv : Str × Value) : Str :=
  ' ' :: kv.1 ++ ' ' :: '=' :: ' ' :: formatValue kv.2 ++ [',']

/-- The lines written by `write_namelist_wps` (lines 735-759): each
section in fixed order with its `&name` header, one line per parameter in
insertion order, a closing `/` and (except after the last section) a
blank separator line. -/
def writeLines (share geogrid ungrib metgrid : Params) : List Str :=
  [strOf ("&share")] ++ share.map fmtLine ++ [strOf ("/"), []]
    ++ [strOf ("&geogrid")] ++ geogrid.map fmtLine ++ [strOf ("/"), []]
    ++ [strOf ("&ungrib")] ++ ungrib.map fmtLine ++ [strOf ("/"), []]
    ++ [strOf ("&metgrid")] ++ metgrid.map fmtLine ++ [strOf ("/")]

/-- The four sections a parsed parameter can be stored into. -/
inductive Sect where
  | share
  | geogrid
  | ungrib
  | metgrid
deriving DecidableEq

/-- Parser state: the active section (if any) and the four accumulated
section mappings. -/
structure PState where
  cur : Option Sect
  shareP : Params
  geogridP : Params
  ungribP : Params
  metgridP : Params
deriving DecidableEq

/-- The mapping the active section refers to. -/
def getSect (st : PState) : Sect → Params
  | .share => st.shareP
  | .geogrid => st.geogridP
  | .ungrib => st.ungribP
  | .metgrid => st.metgridP

/-- Store back the mapping of a section. -/
def setSect (st : PState) : Sect → Params → PState
  | .share, p => { st with shareP := p }
  | .geogrid, p => { st with geogridP := p }
  | .ungrib, p => { st with ungribP := p }
  | .metgrid, p => { st with metgridP := p }

/-- Source lines 232-243: coercion of a single (non-list) value text:
quoted (single or double) strings lose their quotes; a token containing
`.` tries `float`, otherwise `int`; on failure the raw text is kept. -/
def parseScalarValue (v : Str) : Value :=
  if (headIs v '\'' && lastIs v '\'') || (headIs v '"' && lastIs v '"') then
    .VStr ((v.drop 1).dropLast)
  else if v.elem '.' then
    match pyFloat v with
    | some q => .VFloat q
    | none => .VStr v
  else
    match pyInt v with
    | some i => .VInt i
    | none => .VStr v

/-- Source lines 216-228: the same coercion for one list element. -/
def parseScalarElem (v : Str) : Scalar :=
  if (headIs v '\'' && lastIs v '\'') || (headIs v '"' && lastIs v '"') then
    .SStr ((v.drop 1).dropLast)
  else if v.elem '.' then
    match pyFloat v with
    | some q => .SFloat q
    | none => .SStr v
  else
    match pyInt v with
    | some i => .SInt i
    | none => .SStr v

/-- Source lines 210-230: a value text containing `,` is split into
stripped, individually coerced elements; otherwise it is a scalar. -/
def parseValueText (v : Str) : Value :=
  if v.elem ',' then
    .VList ((splitComma v).map (fun w => parseScalarElem (pyStrip w)))
  else parseScalarValue v

/-- Source lines 171-243: processing of one line of the file.  Note that
a `&name` line with an unrecognized name leaves the whole state — the
active section included — unchanged. -/
def parseLine (st : PState) (raw : Str) : PState :=
  if (pyStrip raw).isEmpty then st
  else if headIs (pyStrip raw) '!' then st
  else if headIs (pyStrip raw) '&' then
    if pyLower ((pyStrip raw).drop 1) = strOf ("share") then
      { st with cur := some .share }
    else if pyLower ((pyStrip raw).drop 1) = strOf ("geogrid") then
      { st with cur := some .geogrid }
    else if pyLower ((pyStrip raw).drop 1) = strOf ("ungrib") then
      { st with cur := some .ungrib }
    else if pyLower ((pyStrip raw).drop 1) = strOf ("metgrid") then
      { st with cur := some .metgrid }
    else st
  else if headIs (pyStrip raw) '/' then { st with cur := none }
  else
    match st.cur with
    | none => st
    | some sec =>
      match splitFirstEq (pyStrip raw) with
      | none => st
      | some ab =>
        setSect st sec (dset (getSect st sec) (pyStrip ab.1)
          (parseValueText
            (if lastIs (pyStrip ab.2) ',' then (pyStrip ab.2).dropLast
              else pyStrip ab.2)))

/-- The parser's initial state. -/
def initState : PState := ⟨none, [], [], [], []⟩

/-- Source lines 248-250: the keys normalized to lists after parsing. -/
def wrapKeys : List Str :=
  [strOf ("start_date"), strOf ("end_date"), kPid, kPgr, kIps, kJps, kEwe, kEsn,
    kGdr, strOf ("fg_name")]

/-- `params[key] = [value]` for a scalar value. -/
def wrapVal : Value → Value
  | .VInt i => .VList [.SInt i]
  | .VFloat q => .VList [.SFloat q]
  | .VStr s => .VList [.SStr s]
  | .VList xs => .VList xs

/-- Source lines 246-251: wrap a bare scalar at an inherently-list key
into a one-element list. -/
def normalizeSect (p : Params) : Params :=
  p.map (fun kv => if kv.1 ∈ wrapKeys then (kv.1, wrapVal kv.2) else kv)

/-- Source `read_existing_namelist` over the file's lines. -/
def parseLines (ls : List Str) : Params × Params × Params × Params :=
  let st := ls.foldl parseLine initState
  (normalizeSect st.shareP, normalizeSect st.geogridP,
    normalizeSect st.ungribP, normalizeSect st.metgridP)

/-- C3 counterexample: after `&share` opens the share section, the
unrecognized line `&foo` does NOT reset the parser to the
no-active-section state — the share section remains active, so the
following `a = 1` is stored into share rather than discarded. -/
theorem c3_counterexample :
    (List.foldl parseLine initState [strOf ("&share"), strOf ("&foo")]).cur
      = some Sect.share ∧
    dlookup (parseLines [strOf ("&share"), strOf ("&foo"),
      strOf ("a = 1")]).1 (strOf ("a")) = some (Value.VInt 1) := by
  decide

/-- C3 (amended): a `&name` line whose (lower-cased) name is not one of
`share`/`geogrid`/`ungrib`/`metgrid` leaves the parser state — the active
section included — entirely unchanged; in particular, when no section is
active, every subsequent `key = value` line is discarded (all four section
mappings stay as they are) until a recognized section opens. -/
theorem c3_unrecognized_section :
    (∀ (st : PState) (raw : Str),
      headIs (pyStrip raw) '&' = true →
      pyLower ((pyStrip raw).drop 1) ∉
        [strOf ("share"), strOf ("geogrid"), strOf ("ungrib"), strOf ("metgrid")] →
      parseLine st raw = st) ∧
    (∀ (st : PState) (raw : Str), st.cur = none →
      (parseLine st raw).shareP = st.shareP ∧
      (parseLine st raw).geogridP = st.geogridP ∧
      (parseLine st raw).ungribP = st.ungribP ∧
      (parseLine st raw).metgridP = st.metgridP) := by
  constructor
  · intro st raw hamp hname
    have h1 : ¬ (pyLower ((pyStrip raw).drop 1) = strOf ("share")) :=
      fun hh => hname (by rw [hh]; exact List.mem_cons_self _ _)
    have h2 : ¬ (pyLower ((pyStrip raw).drop 1) = strOf ("geogrid")) :=
      fun hh => hname (by rw [hh]; simp)
    have h3 : ¬ (pyLower ((pyStrip raw).drop 1) = strOf ("ungrib")) :=
      fun hh => hname (by rw [hh]; simp)
    have h4 : ¬ (pyLower ((pyStrip raw).drop 1) = strOf ("metgrid")) :=
      fun hh => hname (by rw [hh]; simp)
    have hempty : (pyStrip raw).isEmpty = false := by
      cases hl : pyStrip raw with
      | nil => rw [hl] at hamp; simp [headIs] at hamp
      | cons c rest => rfl
    have hbang : headIs (pyStrip raw) '!' = false := by
      cases hl : pyStrip raw with
      | nil => rw [hl] at hamp; simp [headIs] at hamp
      | cons c rest =>
        rw [hl] at hamp
        simp only [headIs, decide_eq_true_eq] at hamp
        simp only [headIs, hamp]
        decide
    rw [parseLine]
    simp only [hempty, hbang, hamp, Bool.false_eq_true, if_false, if_true,
      h1, h2, h3, h4]
  · intro st raw hcur
    rw [parseLine]
    split
    · exact ⟨rfl, rfl, rfl, rfl⟩
    · split
      · exact ⟨rfl, rfl, rfl, rfl⟩
      · split
        · split
          · exact ⟨rfl, rfl, rfl, rfl⟩
          · split
            · exact ⟨rfl, rfl, rfl, rfl⟩
            · split
              · exact ⟨rfl, rfl, rfl, rfl⟩
              · split
                · exact ⟨rfl, rfl, rfl, rfl⟩
                · exact ⟨rfl, rfl, rfl, rfl⟩
        · split
          · exact ⟨rfl, rfl, rfl, rfl⟩
          · rw [hcur]
            exact ⟨rfl, rfl, rfl, rfl⟩

/-- C3 witness: `&foo` while the share section is active leaves the state
unchanged. -/
theorem c3_witness :
    parseLine ⟨some Sect.share, [], [], [], []⟩ (strOf ("&foo"))
      = ⟨some Sect.share, [], [], [], []⟩ :=
  c3_unrecognized_section.1 _ _ (by decide) (by decide)

/-- Outcome of the serialization operation: a process-level abort
carrying the underlying cause, or the complete list of written lines. -/
inductive WriteOutcome where
  | aborted (cause : Str)
  | written (ls : List Str)
deriving DecidableEq

/-- Source `write_namelist_wps` (lines 719-762).  Opening the destination
is an external effect, passed as a parameter: `Except.error cause` models
`open(filename, 'w')` raising with message `cause`; the source's
`except` block prints the cause and calls `sys.exit(1)`, aborting the
whole operation.  With the destination open, the writer emits all four
sections as one unit. -/
def writeNamelistWps (openResult : Except Str Unit)
    (share geogrid ungrib metgrid : Params) : WriteOutcome :=
  match openResult with
  | .error e => .aborted e
  | .ok _ => .written (writeLines share geogrid ungrib metgrid)

/-- C8: if opening the destination fails, the whole serialization fails
as a single unit with the underlying cause surfaced and no per-line or
partial result; when the destination opens, the writer emits all four
section headers. -/
theorem c8_write_failure :
    (∀ (cause : Str) (sh g u m : Params),
      writeNamelistWps (.error cause) sh g u m = .aborted cause) ∧
    (∀ (sh g u m : Params),
      writeNamelistWps (.ok ()) sh g u m = .written (writeLines sh g u m) ∧
      strOf ("&share") ∈ writeLines sh g u m ∧
      strOf ("&geogrid") ∈ writeLines sh g u m ∧
      strOf ("&ungrib") ∈ writeLines sh g u m ∧
      strOf ("&metgrid") ∈ writeLines sh g u m) := by
  constructor
  · intro cause sh g u m
    rfl
  · intro sh g u m
    refine ⟨rfl, ?_, ?_, ?_, ?_⟩ <;>
      simp only [writeLines, List.mem_append]
    · exact Or.inl (Or.inl (Or.inl (Or.inl (Or.inl (Or.inl (Or.inl (Or.inl
        (Or.inl (Or.inl (Or.inl (by decide)))))))))))
    · exact Or.inl (Or.inl (Or.inl (Or.inl (Or.inl (Or.inl (Or.inl (Or.inl
        (Or.inr (by decide)))))))))
    · exact Or.inl (Or.inl (Or.inl (Or.inl (Or.inl (Or.inr (by decide))))))
    · exact Or.inl (Or.inl (Or.inr (by decide)))

/-! ## Default stores and the share-section date synchronizer
(source: `default_*_params`, lines 54-99, and the date-list loop of
`configure_share`, lines 347-351). -/

/-- Source `default_share_params` (lines 54-67): the two date strings
come from `datetime.now()` and are parameters of the embedding. -/
def defaultShareParams (nowS tomorrowS : Str) : Params :=
  [(strOf ("wrf_core"), .VStr (strOf ("ARW"))),
   (strOf ("max_dom"), .VInt 1),
   (strOf ("start_date"), .VList [.SStr nowS]),
   (strOf ("end_date"), .VList [.SStr tomorrowS]),
   (strOf ("interval_seconds"), .VInt 21600),
   (strOf ("io_form_geogrid"), .VInt 2),
   (strOf ("debug_level"), .VInt 0)]

/-- Source `default_geogrid_params` (lines 69-87). -/
def defaultGeogridParams : Params :=
  [(kPid, .VList [.SInt 1]),
   (kPgr, .VList [.SInt 1]),
   (kIps, .VList [.SInt 1]),
   (kJps, .VList [.SInt 1]),
   (kEwe, .VList [.SInt 100]),
   (kEsn, .VList [.SInt 100]),
   (kGdr, .VList [.SStr (strOf ("default"))]),
   (strOf ("dx"), .VInt 30000),
   (strOf ("dy"), .VInt 30000),
   (strOf ("map_proj"), .VStr (strOf ("lambert"))),
   (strOf ("ref_lat"), .VFloat 34),
   (strOf ("ref_lon"), .VFloat (-81)),
   (strOf ("truelat1"), .VFloat 30),
   (strOf ("truelat2"), .VFloat 60),
   (strOf ("stand_lon"), .VFloat (-81)),
   (strOf ("geog_data_path"), .VStr (strOf ("/path/to/geog")))]

/-- Source `default_ungrib_params` (lines 89-93). -/
def defaultUngribParams : Params :=
  [(strOf ("out_format"), .VStr (strOf ("WPS"))),
   (strOf ("prefix"), .VStr (strOf ("FILE")))]

/-- Source `default_metgrid_params` (lines 95-99). -/
def defaultMetgridParams : Params :=
  [(strOf ("fg_name"), .VList [.SStr (strOf ("FILE"))]),
   (strOf ("io_form_metgrid"), .VInt 2)]

/-- The `params["max_dom"]` reads of `configure_share`'s date loop; the
session validated it as a positive integer, so its `Nat` value is the
length bound used for the loop condition and the trim. -/
def shareMaxDom (p : Params) : PyRes Nat :=
  match dlookup p (strOf ("max_dom")) with
  | some (.VInt i) => .ok i.toNat
  | some _ => .exn
  | none => .exn

/-- The `while len(params[key]) < params["max_dom"]:
params[key].append(params[key][0])` loop of `configure_share`
(lines 349-350), fuelled like the synchronizer's loops. -/
def dateLoop (fuel : Nat) (p : Params) (key : Str) (maxDom : Nat) :
    Option (PyRes Params) :=
  match fuel with
  | 0 => none
  | fuel + 1 =>
    match dgetP p key with
    | .exn => some .exn
    | .ok v =>
      match pyLen v with
      | .exn => some .exn
      | .ok n =>
        if n < maxDom then
          match (do
            let x ← pyIndexS v 0
            let v' ← pyAppendS v x
            pure (dset p key v') : PyRes Params) with
          | .exn => some .exn
          | .ok p' => dateLoop fuel p' key maxDom
        else some (.ok p)

/-- One key of the date loop: grow, then trim with
`params[key] = params[key][:params["max_dom"]]` (line 351). -/
def adjustShareDatesKey (fuel : Nat) (p : Params) (key : Str) (maxDom : Nat) :
    Option (PyRes Params) :=
  match dateLoop fuel p key maxDom with
  | none => none
  | some .exn => some .exn
  | some (.ok p') =>
    match dgetP p' key with
    | .exn => some .exn
    | .ok v =>
      match pySliceTake v maxDom with
      | .exn => some .exn
      | .ok v' => some (.ok (dset p' key v'))

/-- Source `configure_share` lines 347-351: synchronize `start_date` and
`end_date` to `params["max_dom"]` entries. -/
def adjustShareDates (fuel : Nat) (p : Params) : Option (PyRes Params) :=
  match shareMaxDom p with
  | .exn => some .exn
  | .ok d =>
    match adjustShareDatesKey fuel p (strOf ("start_date")) d with
    | none => none
    | some .exn => some .exn
    | some (.ok p₁) => adjustShareDatesKey fuel p₁ (strOf ("end_date")) d

/-! ### String operation lemmas -/

theorem stripL_eq_self {z : Str} (h : pyIsSpace (z.headD ' ') = false) :
    stripL z = z := by
  cases z with
  | nil => simp [pyIsSpace] at h
  | cons c r =>
    simp only [List.headD] at h
    rw [stripL, List.dropWhile_cons, if_neg (by simp [h])]

theorem stripL_cons_space {c : Char} {z : Str} (h : pyIsSpace c = true) :
    stripL (c :: z) = stripL z := by
  rw [stripL, List.dropWhile_cons, if_pos (by simp [h])]
  rfl

theorem stripR_eq_self {z : Str} (h : pyIsSpace (z.getLastD ' ') = false) :
    stripR z = z := by
  rcases List.eq_nil_or_concat z with rfl | ⟨ys, c, rfl⟩
  · rfl
  · simp only [List.concat_eq_append] at h ⊢
    have hgl : (ys ++ [c]).getLastD ' ' = c := by
      rw [List.getLastD_eq_getLast?, List.getLast?_concat]
      rfl
    rw [hgl] at h
    rw [stripR, List.reverse_append]
    simp only [List.reverse_cons, List.reverse_nil, List.nil_append,
      List.singleton_append]
    rw [List.dropWhile_cons, if_neg (by simp [h])]
    simp

theorem stripR_concat_space {z : Str} {c : Char} (h : pyIsSpace c = true) :
    stripR (z ++ [c]) = stripR z := by
  rw [stripR, List.reverse_append]
  simp only [List.reverse_cons, List.reverse_nil, List.nil_append,
    List.singleton_append]
  rw [List.dropWhile_cons, if_pos (by simp [h])]
  rfl

theorem pyStrip_eq_self {z : Str} (hh : pyIsSpace (z.headD ' ') = false)
    (hl : pyIsSpace (z.getLastD ' ') = false) : pyStrip z = z := by
  rw [pyStrip, stripL_eq_self hh, stripR_eq_self hl]

theorem pyStrip_space_cons {z : Str} (hh : pyIsSpace (z.headD ' ') = false)
    (hl : pyIsSpace (z.getLastD ' ') = false) : pyStrip (' ' :: z) = z := by
  rw [pyStrip, stripL_cons_space (by decide), stripL_eq_self hh, stripR_eq_self hl]

theorem pyStrip_append_space {z : Str} (hh : pyIsSpace (z.headD ' ') = false)
    (hl : pyIsSpace (z.getLastD ' ') = false) : pyStrip (z ++ [' ']) = z := by
  cases z with
  | nil => simp [pyIsSpace] at hh
  | cons c r =>
    simp only [List.headD] at hh
    rw [pyStrip, show (c :: r) ++ [' '] = c :: (r ++ [' ']) from rfl, stripL,
      List.dropWhile_cons, if_neg (by simp [hh]),
      show c :: (r ++ [' ']) = (c :: r) ++ [' '] from rfl,
      stripR_concat_space (by decide), stripR_eq_self hl]

theorem splitFirstEq_append {a b : Str} (h : '=' ∉ a) :
    splitFirstEq (a ++ '=' :: b) = some (a, b) := by
  induction a with
  | nil => simp [splitFirstEq]
  | cons c r ih =>
    have hc : ¬(c = '=') := fun hh => h (hh ▸ List.mem_cons_self c r)
    have hr : '=' ∉ r := fun hh => h (List.mem_cons_of_mem c hh)
    simp only [List.cons_append, splitFirstEq, if_neg hc]
    rw [show r.append ('=' :: b) = r ++ '=' :: b from rfl, ih hr]

theorem splitComma_ne_nil : ∀ s : Str, splitComma s ≠ [] := by
  intro s
  cases s with
  | nil => simp [splitComma]
  | cons c r =>
    rw [splitComma]
    by_cases hc : c = ','
    · rw [if_pos hc]
      simp
    · rw [if_neg hc]
      split <;> simp

theorem splitComma_append {a : Str} (ha : ',' ∉ a) : ∀ s : Str,
    splitComma (a ++ s) = (a ++ (splitComma s).headI) :: (splitComma s).tail := by
  intro s
  induction a with
  | nil =>
    simp only [List.nil_append]
    cases hs : splitComma s with
    | nil => exact absurd hs (splitComma_ne_nil s)
    | cons h t => simp
  | cons c r ih =>
    have hc : ¬(c = ',') := fun hh => ha (hh ▸ List.mem_cons_self c r)
    have hr : ',' ∉ r := fun hh => ha (List.mem_cons_of_mem c hh)
    rw [List.cons_append, splitComma, if_neg hc, ih hr]
    simp

theorem splitComma_single {a : Str} (ha : ',' ∉ a) : splitComma a = [a] := by
  have := splitComma_append ha []
  simpa [splitComma] using this

theorem splitComma_join : ∀ (t : Str) (ts : List Str), ',' ∉ t →
    (∀ x ∈ ts, ',' ∉ x) →
    splitComma (joinCommaSpace (t :: ts)) = t :: ts.map (fun x => ' ' :: x) := by
  intro t ts
  induction ts generalizing t with
  | nil =>
    intro ht _
    simp only [joinCommaSpace, List.map_nil]
    exact splitComma_single ht
  | cons u ts ih =>
    intro ht hts
    have hu : ',' ∉ u := hts u (List.mem_cons_self u ts)
    have hts' : ∀ x ∈ ts, ',' ∉ x := fun x hx => hts x (List.mem_cons_of_mem u hx)
    have hrec := ih u hu hts'
    rw [show joinCommaSpace (t :: u :: ts)
        = t ++ ',' :: ' ' :: joinCommaSpace (u :: ts) from rfl]
    rw [splitComma_append ht]
    rw [show splitComma (',' :: ' ' :: joinCommaSpace (u :: ts))
        = [] :: splitComma (' ' :: joinCommaSpace (u :: ts)) from by
      rw [splitComma, if_pos rfl]]
    simp only [List.headI, List.tail]
    rw [show splitComma (' ' :: joinCommaSpace (u :: ts))
        = match splitComma (joinCommaSpace (u :: ts)) with
          | [] => [[' ']]
          | h :: tl => ((' ' : Char) :: h) :: tl from by
      rw [splitComma, if_neg (by decide)]]
    rw [hrec]
    simp

/-! ### Numeric literal round trips -/

theorem natDigits_lt10 : ∀ n, ∀ d ∈ natDigits n, d < 10 := by
  intro n
  induction n using Nat.strong_induction_on with
  | _ n ih =>
    rw [natDigits]
    split
    · rename_i h
      intro d hd
      simp at hd
      omega
    · rename_i h
      intro d hd
      rw [List.mem_append] at hd
      rcases hd with hd | hd
      · exact ih (n / 10) (Nat.div_lt_self (by omega) (by omega)) d hd
      · simp at hd
        subst hd
        exact Nat.mod_lt n (by omega)

theorem natDigits_ne_nil (n : Nat) : natDigits n ≠ [] := by
  rw [natDigits]
  split
  · simp
  · simp

theorem natRepr_ne_nil (n : Nat) : natRepr n ≠ [] := by
  rw [natRepr]
  intro h
  exact natDigits_ne_nil n (List.map_eq_nil_iff.mp h)

theorem digitChar_isDigit {d : Nat} (h : d < 10) : (Nat.digitChar d).isDigit = true := by
  interval_cases d <;> decide

theorem digitVal_digitChar {d : Nat} (h : d < 10) : digitVal (Nat.digitChar d) = d := by
  interval_cases d <;> decide

theorem natRepr_all_digits (n : Nat) : ∀ c ∈ natRepr n, c.isDigit = true := by
  intro c hc
  rw [natRepr] at hc
  rcases List.mem_map.mp hc with ⟨d, hd, rfl⟩
  exact digitChar_isDigit (natDigits_lt10 n d hd)

theorem digitsVal_roundtrip : ∀ n, digitsVal (natRepr n) = n := by
  intro n
  induction n using Nat.strong_induction_on with
  | _ n ih =>
    rw [natRepr, natDigits]
    split
    · rename_i h
      simp only [List.map_cons, List.map_nil, digitsVal, List.foldl]
      rw [digitVal_digitChar h]
      omega
    · rename_i h
      rw [List.map_append]
      simp only [digitsVal] at *
      rw [List.foldl_append]
      have hrec := ih (n / 10) (Nat.div_lt_self (by omega) (by omega))
      rw [natRepr] at hrec
      rw [hrec]
      simp only [List.map_cons, List.map_nil, List.foldl]
      rw [digitVal_digitChar (Nat.mod_lt n (by omega))]
      omega

theorem pyIntOfDigits_natRepr (n : Nat) : pyIntOfDigits (natRepr n) = some n := by
  rw [pyIntOfDigits,
    if_neg (by
      intro hcon
      exact natRepr_ne_nil n (List.isEmpty_iff.mp hcon)),
    if_pos (List.all_eq_true.mpr (fun c hc => natRepr_all_digits n c hc)),
    digitsVal_roundtrip]

theorem isDigit_not_space {c : Char} (h : c.isDigit = true) : pyIsSpace c = false := by
  have hne : ∀ x : Char, x.isDigit = false → ¬ (c = x) := by
    intro x hx hcx
    rw [hcx, hx] at h
    exact Bool.noConfusion h
  rw [pyIsSpace]
  simp only [Bool.or_eq_false_iff, decide_eq_false_iff_not]
  exact ⟨⟨⟨⟨⟨hne ' ' (by decide), hne '\t' (by decide)⟩, hne '\n' (by decide)⟩,
    hne '\r' (by decide)⟩, hne '\x0b' (by decide)⟩, hne '\x0c' (by decide)⟩

theorem headD_mem {l : Str} (h : l ≠ []) (d : Char) : l.headD d ∈ l := by
  cases l with
  | nil => exact absurd rfl h
  | cons c r => simp

theorem getLastD_mem {l : Str} (h : l ≠ []) (d : Char) : l.getLastD d ∈ l := by
  rcases List.eq_nil_or_concat l with rfl | ⟨ys, c, rfl⟩
  · exact absurd rfl h
  · simp only [List.concat_eq_append]
    rw [List.getLastD_eq_getLast?, List.getLast?_concat]
    simp

theorem intRepr_chars (i : Int) : ∀ c ∈ intRepr i, c = '-' ∨ c.isDigit = true := by
  intro c hc
  rw [intRepr] at hc
  split at hc
  · rcases List.mem_cons.mp hc with rfl | hc
    · exact Or.inl rfl
    · exact Or.inr (natRepr_all_digits _ c hc)
  · exact Or.inr (natRepr_all_digits _ c hc)

theorem intRepr_ne_nil (i : Int) : intRepr i ≠ [] := by
  rw [intRepr]
  split
  · simp
  · exact natRepr_ne_nil _

theorem intRepr_no_char (i : Int) {x : Char}
    (hx1 : ¬ x = '-') (hx2 : x.isDigit = false) : x ∉ intRepr i := by
  intro hmem
  rcases intRepr_chars i x hmem with h | h
  · exact hx1 h
  · rw [hx2] at h
    exact Bool.noConfusion h

theorem intRepr_head_not_space (i : Int) :
    pyIsSpace ((intRepr i).headD ' ') = false := by
  rcases intRepr_chars i _ (headD_mem (intRepr_ne_nil i) ' ') with h | h
  · rw [h]
    decide
  · exact isDigit_not_space h

theorem intRepr_getLastD_digit (i : Int) : ((intRepr i).getLastD ' ').isDigit = true := by
  rw [intRepr]
  split
  · have hne := natRepr_ne_nil i.natAbs
    have : ('-' :: natRepr i.natAbs).getLastD ' ' = (natRepr i.natAbs).getLastD ' ' := by
      cases hl : natRepr i.natAbs with
      | nil => exact absurd hl hne
      | cons c r => simp [List.getLastD]
    rw [this]
    exact natRepr_all_digits _ _ (getLastD_mem hne ' ')
  · exact natRepr_all_digits _ _ (getLastD_mem (natRepr_ne_nil _) ' ')

theorem intRepr_last_not_space (i : Int) :
    pyIsSpace ((intRepr i).getLastD ' ') = false :=
  isDigit_not_space (intRepr_getLastD_digit i)

theorem pyStrip_intRepr (i : Int) : pyStrip (intRepr i) = intRepr i :=
  pyStrip_eq_self (intRepr_head_not_space i) (intRepr_last_not_space i)

theorem headIs_eq_false_of_all_digits {l : Str} {x : Char}
    (hall : ∀ c ∈ l, c.isDigit = true) (hx : x.isDigit = false) :
    headIs l x = false := by
  cases l with
  | nil => rfl
  | cons c r =>
    have hcd : c.isDigit = true := hall c (List.mem_cons_self c r)
    have : ¬ (c = x) := by
      intro hcon
      rw [hcon, hx] at hcd
      exact Bool.noConfusion hcd
    simp [headIs, this]

theorem pyInt_intRepr (i : Int) : pyInt (intRepr i) = some i := by
  rw [pyInt, pyStrip_intRepr]
  by_cases hneg : i < 0
  · rw [show intRepr i = '-' :: natRepr i.natAbs from by rw [intRepr, if_pos hneg]]
    rw [if_pos (show headIs ('-' :: natRepr i.natAbs) '-' = true from rfl)]
    rw [show ('-' :: natRepr i.natAbs).drop 1 = natRepr i.natAbs from rfl]
    rw [pyIntOfDigits_natRepr]
    rw [Option.map_some']
    congr 1
    omega
  · rw [show intRepr i = natRepr i.toNat from by rw [intRepr, if_neg hneg]]
    have hminus := headIs_eq_false_of_all_digits (natRepr_all_digits i.toNat)
      (show ('-' : Char).isDigit = false from by decide)
    have hplus := headIs_eq_false_of_all_digits (natRepr_all_digits i.toNat)
      (show ('+' : Char).isDigit = false from by decide)
    rw [if_neg (by intro hcon; rw [hminus] at hcon; exact Bool.noConfusion hcon),
      if_neg (by intro hcon; rw [hplus] at hcon; exact Bool.noConfusion hcon),
      pyIntOfDigits_natRepr]
    rw [Option.map_some']
    congr 1
    omega

theorem splitExp_no_e : ∀ {s : Str}, (∀ c ∈ s, ¬ (c = 'e' ∨ c = 'E')) →
    splitExp s = (s, none) := by
  intro s
  induction s with
  | nil => intro _; rfl
  | cons c r ih =>
    intro h
    rw [splitExp, if_neg (h c (List.mem_cons_self c r)),
      ih (fun x hx => h x (List.mem_cons_of_mem c hx))]

theorem splitDot_append {a : Str} (b : Str) (h : '.' ∉ a) :
    splitDot (a ++ '.' :: b) = (a, some b) := by
  induction a with
  | nil => rw [List.nil_append, splitDot, if_pos rfl]
  | cons c r ih =>
    have hc : ¬ (c = '.') := fun hcon => h (by rw [hcon]; exact List.mem_cons_self _ r)
    rw [List.cons_append, splitDot, if_neg hc,
      ih (fun hm => h (List.mem_cons_of_mem c hm))]

theorem getLastD_concat' (l : Str) (c d : Char) : (l ++ [c]).getLastD d = c := by
  rw [List.getLastD_eq_getLast?, List.getLast?_concat]
  rfl

theorem headIs_append {a : Str} (b : Str) (x : Char) (h : a ≠ []) :
    headIs (a ++ b) x = headIs a x := by
  cases a with
  | nil => exact absurd rfl h
  | cons c r => rfl

theorem pyStrip_numDot (l : Str) (h : pyIsSpace (l.headD ' ') = false) :
    pyStrip (l ++ ['.', '0']) = l ++ ['.', '0'] := by
  apply pyStrip_eq_self
  · cases l with
    | nil => decide
    | cons c r => exact h
  · rw [show l ++ ['.', '0'] = (l ++ ['.']) ++ ['0'] from by simp, getLastD_concat']
    decide

theorem pyFloatMantissa_int0 (n : Nat) :
    pyFloatMantissa (natRepr n ++ ['.', '0']) = some (n : ℚ) := by
  have hdot : '.' ∉ natRepr n := fun hm =>
    absurd (natRepr_all_digits n '.' hm) (by decide)
  have hall : (natRepr n).all Char.isDigit = true :=
    List.all_eq_true.mpr (fun c hc => natRepr_all_digits n c hc)
  have key : pyFloatMantissa (natRepr n ++ ['.', '0'])
      = (if (natRepr n).isEmpty && (['0'] : Str).isEmpty then none
         else if (natRepr n).all Char.isDigit && (['0'] : Str).all Char.isDigit then
           some ((digitsVal (natRepr n) : ℚ) +
             (digitsVal ['0'] : ℚ) / (10 : ℚ) ^ (['0'] : Str).length)
         else none) := by
    rw [pyFloatMantissa, splitDot_append ['0'] hdot]
  have h1 : ¬ ((natRepr n).isEmpty && (['0'] : Str).isEmpty) = true := by
    intro hcon
    rw [show (['0'] : Str).isEmpty = false from rfl, Bool.and_false] at hcon
    exact Bool.noConfusion hcon
  have h2 : ((natRepr n).all Char.isDigit && (['0'] : Str).all Char.isDigit) = true := by
    rw [hall, show (['0'] : Str).all Char.isDigit = true from by decide]
    decide
  rw [key, if_neg h1, if_pos h2, digitsVal_roundtrip,
    show digitsVal ['0'] = 0 from rfl]
  norm_num

theorem pyFloat_simple {s t : Str} {sg : ℚ} {k : ℚ}
    (h1 : pySign (pyStrip s) = (sg, t))
    (h2 : splitExp t = (t, none))
    (h3 : pyFloatMantissa t = some k) :
    pyFloat s = some (sg * k) := by
  rw [pyFloat, h1]
  simp only [h2, h3]

theorem splitExp_numDot (l : Str) (hdig : ∀ c ∈ l, c.isDigit = true) :
    splitExp (l ++ ['.', '0']) = (l ++ ['.', '0'], none) := by
  apply splitExp_no_e
  intro c hc
  rcases List.mem_append.mp hc with h | h
  · have hd := hdig c h
    rintro (rfl | rfl) <;> exact absurd hd (by decide)
  · rcases List.mem_cons.mp h with rfl | h2
    · decide
    · rcases List.mem_cons.mp h2 with rfl | h3
      · decide
      · exact absurd h3 (List.not_mem_nil c)

theorem rat_num_cast {q : ℚ} (hden : q.den = 1) : ((q.num : ℚ)) = q := by
  have h := Rat.num_div_den q
  rw [hden] at h
  simpa using h

theorem pyFloat_floatRepr {q : ℚ} (hden : q.den = 1) :
    pyFloat (floatRepr q) = some q := by
  have hq := rat_num_cast hden
  rw [floatRepr, if_pos hden]
  by_cases hneg : q.num < 0
  · rw [show intRepr q.num = '-' :: natRepr q.num.natAbs from by rw [intRepr, if_pos hneg],
      List.cons_append]
    have hstrip : pyStrip ('-' :: (natRepr q.num.natAbs ++ ['.', '0']))
        = '-' :: (natRepr q.num.natAbs ++ ['.', '0']) :=
      pyStrip_numDot ('-' :: natRepr q.num.natAbs)
        (by rw [List.headD_cons]; decide)
    have hsign : pySign ('-' :: (natRepr q.num.natAbs ++ ['.', '0']))
        = (-1, natRepr q.num.natAbs ++ ['.', '0']) := by
      rw [pySign,
        if_pos (show headIs ('-' :: (natRepr q.num.natAbs ++ ['.', '0'])) '-' = true from rfl)]
      rfl
    have hres := pyFloat_simple
      (s := '-' :: (natRepr q.num.natAbs ++ ['.', '0']))
      (by rw [hstrip]; exact hsign)
      (splitExp_numDot _ (natRepr_all_digits q.num.natAbs))
      (pyFloatMantissa_int0 q.num.natAbs)
    rw [hres]
    congr 1
    have h1 : ((q.num.natAbs : ℚ)) = -(q.num : ℚ) := by
      rw [Int.cast_natAbs]
      have habs : |q.num| = -q.num := abs_of_neg hneg
      exact_mod_cast congrArg (fun z : ℤ => (z : ℚ)) habs
    rw [h1, hq]
    ring
  · rw [show intRepr q.num = natRepr q.num.toNat from by rw [intRepr, if_neg hneg]]
    have hstrip : pyStrip (natRepr q.num.toNat ++ ['.', '0'])
        = natRepr q.num.toNat ++ ['.', '0'] :=
      pyStrip_numDot (natRepr q.num.toNat)
        (isDigit_not_space (natRepr_all_digits _ _ (headD_mem (natRepr_ne_nil _) ' ')))
    have hsign : pySign (natRepr q.num.toNat ++ ['.', '0'])
        = (1, natRepr q.num.toNat ++ ['.', '0']) := by
      have hm : headIs (natRepr q.num.toNat ++ ['.', '0']) '-' = false := by
        rw [headIs_append _ '-' (natRepr_ne_nil _)]
        exact headIs_eq_false_of_all_digits (natRepr_all_digits _) (by decide)
      have hp : headIs (natRepr q.num.toNat ++ ['.', '0']) '+' = false := by
        rw [headIs_append _ '+' (natRepr_ne_nil _)]
        exact headIs_eq_false_of_all_digits (natRepr_all_digits _) (by decide)
      rw [pySign, if_neg (by intro hcon; rw [hm] at hcon; exact Bool.noConfusion hcon),
        if_neg (by intro hcon; rw [hp] at hcon; exact Bool.noConfusion hcon)]
    have hres := pyFloat_simple
      (s := natRepr q.num.toNat ++ ['.', '0'])
      (by rw [hstrip]; exact hsign)
      (splitExp_numDot _ (natRepr_all_digits q.num.toNat))
      (pyFloatMantissa_int0 q.num.toNat)
    rw [hres]
    congr 1
    have htn : ((q.num.toNat : ℤ)) = q.num := by omega
    have h1 : ((q.num.toNat : ℚ)) = (q.num : ℚ) := by exact_mod_cast htn
    rw [h1, hq]
    ring

/-! ## Round-trip goodness predicates

The serializer/parser pair round-trips exactly on stores whose keys are
identifier-shaped and whose values are of the kinds the program itself
produces: integers, integral floats, comma-free strings, and non-empty
homogeneous lists (all-string lists are written quoted, scalar lists
plain).  A singleton list survives only at the keys `read_existing_namelist`
re-wraps into lists, and a bare scalar only at the other keys. -/

def isSIntB : Scalar → Bool
  | .SInt _ => true
  | _ => false

/-- A scalar whose `str` form parses back to itself (as a list element). -/
def goodScalarB : Scalar → Bool
  | .SInt _ => true
  | .SFloat q => q.den == 1
  | .SStr s => !(s.elem ',')

/-- A value whose formatted text parses back to it; `w` says whether the
key is one of the list-normalized keys (`wrapKeys`). -/
def goodValB : Bool → Value → Bool
  | w, .VInt _ => !w
  | w, .VFloat q => !w && (q.den == 1)
  | w, .VStr s => !w && !(s.elem ',')
  | w, .VList xs =>
    (if w then !xs.isEmpty else decide (2 ≤ xs.length))
      && (xs.all isSStrB || xs.all (fun x => !(isSStrB x)))
      && xs.all goodScalarB

/-- Identifier-shaped key (the shape every key of this program has). -/
def goodKeyB (k : Str) : Bool :=
  !k.isEmpty && k.all (fun c => c.isDigit || c.isAlpha || c = '_')

def goodEntryB (kv : Str × Value) : Bool :=
  goodKeyB kv.1 && goodValB (decide (kv.1 ∈ wrapKeys)) kv.2

def goodParamsB (p : Params) : Bool :=
  p.all goodEntryB && decide ((p.map Prod.fst).Nodup)

/-- A list-element token: comma-free and strip-neutral. -/
def tokOk (t : Str) : Bool :=
  !(t.elem ',') && !(pyIsSpace (t.headD ' ')) && !(pyIsSpace (t.getLastD ' '))

/-- A full value text: strip-neutral at both ends. -/
def vtxtOk (t : Str) : Bool :=
  !(pyIsSpace (t.headD ' ')) && !(pyIsSpace (t.getLastD ' '))

theorem elem_true_iff_mem {l : Str} {x : Char} : l.elem x = true ↔ x ∈ l := by
  induction l with
  | nil => simp [List.elem]
  | cons c r ih =>
    cases hbe : x == c
    · have hxc : ¬ x = c := by
        intro hcon
        rw [hcon] at hbe
        simp at hbe
      rw [show (c :: r).elem x = r.elem x from by rw [List.elem, hbe], ih, List.mem_cons]
      simp [hxc]
    · have hxc : x = c := beq_iff_eq.mp hbe
      subst hxc
      rw [show (x :: r).elem x = true from by rw [List.elem, hbe]]
      simp

theorem elem_false_of_not_mem {l : Str} {x : Char} (h : x ∉ l) : l.elem x = false := by
  cases he : l.elem x
  · rfl
  · exact absurd (elem_true_iff_mem.mp he) h

theorem not_mem_of_elem_false {l : Str} {x : Char} (h : l.elem x = false) : x ∉ l := by
  intro hcon
  rw [elem_true_iff_mem.mpr hcon] at h
  exact Bool.noConfusion h

theorem ne_nil_of_getLastD_not_space {x : Str}
    (h : pyIsSpace (x.getLastD ' ') = false) : x ≠ [] := by
  intro hcon
  subst hcon
  exact absurd h (by decide)

theorem getLastD_append_of_ne_nil {b : Str} (a : Str) (d : Char) (h : b ≠ []) :
    (a ++ b).getLastD d = b.getLastD d := by
  rw [List.getLastD_eq_getLast?, List.getLastD_eq_getLast?,
    List.getLast?_append_of_ne_nil a h]

theorem lastIs_concat (l : Str) (c : Char) : lastIs (l ++ [c]) c = true := by
  rw [lastIs, List.getLast?_concat]
  simp

theorem tokOk_strip {t : Str} (h : tokOk t = true) : pyStrip t = t := by
  rw [tokOk] at h
  simp only [Bool.and_eq_true, Bool.not_eq_true'] at h
  exact pyStrip_eq_self h.1.2 h.2

theorem tokOk_strip_space {t : Str} (h : tokOk t = true) : pyStrip (' ' :: t) = t := by
  rw [tokOk] at h
  simp only [Bool.and_eq_true, Bool.not_eq_true'] at h
  exact pyStrip_space_cons h.1.2 h.2

theorem tokOk_comma {t : Str} (h : tokOk t = true) : ',' ∉ t := by
  rw [tokOk] at h
  simp only [Bool.and_eq_true, Bool.not_eq_true'] at h
  exact not_mem_of_elem_false h.1.1

/-! ### Token facts for the three scalar spellings -/

theorem intRepr_headIs_false (i : Int) {x : Char} (hx1 : ¬ x = '-')
    (hx2 : x.isDigit = false) : headIs (intRepr i) x = false := by
  cases hl : intRepr i with
  | nil => rfl
  | cons c r =>
    have hc : c ∈ intRepr i := by
      rw [hl]
      exact List.mem_cons_self c r
    rcases intRepr_chars i c hc with h | h
    · have : ¬ (c = x) := by
        rw [h]
        intro hcon
        exact hx1 hcon.symm
      simp [headIs, this]
    · have : ¬ (c = x) := by
        intro hcon
        rw [hcon, hx2] at h
        exact Bool.noConfusion h
      simp [headIs, this]

theorem tokOk_intRepr (i : Int) : tokOk (intRepr i) = true := by
  rw [tokOk, elem_false_of_not_mem (intRepr_no_char i (by decide) (by decide)),
    intRepr_head_not_space, intRepr_last_not_space]
  rfl

theorem floatRepr_den1 {q : ℚ} (hden : q.den = 1) :
    floatRepr q = intRepr q.num ++ ['.', '0'] := by
  rw [floatRepr, if_pos hden]

theorem tokOk_floatRepr {q : ℚ} (hden : q.den = 1) : tokOk (floatRepr q) = true := by
  rw [tokOk, floatRepr_den1 hden]
  have hcm : ',' ∉ intRepr q.num ++ ['.', '0'] := by
    intro hc
    rcases List.mem_append.mp hc with h | h
    · exact intRepr_no_char q.num (by decide) (by decide) h
    · rcases List.mem_cons.mp h with h2 | h2
      · exact absurd h2 (by decide)
      · rcases List.mem_cons.mp h2 with h3 | h3
        · exact absurd h3 (by decide)
        · exact absurd h3 (List.not_mem_nil ',')
  have hh : (intRepr q.num ++ ['.', '0']).headD ' ' = (intRepr q.num).headD ' ' := by
    cases hl : intRepr q.num with
    | nil => exact absurd hl (intRepr_ne_nil q.num)
    | cons c r => rfl
  have hl : (intRepr q.num ++ ['.', '0']).getLastD ' ' = '0' := by
    rw [show intRepr q.num ++ ['.', '0'] = (intRepr q.num ++ ['.']) ++ ['0'] from by simp,
      getLastD_concat']
  rw [elem_false_of_not_mem hcm, hh, intRepr_head_not_space, hl]
  rfl

theorem tokOk_quoteStr {s : Str} (h : s.elem ',' = false) :
    tokOk (quoteStr s) = true := by
  have hcm : ',' ∉ quoteStr s := by
    intro hc
    rw [quoteStr] at hc
    rcases List.mem_cons.mp hc with h2 | h2
    · exact absurd h2 (by decide)
    · rcases List.mem_append.mp h2 with h3 | h3
      · exact absurd h3 (not_mem_of_elem_false h)
      · rcases List.mem_cons.mp h3 with h4 | h4
        · exact absurd h4 (by decide)
        · exact absurd h4 (List.not_mem_nil ',')
  have hl : (quoteStr s).getLastD ' ' = '\'' := by
    rw [show quoteStr s = ('\'' :: s) ++ ['\''] from rfl, getLastD_concat']
  rw [tokOk, elem_false_of_not_mem hcm, hl]
  rfl

theorem parseScalarElem_int (i : Int) : parseScalarElem (intRepr i) = .SInt i := by
  have hq1 : headIs (intRepr i) '\'' = false :=
    intRepr_headIs_false i (by decide) (by decide)
  have hq2 : headIs (intRepr i) '"' = false :=
    intRepr_headIs_false i (by decide) (by decide)
  rw [parseScalarElem,
    if_neg (by
      intro hcon
      rw [hq1, hq2, Bool.false_and, Bool.false_and, Bool.or_self] at hcon
      exact Bool.noConfusion hcon),
    if_neg (by
      intro hcon
      rw [elem_false_of_not_mem (intRepr_no_char i (by decide) (by decide))] at hcon
      exact Bool.noConfusion hcon),
    pyInt_intRepr]

theorem parseScalarElem_float {q : ℚ} (hden : q.den = 1) :
    parseScalarElem (floatRepr q) = .SFloat q := by
  have hfr := floatRepr_den1 hden
  have hq1 : headIs (floatRepr q) '\'' = false := by
    rw [hfr, headIs_append _ _ (intRepr_ne_nil _)]
    exact intRepr_headIs_false _ (by decide) (by decide)
  have hq2 : headIs (floatRepr q) '"' = false := by
    rw [hfr, headIs_append _ _ (intRepr_ne_nil _)]
    exact intRepr_headIs_false _ (by decide) (by decide)
  have hdotmem : '.' ∈ floatRepr q := by
    rw [hfr]
    exact List.mem_append.mpr (Or.inr (List.mem_cons_self _ _))
  rw [parseScalarElem,
    if_neg (by
      intro hcon
      rw [hq1, hq2, Bool.false_and, Bool.false_and, Bool.or_self] at hcon
      exact Bool.noConfusion hcon),
    if_pos (elem_true_iff_mem.mpr hdotmem),
    pyFloat_floatRepr hden]

theorem parseScalarElem_str (s : Str) : parseScalarElem (quoteStr s) = .SStr s := by
  have hcond : (headIs (quoteStr s) '\'' && lastIs (quoteStr s) '\''
      || headIs (quoteStr s) '"' && lastIs (quoteStr s) '"') = true := by
    have hl : lastIs (quoteStr s) '\'' = true := by
      rw [show quoteStr s = ('\'' :: s) ++ ['\''] from rfl]
      exact lastIs_concat _ _
    rw [show headIs (quoteStr s) '\'' = true from rfl, hl]
    rfl
  rw [parseScalarElem, if_pos hcond,
    show (quoteStr s).drop 1 = s ++ ['\''] from rfl, List.dropLast_concat]

theorem parseScalarValue_int (i : Int) : parseScalarValue (intRepr i) = .VInt i := by
  have hq1 : headIs (intRepr i) '\'' = false :=
    intRepr_headIs_false i (by decide) (by decide)
  have hq2 : headIs (intRepr i) '"' = false :=
    intRepr_headIs_false i (by decide) (by decide)
  rw [parseScalarValue,
    if_neg (by
      intro hcon
      rw [hq1, hq2, Bool.false_and, Bool.false_and, Bool.or_self] at hcon
      exact Bool.noConfusion hcon),
    if_neg (by
      intro hcon
      rw [elem_false_of_not_mem (intRepr_no_char i (by decide) (by decide))] at hcon
      exact Bool.noConfusion hcon),
    pyInt_intRepr]

theorem parseScalarValue_float {q : ℚ} (hden : q.den = 1) :
    parseScalarValue (floatRepr q) = .VFloat q := by
  have hfr := floatRepr_den1 hden
  have hq1 : headIs (floatRepr q) '\'' = false := by
    rw [hfr, headIs_append _ _ (intRepr_ne_nil _)]
    exact intRepr_headIs_false _ (by decide) (by decide)
  have hq2 : headIs (floatRepr q) '"' = false := by
    rw [hfr, headIs_append _ _ (intRepr_ne_nil _)]
    exact intRepr_headIs_false _ (by decide) (by decide)
  have hdotmem : '.' ∈ floatRepr q := by
    rw [hfr]
    exact List.mem_append.mpr (Or.inr (List.mem_cons_self _ _))
  rw [parseScalarValue,
    if_neg (by
      intro hcon
      rw [hq1, hq2, Bool.false_and, Bool.false_and, Bool.or_self] at hcon
      exact Bool.noConfusion hcon),
    if_pos (elem_true_iff_mem.mpr hdotmem),
    pyFloat_floatRepr hden]

theorem parseScalarValue_str (s : Str) : parseScalarValue (quoteStr s) = .VStr s := by
  have hcond : (headIs (quoteStr s) '\'' && lastIs (quoteStr s) '\''
      || headIs (quoteStr s) '"' && lastIs (quoteStr s) '"') = true := by
    have hl : lastIs (quoteStr s) '\'' = true := by
      rw [show quoteStr s = ('\'' :: s) ++ ['\''] from rfl]
      exact lastIs_concat _ _
    rw [show headIs (quoteStr s) '\'' = true from rfl, hl]
    rfl
  rw [parseScalarValue, if_pos hcond,
    show (quoteStr s).drop 1 = s ++ ['\''] from rfl, List.dropLast_concat]

/-- The token a good scalar is written as in a list (quoted when the whole
list is strings), with its parse-back and shape facts. -/
theorem scalar_token_ok {x : Scalar} (hx : goodScalarB x = true) :
    (isSStrB x = true →
      tokOk (quoteStr (scalarStr x)) = true
        ∧ parseScalarElem (quoteStr (scalarStr x)) = x)
    ∧ (isSStrB x = false →
      tokOk (scalarStr x) = true ∧ parseScalarElem (scalarStr x) = x) := by
  cases x with
  | SInt i =>
    refine ⟨fun hcon => by simp [isSStrB] at hcon, fun _ => ?_⟩
    exact ⟨tokOk_intRepr i, parseScalarElem_int i⟩
  | SFloat q =>
    have hden : q.den = 1 := by
      rw [goodScalarB] at hx
      exact beq_iff_eq.mp hx
    refine ⟨fun hcon => by simp [isSStrB] at hcon, fun _ => ?_⟩
    exact ⟨tokOk_floatRepr hden, parseScalarElem_float hden⟩
  | SStr s =>
    have hc : s.elem ',' = false := by
      rw [goodScalarB, Bool.not_eq_true'] at hx
      exact hx
    refine ⟨fun _ => ?_, fun hcon => by simp [isSStrB] at hcon⟩
    exact ⟨tokOk_quoteStr hc, parseScalarElem_str s⟩

theorem joinCommaSpace_ne_nil (t : Str) (ts : List Str) (ht : t ≠ []) :
    joinCommaSpace (t :: ts) ≠ [] := by
  cases ts with
  | nil => exact ht
  | cons u us =>
    cases t with
    | nil => exact absurd rfl ht
    | cons c r => simp [joinCommaSpace]

theorem joinCommaSpace_headD (t : Str) (ts : List Str) (ht : t ≠ []) (d : Char) :
    (joinCommaSpace (t :: ts)).headD d = t.headD d := by
  cases ts with
  | nil => rfl
  | cons u us =>
    cases t with
    | nil => exact absurd rfl ht
    | cons c r => rfl

theorem joinCommaSpace_last_not_space : ∀ (ts : List Str),
    (∀ x ∈ ts, pyIsSpace (x.getLastD ' ') = false) → ts ≠ [] →
    pyIsSpace ((joinCommaSpace ts).getLastD ' ') = false := by
  intro ts
  induction ts with
  | nil =>
    intro _ h
    exact absurd rfl h
  | cons t us ih =>
    intro hall _
    cases us with
    | nil => exact hall t (List.mem_cons_self t [])
    | cons u vs =>
      have hu : u ≠ [] := ne_nil_of_getLastD_not_space
        (hall u (List.mem_cons_of_mem t (List.mem_cons_self u vs)))
      have hjne : joinCommaSpace (u :: vs) ≠ [] := joinCommaSpace_ne_nil u vs hu
      have hj := ih (fun x hx => hall x (List.mem_cons_of_mem t hx)) (List.cons_ne_nil u vs)
      rw [show joinCommaSpace (t :: u :: vs)
          = t ++ ',' :: ' ' :: joinCommaSpace (u :: vs) from rfl,
        getLastD_append_of_ne_nil t ' ' (List.cons_ne_nil _ _),
        show (',' :: ' ' :: joinCommaSpace (u :: vs) : Str)
          = [',', ' '] ++ joinCommaSpace (u :: vs) from rfl,
        getLastD_append_of_ne_nil [',', ' '] ' ' hjne]
      exact hj

theorem comma_mem_joinCommaSpace (t u : Str) (ts : List Str) :
    ',' ∈ joinCommaSpace (t :: u :: ts) := by
  rw [show joinCommaSpace (t :: u :: ts)
      = t ++ ',' :: ' ' :: joinCommaSpace (u :: ts) from rfl]
  exact List.mem_append.mpr (Or.inr (List.mem_cons_self _ _))

/-- Splitting the comma-space join back apart, stripping each piece and
coercing it recovers the original scalars. -/
theorem splitComma_strip_parse (f : Scalar → Str) : ∀ (xs : List Scalar),
    (∀ x ∈ xs, tokOk (f x) = true ∧ parseScalarElem (f x) = x) → xs ≠ [] →
    (splitComma (joinCommaSpace (xs.map f))).map
      (fun w => parseScalarElem (pyStrip w)) = xs := by
  intro xs hx hne
  cases xs with
  | nil => exact absurd rfl hne
  | cons x rest =>
    rw [List.map_cons]
    have hcf0 : ',' ∉ f x := tokOk_comma (hx x (List.mem_cons_self x rest)).1
    have hcf1 : ∀ w ∈ rest.map f, ',' ∉ w := by
      intro w hw
      rcases List.mem_map.mp hw with ⟨a, ha, rfl⟩
      exact tokOk_comma (hx a (List.mem_cons_of_mem x ha)).1
    rw [splitComma_join (f x) (rest.map f) hcf0 hcf1, List.map_cons]
    congr 1
    · rw [tokOk_strip (hx x (List.mem_cons_self x rest)).1]
      exact (hx x (List.mem_cons_self x rest)).2
    · rw [List.map_map, List.map_map]
      have h2 : ∀ a ∈ rest,
          (((fun w => parseScalarElem (pyStrip w))
            ∘ (fun w => ' ' :: w)) ∘ f) a = a := by
        intro a ha
        have h := hx a (List.mem_cons_of_mem x ha)
        show parseScalarElem (pyStrip (' ' :: f a)) = a
        rw [tokOk_strip_space h.1]
        exact h.2
      rw [List.map_congr_left h2]
      exact List.map_id rest

theorem parseValueText_join {f : Scalar → Str} {xs : List Scalar}
    (hx : ∀ x ∈ xs, tokOk (f x) = true ∧ parseScalarElem (f x) = x)
    (hlen : 2 ≤ xs.length) :
    parseValueText (joinCommaSpace (xs.map f)) = .VList xs := by
  cases xs with
  | nil => simp at hlen
  | cons x t =>
    cases t with
    | nil => simp at hlen
    | cons y rest =>
      have hmem : ',' ∈ joinCommaSpace ((x :: y :: rest).map f) := by
        rw [List.map_cons, List.map_cons]
        exact comma_mem_joinCommaSpace _ _ _
      rw [parseValueText, if_pos (elem_true_iff_mem.mpr hmem),
        splitComma_strip_parse f (x :: y :: rest) hx (List.cons_ne_nil _ _)]

/-- Element tokens of a good homogeneous list, by format branch. -/
theorem goodList_token_facts {xs : List Scalar}
    (hgood : xs.all goodScalarB = true) :
    (xs.all isSStrB = true →
      ∀ x ∈ xs, tokOk (quoteStr (scalarStr x)) = true
        ∧ parseScalarElem (quoteStr (scalarStr x)) = x)
    ∧ (xs.all (fun x => !(isSStrB x)) = true →
      ∀ x ∈ xs, tokOk (scalarStr x) = true
        ∧ parseScalarElem (scalarStr x) = x) := by
  constructor
  · intro hall x hxm
    exact (scalar_token_ok (List.all_eq_true.mp hgood x hxm)).1
      (List.all_eq_true.mp hall x hxm)
  · intro hall x hxm
    refine (scalar_token_ok (List.all_eq_true.mp hgood x hxm)).2 ?_
    have := List.all_eq_true.mp hall x hxm
    rw [Bool.not_eq_true'] at this
    exact this

theorem parseValueText_list {xs : List Scalar}
    (hgood : xs.all goodScalarB = true)
    (hkind : xs.all isSStrB = true ∨ xs.all (fun x => !(isSStrB x)) = true)
    (hlen : 2 ≤ xs.length) :
    parseValueText (formatValue (.VList xs)) = .VList xs := by
  rcases hkind with hall | hnone
  · rw [formatValue, if_pos hall]
    exact parseValueText_join ((goodList_token_facts hgood).1 hall) hlen
  · have hne : xs.all isSStrB = false := by
      cases xs with
      | nil => simp at hlen
      | cons x t =>
        have hx := List.all_eq_true.mp hnone x (List.mem_cons_self x t)
        rw [Bool.not_eq_true'] at hx
        cases hx2 : (x :: t).all isSStrB
        · rfl
        · rw [List.all_eq_true.mp hx2 x (List.mem_cons_self x t)] at hx
          exact Bool.noConfusion hx
    rw [formatValue,
      if_neg (by intro hcon; rw [hne] at hcon; exact Bool.noConfusion hcon)]
    exact parseValueText_join ((goodList_token_facts hgood).2 hnone) hlen

/-- Goodness of a list value, destructured. -/
theorem goodValB_list_parts {w : Bool} {xs : List Scalar}
    (h : goodValB w (.VList xs) = true) :
    (w = true → xs.isEmpty = false)
    ∧ (w = false → 2 ≤ xs.length)
    ∧ (xs.all isSStrB = true ∨ xs.all (fun x => !(isSStrB x)) = true)
    ∧ xs.all goodScalarB = true := by
  rw [goodValB] at h
  simp only [Bool.and_eq_true, Bool.or_eq_true] at h
  refine ⟨?_, ?_, h.1.2, h.2⟩
  · intro hw
    subst hw
    have := h.1.1
    rw [if_pos rfl, Bool.not_eq_true'] at this
    exact this
  · intro hw
    subst hw
    have := h.1.1
    rw [if_neg (show ¬ (false = true) from fun hcon => Bool.noConfusion hcon)] at this
    exact of_decide_eq_true this

/-- A good value at a non-normalized key reads back as itself. -/
theorem parseValueText_fmt_nonwrap {v : Value} (h : goodValB false v = true) :
    parseValueText (formatValue v) = v := by
  cases v with
  | VInt i =>
    rw [show formatValue (.VInt i) = intRepr i from rfl, parseValueText,
      if_neg (by
        intro hcon
        rw [elem_false_of_not_mem (intRepr_no_char i (by decide) (by decide))] at hcon
        exact Bool.noConfusion hcon),
      parseScalarValue_int]
  | VFloat q =>
    have hden : q.den = 1 := by
      rw [goodValB, Bool.and_eq_true] at h
      exact beq_iff_eq.mp h.2
    have hcm : (floatRepr q).elem ',' = false := by
      have := tokOk_floatRepr hden
      rw [tokOk] at this
      simp only [Bool.and_eq_true, Bool.not_eq_true'] at this
      exact this.1.1
    rw [show formatValue (.VFloat q) = floatRepr q from rfl, parseValueText,
      if_neg (by intro hcon; rw [hcm] at hcon; exact Bool.noConfusion hcon),
      parseScalarValue_float hden]
  | VStr s =>
    have hcs : s.elem ',' = false := by
      rw [goodValB] at h
      simp only [Bool.and_eq_true, Bool.not_eq_true'] at h
      exact h.2
    have hcm : (quoteStr s).elem ',' = false := by
      have := tokOk_quoteStr hcs
      rw [tokOk] at this
      simp only [Bool.and_eq_true, Bool.not_eq_true'] at this
      exact this.1.1
    rw [show formatValue (.VStr s) = quoteStr s from rfl, parseValueText,
      if_neg (by intro hcon; rw [hcm] at hcon; exact Bool.noConfusion hcon),
      parseScalarValue_str]
  | VList xs =>
    obtain ⟨_, hlen, hkind, hgood⟩ := goodValB_list_parts h
    exact parseValueText_list hgood hkind (hlen rfl)

/-- A good (list) value at a normalized key reads back as itself after the
re-wrap of `read_existing_namelist`. -/
theorem parseValueText_fmt_wrap {v : Value} (h : goodValB true v = true) :
    wrapVal (parseValueText (formatValue v)) = v := by
  cases v with
  | VInt i => simp [goodValB] at h
  | VFloat q => simp [goodValB] at h
  | VStr s => simp [goodValB] at h
  | VList xs =>
    obtain ⟨hlen0, _, hkind, hgood⟩ := goodValB_list_parts h
    have hlen := hlen0 rfl
    cases xs with
    | nil => exact absurd hlen (by decide)
    | cons x t =>
      cases t with
      | cons y rest =>
        rw [parseValueText_list hgood hkind (by simp)]
        rfl
      | nil =>
        have hgx : goodScalarB x = true :=
          List.all_eq_true.mp hgood x (List.mem_cons_self x [])
        cases x with
        | SStr s =>
          have hcs : s.elem ',' = false := by
            rw [goodScalarB, Bool.not_eq_true'] at hgx
            exact hgx
          have hcm : (quoteStr s).elem ',' = false := by
            have := tokOk_quoteStr hcs
            rw [tokOk] at this
            simp only [Bool.and_eq_true, Bool.not_eq_true'] at this
            exact this.1.1
          rw [show formatValue (.VList [.SStr s])
              = quoteStr s from by
                rw [formatValue,
                  if_pos (show ([Scalar.SStr s].all isSStrB) = true from rfl)]
                rfl,
            parseValueText,
            if_neg (by intro hcon; rw [hcm] at hcon; exact Bool.noConfusion hcon),
            parseScalarValue_str]
          rfl
        | SInt i =>
          rw [show formatValue (.VList [.SInt i])
              = intRepr i from by
                rw [formatValue,
                  if_neg (show ¬ ([Scalar.SInt i].all isSStrB = true) from
                    fun hcon => Bool.noConfusion hcon)]
                rfl,
            parseValueText,
            if_neg (by
              intro hcon
              rw [elem_false_of_not_mem
                (intRepr_no_char i (by decide) (by decide))] at hcon
              exact Bool.noConfusion hcon),
            parseScalarValue_int]
          rfl
        | SFloat q =>
          have hden : q.den = 1 := by
            rw [goodScalarB] at hgx
            exact beq_iff_eq.mp hgx
          have hcm : (floatRepr q).elem ',' = false := by
            have := tokOk_floatRepr hden
            rw [tokOk] at this
            simp only [Bool.and_eq_true, Bool.not_eq_true'] at this
            exact this.1.1
          rw [show formatValue (.VList [.SFloat q])
              = floatRepr q from by
                rw [formatValue,
                  if_neg (show ¬ ([Scalar.SFloat q].all isSStrB = true) from
                    fun hcon => Bool.noConfusion hcon)]
                rfl,
            parseValueText,
            if_neg (by intro hcon; rw [hcm] at hcon; exact Bool.noConfusion hcon),
            parseScalarValue_float hden]
          rfl

theorem all_isSStrB_false {xs : List Scalar} (hne : xs ≠ [])
    (hnone : xs.all (fun x => !(isSStrB x)) = true) :
    xs.all isSStrB = false := by
  cases xs with
  | nil => exact absurd rfl hne
  | cons x t =>
    have hx := List.all_eq_true.mp hnone x (List.mem_cons_self x t)
    rw [Bool.not_eq_true'] at hx
    cases hx2 : (x :: t).all isSStrB
    · rfl
    · rw [List.all_eq_true.mp hx2 x (List.mem_cons_self x t)] at hx
      exact Bool.noConfusion hx

theorem tokOk_vtxt {t : Str} (h : tokOk t = true) : vtxtOk t = true := by
  rw [tokOk] at h
  rw [vtxtOk]
  simp only [Bool.and_eq_true] at h ⊢
  exact ⟨h.1.2, h.2⟩

theorem join_vtxt {f : Scalar → Str} {xs : List Scalar}
    (hx : ∀ x ∈ xs, tokOk (f x) = true) (hne : xs ≠ []) :
    vtxtOk (joinCommaSpace (xs.map f)) = true := by
  cases xs with
  | nil => exact absurd rfl hne
  | cons x t =>
    have hx0 := hx x (List.mem_cons_self x t)
    rw [tokOk] at hx0
    simp only [Bool.and_eq_true, Bool.not_eq_true'] at hx0
    have hfx_ne : f x ≠ [] := ne_nil_of_getLastD_not_space hx0.2
    have hlast : ∀ w ∈ (x :: t).map f, pyIsSpace (w.getLastD ' ') = false := by
      intro w hw
      rcases List.mem_map.mp hw with ⟨a, ha, rfl⟩
      have := hx a ha
      rw [tokOk] at this
      simp only [Bool.and_eq_true, Bool.not_eq_true'] at this
      exact this.2
    have h2 := joinCommaSpace_last_not_space ((x :: t).map f) hlast (by simp)
    rw [List.map_cons] at h2
    rw [vtxtOk, List.map_cons, joinCommaSpace_headD (f x) (t.map f) hfx_ne ' ',
      hx0.1.2, h2]
    rfl

/-- Good values format to strip-neutral texts. -/
theorem goodVal_vtxt {w : Bool} {v : Value} (h : goodValB w v = true) :
    vtxtOk (formatValue v) = true := by
  cases v with
  | VInt i => exact tokOk_vtxt (tokOk_intRepr i)
  | VFloat q =>
    have hden : q.den = 1 := by
      rw [goodValB] at h
      simp only [Bool.and_eq_true] at h
      exact beq_iff_eq.mp h.2
    exact tokOk_vtxt (tokOk_floatRepr hden)
  | VStr s =>
    have hcs : s.elem ',' = false := by
      rw [goodValB] at h
      simp only [Bool.and_eq_true, Bool.not_eq_true'] at h
      exact h.2
    exact tokOk_vtxt (tokOk_quoteStr hcs)
  | VList xs =>
    obtain ⟨hw1, hw2, hkind, hgood⟩ := goodValB_list_parts h
    have hne : xs ≠ [] := by
      cases w
      · have := hw2 rfl
        intro hcon
        subst hcon
        simp at this
      · have := hw1 rfl
        intro hcon
        subst hcon
        simp at this
    rcases hkind with hall | hnone
    · rw [formatValue, if_pos hall]
      exact join_vtxt (fun x hxm => ((goodList_token_facts hgood).1 hall x hxm).1) hne
    · rw [formatValue, if_neg (by
        intro hcon
        rw [all_isSStrB_false hne hnone] at hcon
        exact Bool.noConfusion hcon)]
      exact join_vtxt (fun x hxm => ((goodList_token_facts hgood).2 hnone x hxm).1) hne

/-! ### One serialized line through the parser -/

theorem goodKey_parts {k : Str} (h : goodKeyB k = true) :
    k ≠ [] ∧ ∀ c ∈ k, (c.isDigit || c.isAlpha || c = '_') = true := by
  rw [goodKeyB] at h
  simp only [Bool.and_eq_true, Bool.not_eq_true'] at h
  refine ⟨?_, List.all_eq_true.mp h.2⟩
  intro hcon
  subst hcon
  exact absurd h.1 (by decide)

theorem goodChar_not_space {c : Char}
    (h : (c.isDigit || c.isAlpha || c = '_') = true) : pyIsSpace c = false := by
  cases hs : pyIsSpace c
  · rfl
  · exfalso
    rw [pyIsSpace] at hs
    simp only [Bool.or_eq_true, decide_eq_true_eq] at hs
    rcases hs with ((((h1 | h1) | h1) | h1) | h1) | h1 <;>
      (subst h1; exact absurd h (by decide))

theorem goodChar_ne {c x : Char} (h : (c.isDigit || c.isAlpha || c = '_') = true)
    (hx : (x.isDigit || x.isAlpha || x = '_') = false) : ¬ c = x := by
  intro hcon
  subst hcon
  rw [h] at hx
  exact Bool.noConfusion hx

theorem headD_append_of_ne_nil {a : Str} (b : Str) (d : Char) (h : a ≠ []) :
    (a ++ b).headD d = a.headD d := by
  cases a with
  | nil => exact absurd rfl h
  | cons c r => rfl

/-- Source lines 171-243 on one `" key = value,"` line with an active
section: the pair is stored into that section's mapping. -/
theorem parseLine_keyval {st : PState} {sec : Sect} (hcur : st.cur = some sec)
    (k fv : Str) (hk : goodKeyB k = true) (hfv : vtxtOk fv = true) :
    parseLine st (((' ' :: k) ++ (' ' :: '=' :: ' ' :: fv)) ++ [','])
      = setSect st sec (dset (getSect st sec) k (parseValueText fv)) := by
  obtain ⟨hkne, hkch⟩ := goodKey_parts hk
  have hvh : pyIsSpace (fv.headD ' ') = false ∧ pyIsSpace (fv.getLastD ' ') = false := by
    rw [vtxtOk] at hfv
    simp only [Bool.and_eq_true, Bool.not_eq_true'] at hfv
    exact hfv
  have hfvne : fv ≠ [] := ne_nil_of_getLastD_not_space hvh.2
  have hkane : k ++ (' ' :: '=' :: ' ' :: fv) ≠ [] := by
    intro hcon
    exact hkne (List.append_eq_nil.mp hcon).1
  have hstrip : pyStrip (((' ' :: k) ++ (' ' :: '=' :: ' ' :: fv)) ++ [','])
      = (k ++ (' ' :: '=' :: ' ' :: fv)) ++ [','] := by
    rw [show ((' ' :: k) ++ (' ' :: '=' :: ' ' :: fv)) ++ [',']
        = ' ' :: ((k ++ (' ' :: '=' :: ' ' :: fv)) ++ [',']) from rfl]
    apply pyStrip_space_cons
    · rw [headD_append_of_ne_nil _ ' ' hkane, headD_append_of_ne_nil _ ' ' hkne]
      exact goodChar_not_space (hkch _ (headD_mem hkne ' '))
    · rw [getLastD_concat']
      decide
  cases k with
  | nil => exact absurd rfl hkne
  | cons c k' =>
  have hc := hkch c (List.mem_cons_self c k')
  rw [parseLine, hstrip]
  rw [if_neg (show ¬ (((((c :: k') ++ (' ' :: '=' :: ' ' :: fv)) ++ [',']).isEmpty) = true)
    from fun hcon => Bool.noConfusion hcon)]
  rw [if_neg (show ¬ (headIs (((c :: k') ++ (' ' :: '=' :: ' ' :: fv)) ++ [',']) '!' = true)
    from fun hcon => absurd (of_decide_eq_true hcon) (goodChar_ne hc (by decide)))]
  rw [if_neg (show ¬ (headIs (((c :: k') ++ (' ' :: '=' :: ' ' :: fv)) ++ [',']) '&' = true)
    from fun hcon => absurd (of_decide_eq_true hcon) (goodChar_ne hc (by decide)))]
  rw [if_neg (show ¬ (headIs (((c :: k') ++ (' ' :: '=' :: ' ' :: fv)) ++ [',']) '/' = true)
    from fun hcon => absurd (of_decide_eq_true hcon) (goodChar_ne hc (by decide)))]
  rw [hcur]
  have hsplit : splitFirstEq (((c :: k') ++ (' ' :: '=' :: ' ' :: fv)) ++ [','])
      = some ((c :: k') ++ [' '], (' ' :: fv) ++ [',']) := by
    rw [show ((c :: k') ++ (' ' :: '=' :: ' ' :: fv)) ++ [',']
        = ((c :: k') ++ [' ']) ++ ('=' :: ((' ' :: fv) ++ [','])) from by
      rw [List.append_assoc, List.append_assoc]
      rfl]
    apply splitFirstEq_append
    intro hmem
    rcases List.mem_append.mp hmem with hm | hm
    · exact absurd rfl (goodChar_ne (hkch _ hm) (by decide))
    · rcases List.mem_cons.mp hm with hm2 | hm2
      · exact absurd hm2 (by decide)
      · exact absurd hm2 (List.not_mem_nil _)
  rw [hsplit]
  dsimp only
  have hs1 : pyStrip ((c :: k') ++ [' ']) = c :: k' := by
    apply pyStrip_append_space
    · exact goodChar_not_space (hkch _ (headD_mem hkne ' '))
    · exact goodChar_not_space (hkch _ (getLastD_mem hkne ' '))
  have hs2 : pyStrip ((' ' :: fv) ++ [',']) = fv ++ [','] := by
    rw [show (' ' :: fv) ++ [','] = ' ' :: (fv ++ [',']) from rfl]
    apply pyStrip_space_cons
    · rw [headD_append_of_ne_nil _ ' ' hfvne]
      exact hvh.1
    · rw [getLastD_concat']
      decide
  rw [hs1, hs2, if_pos (lastIs_concat fv ','), List.dropLast_concat]

/-- The same, spelled on the serializer's `fmtLine`. -/
theorem parseLine_fmt {st : PState} {sec : Sect} (hcur : st.cur = some sec)
    (k : Str) (v : Value) (hk : goodKeyB k = true)
    (hfv : vtxtOk (formatValue v) = true) :
    parseLine st (fmtLine (k, v))
      = setSect st sec (dset (getSect st sec) k (parseValueText (formatValue v))) := by
  have h := parseLine_keyval hcur k (formatValue v) hk hfv
  rw [fmtLine]
  dsimp only
  exact h

/-! ### Folding a whole serialized section through the parser -/

theorem setSect_cur (st : PState) (sec : Sect) (q : Params) :
    (setSect st sec q).cur = st.cur := by
  cases sec <;> rfl

theorem getSect_setSect (st : PState) (sec : Sect) (q : Params) :
    getSect (setSect st sec q) sec = q := by
  cases sec <;> rfl

theorem setSect_setSect (st : PState) (sec : Sect) (q q' : Params) :
    setSect (setSect st sec q) sec q' = setSect st sec q' := by
  cases sec <;> rfl

theorem setSect_getSect (st : PState) (sec : Sect) :
    setSect st sec (getSect st sec) = st := by
  cases sec <;> rfl

theorem foldl_parseLine_sect (sec : Sect) : ∀ (p : Params) (st : PState),
    st.cur = some sec →
    (∀ kv ∈ p, goodKeyB kv.1 = true ∧ vtxtOk (formatValue kv.2) = true) →
    List.foldl parseLine st (p.map fmtLine)
      = setSect st sec
          (List.foldl (fun acc kv => dset acc kv.1 (parseValueText (formatValue kv.2)))
            (getSect st sec) p) := by
  intro p
  induction p with
  | nil =>
    intro st hcur _
    rw [List.map_nil, List.foldl_nil, List.foldl_nil, setSect_getSect]
  | cons kv rest ih =>
    intro st hcur hgood
    obtain ⟨k, v⟩ := kv
    have h0 := hgood (k, v) (List.mem_cons_self _ rest)
    rw [List.map_cons, List.foldl_cons, List.foldl_cons,
      parseLine_fmt hcur k v h0.1 h0.2,
      ih _ (by rw [setSect_cur]; exact hcur)
        (fun kv2 h2 => hgood kv2 (List.mem_cons_of_mem _ h2)),
      getSect_setSect, setSect_setSect]

theorem dset_append_of_fresh {p : Params} {k : Str} (v : Value)
    (h : dlookup p k = none) : dset p k v = p ++ [(k, v)] := by
  induction p with
  | nil => rfl
  | cons kv rest ih =>
    obtain ⟨a, w⟩ := kv
    rw [dlookup] at h
    by_cases ha : a = k
    · rw [if_pos ha] at h
      exact Option.noConfusion h
    · rw [if_neg ha] at h
      rw [dset, if_neg ha, ih h, List.cons_append]

theorem foldl_dset_fresh (g : Str × Value → Value) : ∀ (p : Params) (acc : Params),
    (p.map Prod.fst).Nodup →
    (∀ kv ∈ p, dlookup acc kv.1 = none) →
    List.foldl (fun a kv => dset a kv.1 (g kv)) acc p
      = acc ++ p.map (fun kv => (kv.1, g kv)) := by
  intro p
  induction p with
  | nil =>
    intro acc _ _
    simp
  | cons kv rest ih =>
    intro acc hnd hfresh
    rw [List.map_cons] at hnd
    have hhead : kv.1 ∉ rest.map Prod.fst := (List.nodup_cons.mp hnd).1
    have hfresh2 : ∀ kv2 ∈ rest, dlookup (dset acc kv.1 (g kv)) kv2.1 = none := by
      intro kv2 h2
      have hne : kv2.1 ≠ kv.1 := by
        intro hcon
        exact hhead (hcon ▸ List.mem_map_of_mem Prod.fst h2)
      rw [dlookup_dset_ne _ _ _ _ hne]
      exact hfresh kv2 (List.mem_cons_of_mem _ h2)
    rw [List.foldl_cons, ih (dset acc kv.1 (g kv)) (List.nodup_cons.mp hnd).2 hfresh2,
      dset_append_of_fresh (g kv) (hfresh kv (List.mem_cons_self _ _)),
      List.map_cons, List.append_assoc]
    rfl

theorem normalizeSect_roundtrip {p : Params}
    (hgood : ∀ kv ∈ p, goodValB (decide (kv.1 ∈ wrapKeys)) kv.2 = true) :
    normalizeSect (p.map (fun kv => (kv.1, parseValueText (formatValue kv.2)))) = p := by
  rw [normalizeSect, List.map_map]
  have h2 : ∀ kv ∈ p,
      ((fun kv => if kv.1 ∈ wrapKeys then (kv.1, wrapVal kv.2) else kv)
        ∘ (fun kv => (kv.1, parseValueText (formatValue kv.2)))) kv = kv := by
    intro kv hkv
    show (if kv.1 ∈ wrapKeys then (kv.1, wrapVal (parseValueText (formatValue kv.2)))
        else (kv.1, parseValueText (formatValue kv.2))) = kv
    have hv := hgood kv hkv
    by_cases hw : kv.1 ∈ wrapKeys
    · rw [decide_eq_true hw] at hv
      rw [if_pos hw, parseValueText_fmt_wrap hv]
    · rw [decide_eq_false hw] at hv
      rw [if_neg hw, parseValueText_fmt_nonwrap hv]
  rw [List.map_congr_left h2]
  exact List.map_id p

theorem goodParamsB_parts {p : Params} (h : goodParamsB p = true) :
    (∀ kv ∈ p, goodEntryB kv = true) ∧ (p.map Prod.fst).Nodup := by
  rw [goodParamsB, Bool.and_eq_true] at h
  exact ⟨List.all_eq_true.mp h.1, of_decide_eq_true h.2⟩

/-- One whole section: header already consumed, a clean accumulator, fold
every formatted line; the section mapping ends as the original store with
each value re-read from its text. -/
theorem section_fold (sec : Sect) (st : PState) (p : Params)
    (hcur : st.cur = some sec) (hsect : getSect st sec = [])
    (hp : goodParamsB p = true) :
    List.foldl parseLine st (p.map fmtLine)
      = setSect st sec (p.map (fun kv => (kv.1, parseValueText (formatValue kv.2)))) := by
  obtain ⟨hall, hnd⟩ := goodParamsB_parts hp
  have hgood : ∀ kv ∈ p, goodKeyB kv.1 = true ∧ vtxtOk (formatValue kv.2) = true := by
    intro kv hkv
    have := hall kv hkv
    rw [goodEntryB, Bool.and_eq_true] at this
    exact ⟨this.1, goodVal_vtxt this.2⟩
  rw [foldl_parseLine_sect sec p st hcur hgood, hsect,
    foldl_dset_fresh _ p [] hnd (fun kv _ => rfl), List.nil_append]

/-! ### Header, separator and terminator lines -/

theorem parseLine_header_share (st : PState) :
    parseLine st (strOf ("&share")) = { st with cur := some .share } := rfl

theorem parseLine_header_geogrid (st : PState) :
    parseLine st (strOf ("&geogrid")) = { st with cur := some .geogrid } := rfl

theorem parseLine_header_ungrib (st : PState) :
    parseLine st (strOf ("&ungrib")) = { st with cur := some .ungrib } := rfl

theorem parseLine_header_metgrid (st : PState) :
    parseLine st (strOf ("&metgrid")) = { st with cur := some .metgrid } := rfl

theorem parseLine_slash (st : PState) :
    parseLine st (strOf ("/")) = { st with cur := none } := rfl

theorem parseLine_blank (st : PState) : parseLine st [] = st := rfl

theorem foldl_sep (st : PState) :
    List.foldl parseLine st [strOf ("/"), []] = { st with cur := none } := by
  rw [List.foldl_cons, List.foldl_cons, List.foldl_nil, parseLine_slash, parseLine_blank]

/-- The per-entry transformation the parser applies to a serialized
section: each value re-read from its formatted text. -/
def codecRead (p : Params) : Params :=
  p.map (fun kv => (kv.1, parseValueText (formatValue kv.2)))

theorem normalize_codecRead {p : Params}
    (hgood : ∀ kv ∈ p, goodValB (decide (kv.1 ∈ wrapKeys)) kv.2 = true) :
    normalizeSect (codecRead p) = p := by
  rw [codecRead]
  exact normalizeSect_roundtrip hgood

/-- Serializing a store of good sections and re-parsing the produced
lines restores every section exactly. -/
theorem writeLines_roundTrip {sh g u m : Params}
    (hsh : goodParamsB sh = true) (hg : goodParamsB g = true)
    (hu : goodParamsB u = true) (hm : goodParamsB m = true) :
    parseLines (writeLines sh g u m) = (sh, g, u, m) := by
  have hgoodv : ∀ p : Params, goodParamsB p = true →
      ∀ kv ∈ p, goodValB (decide (kv.1 ∈ wrapKeys)) kv.2 = true := by
    intro p hp kv hkv
    have := (goodParamsB_parts hp).1 kv hkv
    rw [goodEntryB, Bool.and_eq_true] at this
    exact this.2
  have h1 : List.foldl parseLine initState [strOf ("&share")]
      = (⟨some .share, [], [], [], []⟩ : PState) := rfl
  have h2 : List.foldl parseLine (⟨some .share, [], [], [], []⟩ : PState)
        (sh.map fmtLine)
      = (⟨some .share, codecRead sh, [], [], []⟩ : PState) :=
    section_fold .share ⟨some .share, [], [], [], []⟩ sh rfl rfl hsh
  have h3 : List.foldl parseLine (⟨some .share, codecRead sh, [], [], []⟩ : PState)
        [strOf ("/"), []]
      = (⟨none, codecRead sh, [], [], []⟩ : PState) :=
    foldl_sep _
  have h4 : List.foldl parseLine (⟨none, codecRead sh, [], [], []⟩ : PState)
        [strOf ("&geogrid")]
      = (⟨some .geogrid, codecRead sh, [], [], []⟩ : PState) := rfl
  have h5 : List.foldl parseLine
        (⟨some .geogrid, codecRead sh, [], [], []⟩ : PState) (g.map fmtLine)
      = (⟨some .geogrid, codecRead sh, codecRead g, [], []⟩ : PState) :=
    section_fold .geogrid _ g rfl rfl hg
  have h6 : List.foldl parseLine
        (⟨some .geogrid, codecRead sh, codecRead g, [], []⟩ : PState) [strOf ("/"), []]
      = (⟨none, codecRead sh, codecRead g, [], []⟩ : PState) :=
    foldl_sep _
  have h7 : List.foldl parseLine
        (⟨none, codecRead sh, codecRead g, [], []⟩ : PState) [strOf ("&ungrib")]
      = (⟨some .ungrib, codecRead sh, codecRead g, [], []⟩ : PState) := rfl
  have h8 : List.foldl parseLine
        (⟨some .ungrib, codecRead sh, codecRead g, [], []⟩ : PState) (u.map fmtLine)
      = (⟨some .ungrib, codecRead sh, codecRead g, codecRead u, []⟩ : PState) :=
    section_fold .ungrib _ u rfl rfl hu
  have h9 : List.foldl parseLine
        (⟨some .ungrib, codecRead sh, codecRead g, codecRead u, []⟩ : PState)
        [strOf ("/"), []]
      = (⟨none, codecRead sh, codecRead g, codecRead u, []⟩ : PState) :=
    foldl_sep _
  have h10 : List.foldl parseLine
        (⟨none, codecRead sh, codecRead g, codecRead u, []⟩ : PState)
        [strOf ("&metgrid")]
      = (⟨some .metgrid, codecRead sh, codecRead g, codecRead u, []⟩ : PState) := rfl
  have h11 : List.foldl parseLine
        (⟨some .metgrid, codecRead sh, codecRead g, codecRead u, []⟩ : PState)
        (m.map fmtLine)
      = (⟨some .metgrid, codecRead sh, codecRead g, codecRead u, codecRead m⟩ : PState) :=
    section_fold .metgrid _ m rfl rfl hm
  have h12 : List.foldl parseLine
        (⟨some .metgrid, codecRead sh, codecRead g, codecRead u, codecRead m⟩ : PState)
        [strOf ("/")]
      = (⟨none, codecRead sh, codecRead g, codecRead u, codecRead m⟩ : PState) := by
    rw [List.foldl_cons, List.foldl_nil, parseLine_slash]
  have hw : List.foldl parseLine initState (writeLines sh g u m)
      = (⟨none, codecRead sh, codecRead g, codecRead u, codecRead m⟩ : PState) := by
    rw [writeLines]
    simp only [List.foldl_append]
    rw [h1, h2, h3, h4, h5, h6, h7, h8, h9, h10, h11, h12]
  rw [parseLines]
  rw [hw]
  show (normalizeSect (codecRead sh), normalizeSect (codecRead g),
      normalizeSect (codecRead u), normalizeSect (codecRead m)) = (sh, g, u, m)
  rw [normalize_codecRead (hgoodv sh hsh), normalize_codecRead (hgoodv g hg),
    normalize_codecRead (hgoodv u hu), normalize_codecRead (hgoodv m hm)]

/-! ### Element kinds through the synchronizer

The seven list parameters keep their element kinds through
`adjust_params_for_max_dom`: the six numeric lists stay all-`int`, and
`geog_data_res` stays a list of comma-free strings.  This is the invariant
that makes the synchronized geogrid store good for the codec. -/

def goodStrB : Scalar → Bool
  | .SStr s => !(s.elem ',')
  | _ => false

/-- The element predicate each list key maintains. -/
def keyElem (k : Str) : Scalar → Bool :=
  if k = kGdr then goodStrB else isSIntB

/-- Key `k`, when present, holds a list of its kind of elements. -/
def keyInvB (p : Params) (k : Str) : Bool :=
  match dlookup p k with
  | some (.VList xs) => xs.all (keyElem k)
  | some _ => false
  | none => true

/-- The joint invariant over all seven list keys. -/
def eInvB (p : Params) : Bool := listParams.all (keyInvB p)

theorem keyInvB_some {p : Params} {k : Str} {v : Value}
    (hinv : keyInvB p k = true) (hl : dlookup p k = some v) :
    ∃ xs, v = .VList xs ∧ xs.all (keyElem k) = true := by
  rw [keyInvB, hl] at hinv
  cases v with
  | VList xs => exact ⟨xs, rfl, hinv⟩
  | VInt i => exact absurd hinv Bool.noConfusion
  | VFloat q => exact absurd hinv Bool.noConfusion
  | VStr s => exact absurd hinv Bool.noConfusion

theorem keyInvB_dset {p : Params} {key k : Str} {ys : List Scalar}
    (hinv : keyInvB p k = true)
    (hys : ys.all (keyElem key) = true) :
    keyInvB (dset p key (.VList ys)) k = true := by
  by_cases hk : k = key
  · subst hk
    rw [keyInvB, dlookup_dset_self]
    exact hys
  · rw [keyInvB, dlookup_dset_ne _ _ _ _ hk]
    rw [keyInvB] at hinv
    exact hinv

theorem eInvB_key {p : Params} (h : eInvB p = true) :
    ∀ k ∈ listParams, keyInvB p k = true := by
  rw [eInvB] at h
  exact List.all_eq_true.mp h

theorem eInvB_dset {p : Params} {key : Str} {ys : List Scalar}
    (hinv : eInvB p = true) (hys : ys.all (keyElem key) = true) :
    eInvB (dset p key (.VList ys)) = true := by
  rw [eInvB]
  apply List.all_eq_true.mpr
  intro k hk
  exact keyInvB_dset (eInvB_key hinv k hk) hys

theorem pyLastS_mem {xs : List Scalar} {x : Scalar}
    (h : pyLastS (.VList xs) = .ok x) : x ∈ xs := by
  rw [pyLastS] at h
  cases hg : xs.getLast? with
  | none =>
    rw [hg] at h
    exact PyRes.noConfusion h
  | some y =>
    rw [hg] at h
    have hyx : y = x := PyRes.ok.inj h
    subst hyx
    have hx : y ∈ xs.getLast? := by
      rw [Option.mem_def]
      exact hg
    rcases List.mem_getLast?_eq_getLast hx with ⟨hne, hxe⟩
    rw [hxe]
    exact List.getLast_mem hne

theorem pyIndexS_mem {xs : List Scalar} {i : Int} {x : Scalar}
    (h : pyIndexS (.VList xs) i = .ok x) : x ∈ xs := by
  rw [pyIndexS] at h
  split at h
  all_goals
    (split at h
     · split at h
       · rename_i y hy
         cases h
         exact List.get?_mem hy
       · exact PyRes.noConfusion h
     · exact PyRes.noConfusion h)

theorem sSub1_int {a b : Scalar} (ha : isSIntB a = true) (h : sSub1 a = .ok b) :
    isSIntB b = true := by
  cases a with
  | SInt i =>
    rw [sSub1] at h
    cases h
    rfl
  | SFloat q => exact absurd ha Bool.noConfusion
  | SStr s => exact absurd ha Bool.noConfusion

theorem sFloorDiv_int {a b c : Scalar} (ha : isSIntB a = true)
    (hb : isSIntB b = true) (h : sFloorDiv a b = .ok c) : isSIntB c = true := by
  cases a with
  | SFloat q => exact absurd ha Bool.noConfusion
  | SStr s => exact absurd ha Bool.noConfusion
  | SInt i =>
    cases b with
    | SFloat q => exact absurd hb Bool.noConfusion
    | SStr s => exact absurd hb Bool.noConfusion
    | SInt j =>
      rw [sFloorDiv] at h
      split at h
      · exact PyRes.noConfusion h
      · cases h
        rfl

theorem sSub_int {a b c : Scalar} (ha : isSIntB a = true)
    (hb : isSIntB b = true) (h : sSub a b = .ok c) : isSIntB c = true := by
  cases a with
  | SFloat q => exact absurd ha Bool.noConfusion
  | SStr s => exact absurd ha Bool.noConfusion
  | SInt i =>
    cases b with
    | SFloat q => exact absurd hb Bool.noConfusion
    | SStr s => exact absurd hb Bool.noConfusion
    | SInt j =>
      rw [sSub] at h
      cases h
      rfl

theorem sMax1_int {a b : Scalar} (ha : isSIntB a = true) (h : sMax1 a = .ok b) :
    isSIntB b = true := by
  cases a with
  | SFloat q => exact absurd ha Bool.noConfusion
  | SStr s => exact absurd ha Bool.noConfusion
  | SInt i =>
    rw [sMax1] at h
    cases h
    rfl

theorem sBump_int {a b : Scalar} (ha : isSIntB a = true) (h : sBump a = .ok b) :
    isSIntB b = true := by
  cases a with
  | SFloat q => exact absurd ha Bool.noConfusion
  | SStr s => exact absurd ha Bool.noConfusion
  | SInt i =>
    rw [sBump] at h
    cases h
    split
    · rfl
    · rfl

theorem ijScalar_int {p : Params} {dimKey : Str} {n : Nat} {x : Scalar}
    (hpid : keyInvB p kPid = true) (hpgr : keyInvB p kPgr = true)
    (hdim : keyInvB p dimKey = true) (hdimne : dimKey ≠ kGdr)
    (h : ijScalar p dimKey n = .ok x) : isSIntB x = true := by
  have hPid : keyElem kPid = isSIntB := by
    rw [keyElem, if_neg (by decide)]
  have hPgr : keyElem kPgr = isSIntB := by
    rw [keyElem, if_neg (by decide)]
  have hDim : keyElem dimKey = isSIntB := by
    rw [keyElem, if_neg hdimne]
  rw [ijScalar] at h
  rcases (bind_ok_iff _ _ _).mp h with ⟨pid, hpid1, h⟩
  rcases keyInvB_some hpid ((dgetP_ok_iff _ _ _).mp hpid1) with ⟨pxs, rfl, hpxs⟩
  rw [hPid] at hpxs
  rcases (bind_ok_iff _ _ _).mp h with ⟨pidn, hpidn, h⟩
  have hpidn_int : isSIntB pidn = true :=
    List.all_eq_true.mp hpxs pidn (pyIndexS_mem hpidn)
  rcases (bind_ok_iff _ _ _).mp h with ⟨pidm1, hpidm1, h⟩
  rcases (bind_ok_iff _ _ _).mp h with ⟨pidx, _, h⟩
  rcases (bind_ok_iff _ _ _).mp h with ⟨dv, hdv, h⟩
  rcases keyInvB_some hdim ((dgetP_ok_iff _ _ _).mp hdv) with ⟨dxs, rfl, hdxs⟩
  rw [hDim] at hdxs
  rcases (bind_ok_iff _ _ _).mp h with ⟨pcell, hpcell, h⟩
  have hpcell_int : isSIntB pcell = true :=
    List.all_eq_true.mp hdxs pcell (pyIndexS_mem hpcell)
  rcases (bind_ok_iff _ _ _).mp h with ⟨center, hcenter, h⟩
  have hcenter_int : isSIntB center = true :=
    sFloorDiv_int hpcell_int (show isSIntB (.SInt 2) = true from rfl) hcenter
  rcases (bind_ok_iff _ _ _).mp h with ⟨a, hA, h⟩
  have ha_int : isSIntB a = true :=
    List.all_eq_true.mp hdxs a (pyIndexS_mem hA)
  rcases (bind_ok_iff _ _ _).mp h with ⟨pgr, hpgr1, h⟩
  rcases keyInvB_some hpgr ((dgetP_ok_iff _ _ _).mp hpgr1) with ⟨gxs, rfl, hgxs⟩
  rw [hPgr] at hgxs
  rcases (bind_ok_iff _ _ _).mp h with ⟨b, hB, h⟩
  have hb_int : isSIntB b = true :=
    List.all_eq_true.mp hgxs b (pyIndexS_mem hB)
  rcases (bind_ok_iff _ _ _).mp h with ⟨cs, hcs, h⟩
  have hcs_int : isSIntB cs = true := sFloorDiv_int ha_int hb_int hcs
  rcases (bind_ok_iff _ _ _).mp h with ⟨cs2, hcs2, h⟩
  have hcs2_int : isSIntB cs2 = true :=
    sFloorDiv_int hcs_int (show isSIntB (.SInt 2) = true from rfl) hcs2
  rcases (bind_ok_iff _ _ _).mp h with ⟨df, hdf, h⟩
  have hdf_int : isSIntB df = true := sSub_int hcenter_int hcs2_int hdf
  exact sMax1_int hdf_int h

theorem appendK_eInv {p p' : Params} {key : Str} {v : Value} {x : Scalar}
    (hk : key ∈ listParams) (hinv : eInvB p = true)
    (hv : dgetP p key = .ok v) (hx : keyElem key x = true)
    (happ : appendK p key v x = .ok p') : eInvB p' = true := by
  rcases appendK_ok happ with ⟨xs, rfl, rfl⟩
  rcases keyInvB_some (eInvB_key hinv key hk) ((dgetP_ok_iff _ _ _).mp hv)
    with ⟨xs', heq, hall⟩
  injection heq with h2
  subst h2
  apply eInvB_dset hinv
  rw [List.all_append, hall, Bool.true_and, List.all_cons, hx, List.all_nil]
  rfl

/-- One growth iteration preserves the element-kind invariant. -/
theorem growOnce_eInv {p p' : Params} {key : Str} (hk : key ∈ listParams)
    (hinv : eInvB p = true) (h : growOnce p key = .ok p') : eInvB p' = true := by
  have hkinds := eInvB_key hinv
  rw [growOnce] at h
  rcases (bind_ok_iff _ _ _).mp h with ⟨v, hv, h⟩
  rcases (bind_ok_iff _ _ _).mp h with ⟨n, hn, h⟩
  have hkl := hk
  simp only [listParams, List.mem_cons, List.not_mem_nil, or_false] at hkl
  rcases hkl with rfl | rfl | rfl | rfl | rfl | rfl | rfl
  · rw [if_pos rfl] at h
    by_cases h0 : 0 < n
    · rw [if_pos h0] at h
      exact appendK_eInv hk hinv hv
        (show keyElem kPid (.SInt (n : Int)) = true from by
          rw [keyElem, if_neg (by decide)]
          rfl) h
    · rw [if_neg h0] at h
      simp only [pyres_pure_eq, PyRes.ok.injEq] at h
      subst h
      exact hinv
  · rw [if_neg (by decide), if_pos rfl] at h
    by_cases h0 : 0 < n
    · rw [if_pos h0] at h
      by_cases h1 : n = 1
      · rw [if_pos h1] at h
        exact appendK_eInv hk hinv hv
          (show keyElem kPgr (.SInt 3) = true from by
            rw [keyElem, if_neg (by decide)]
            rfl) h
      · rw [if_neg h1] at h
        rcases (bind_ok_iff _ _ _).mp h with ⟨x, hx, h⟩
        rcases keyInvB_some (hkinds kPgr hk) ((dgetP_ok_iff _ _ _).mp hv)
          with ⟨xs, rfl, hall⟩
        exact appendK_eInv hk hinv hv
          (List.all_eq_true.mp hall x (pyLastS_mem hx)) h
    · rw [if_neg h0] at h
      simp only [pyres_pure_eq, PyRes.ok.injEq] at h
      subst h
      exact hinv
  · rw [if_neg (by decide), if_neg (by decide), if_pos (Or.inl rfl)] at h
    rcases (bind_ok_iff _ _ _).mp h with ⟨c1, _, h⟩
    cases c1
    · simp only [Bool.false_eq_true, if_false] at h
      rcases (bind_ok_iff _ _ _).mp h with ⟨c2, _, h⟩
      cases c2
      · simp only [Bool.false_eq_true, if_false] at h
        exact appendK_eInv hk hinv hv
          (show keyElem kIps (.SInt 1) = true from by
            rw [keyElem, if_neg (by decide)]
            rfl) h
      · simp only [if_true] at h
        rcases (bind_ok_iff _ _ _).mp h with ⟨mx, hmx, h⟩
        have hmxi : isSIntB mx = true := ijScalar_int (hkinds kPid (by decide))
          (hkinds kPgr (by decide)) (hkinds kEsn (by decide)) (by decide) hmx
        exact appendK_eInv hk hinv hv
          (by rw [keyElem, if_neg (by decide)]; exact hmxi) h
    · simp only [if_true] at h
      rcases (bind_ok_iff _ _ _).mp h with ⟨mx, hmx, h⟩
      have hmxi : isSIntB mx = true := ijScalar_int (hkinds kPid (by decide))
        (hkinds kPgr (by decide)) (hkinds kEwe (by decide)) (by decide) hmx
      exact appendK_eInv hk hinv hv
        (by rw [keyElem, if_neg (by decide)]; exact hmxi) h
  · rw [if_neg (by decide), if_neg (by decide), if_pos (Or.inr rfl)] at h
    rcases (bind_ok_iff _ _ _).mp h with ⟨c1, _, h⟩
    cases c1
    · simp only [Bool.false_eq_true, if_false] at h
      rcases (bind_ok_iff _ _ _).mp h with ⟨c2, _, h⟩
      cases c2
      · simp only [Bool.false_eq_true, if_false] at h
        exact appendK_eInv hk hinv hv
          (show keyElem kJps (.SInt 1) = true from by
            rw [keyElem, if_neg (by decide)]
            rfl) h
      · simp only [if_true] at h
        rcases (bind_ok_iff _ _ _).mp h with ⟨mx, hmx, h⟩
        have hmxi : isSIntB mx = true := ijScalar_int (hkinds kPid (by decide))
          (hkinds kPgr (by decide)) (hkinds kEsn (by decide)) (by decide) hmx
        exact appendK_eInv hk hinv hv
          (by rw [keyElem, if_neg (by decide)]; exact hmxi) h
    · simp only [if_true] at h
      rcases (bind_ok_iff _ _ _).mp h with ⟨mx, hmx, h⟩
      have hmxi : isSIntB mx = true := ijScalar_int (hkinds kPid (by decide))
        (hkinds kPgr (by decide)) (hkinds kEwe (by decide)) (by decide) hmx
      exact appendK_eInv hk hinv hv
        (by rw [keyElem, if_neg (by decide)]; exact hmxi) h
  · rw [if_neg (by decide), if_neg (by decide), if_neg (by decide),
      if_pos (Or.inl rfl)] at h
    by_cases h0 : 0 < n
    · rw [if_pos h0] at h
      rcases (bind_ok_iff _ _ _).mp h with ⟨x, hx, h⟩
      rcases (bind_ok_iff _ _ _).mp h with ⟨x', hx', h⟩
      rcases keyInvB_some (hkinds kEwe hk) ((dgetP_ok_iff _ _ _).mp hv)
        with ⟨xs, rfl, hall⟩
      have hxi : isSIntB x = true := by
        have h3 := List.all_eq_true.mp hall x (pyLastS_mem hx)
        rw [keyElem, if_neg (by decide)] at h3
        exact h3
      have hx'i : isSIntB x' = true := sBump_int hxi hx'
      exact appendK_eInv hk hinv hv
        (by rw [keyElem, if_neg (by decide)]; exact hx'i) h
    · rw [if_neg h0] at h
      exact appendK_eInv hk hinv hv
        (show keyElem kEwe (.SInt 100) = true from by
          rw [keyElem, if_neg (by decide)]
          rfl) h
  · rw [if_neg (by decide), if_neg (by decide), if_neg (by decide),
      if_pos (Or.inr rfl)] at h
    by_cases h0 : 0 < n
    · rw [if_pos h0] at h
      rcases (bind_ok_iff _ _ _).mp h with ⟨x, hx, h⟩
      rcases (bind_ok_iff _ _ _).mp h with ⟨x', hx', h⟩
      rcases keyInvB_some (hkinds kEsn hk) ((dgetP_ok_iff _ _ _).mp hv)
        with ⟨xs, rfl, hall⟩
      have hxi : isSIntB x = true := by
        have h3 := List.all_eq_true.mp hall x (pyLastS_mem hx)
        rw [keyElem, if_neg (by decide)] at h3
        exact h3
      have hx'i : isSIntB x' = true := sBump_int hxi hx'
      exact appendK_eInv hk hinv hv
        (by rw [keyElem, if_neg (by decide)]; exact hx'i) h
    · rw [if_neg h0] at h
      exact appendK_eInv hk hinv hv
        (show keyElem kEsn (.SInt 100) = true from by
          rw [keyElem, if_neg (by decide)]
          rfl) h
  · rw [if_neg (by decide), if_neg (by decide), if_neg (by decide),
      if_neg (by decide), if_pos rfl] at h
    by_cases h0 : 0 < n
    · rw [if_pos h0] at h
      rcases (bind_ok_iff _ _ _).mp h with ⟨x, hx, h⟩
      rcases keyInvB_some (hkinds kGdr hk) ((dgetP_ok_iff _ _ _).mp hv)
        with ⟨xs, rfl, hall⟩
      exact appendK_eInv hk hinv hv
        (List.all_eq_true.mp hall x (pyLastS_mem hx)) h
    · rw [if_neg h0] at h
      exact appendK_eInv hk hinv hv
        (show keyElem kGdr (.SStr (strOf ("default"))) = true from by decide) h

theorem growLoop_eInv : ∀ (fuel : Nat) {p : Params} {key : Str} {maxDom : Nat}
    {p' : Params}, key ∈ listParams → eInvB p = true →
    growLoop fuel p key maxDom = some (.ok p') → eInvB p' = true := by
  intro fuel
  induction fuel with
  | zero =>
    intro p key maxDom p' _ _ h
    simp [growLoop] at h
  | succ f ih =>
    intro p key maxDom p' hk hinv h
    rw [growLoop] at h
    split at h
    · simp at h
    · split at h
      · simp at h
      · split at h
        · split at h
          · simp at h
          · rename_i p₁ hg
            exact ih hk (growOnce_eInv hk hinv hg) h
        · have hp : p = p' := PyRes.ok.inj (Option.some.inj h)
          subst hp
          exact hinv

theorem syncKey_eInv {fuel : Nat} {p : Params} {key : Str} {maxDom : Nat}
    {p' : Params} (hk : key ∈ listParams) (hinv : eInvB p = true)
    (h : syncKey fuel p key maxDom = some (.ok p')) : eInvB p' = true := by
  rw [syncKey] at h
  by_cases hc : dcontains p key
  · rw [if_pos hc] at h
    split at h
    · simp at h
    · simp at h
    · rename_i p₁ hr
      have hinv₁ : eInvB p₁ = true := growLoop_eInv fuel hk hinv hr
      split at h
      · simp at h
      · rename_i v hv
        rcases keyInvB_some (eInvB_key hinv₁ key hk) ((dgetP_ok_iff _ _ _).mp hv)
          with ⟨xs, rfl, hall⟩
        split at h
        · simp at h
        · rename_i v' hv'
          have hp' : p' = dset p₁ key v' := (PyRes.ok.inj (Option.some.inj h)).symm
          have hv'e : v' = Value.VList (xs.take maxDom) := (PyRes.ok.inj hv').symm
          subst hp'
          subst hv'e
          apply eInvB_dset hinv₁
          apply List.all_eq_true.mpr
          intro x hx
          exact List.all_eq_true.mp hall x (List.take_subset _ _ hx)
  · rw [if_neg hc] at h
    have hp : p = p' := PyRes.ok.inj (Option.some.inj h)
    subst hp
    exact hinv

theorem adjustGo_eInv : ∀ (ks : List Str) {p p' : Params} {fuel maxDom : Nat},
    (∀ k ∈ ks, k ∈ listParams) → eInvB p = true →
    adjustGo fuel maxDom ks p = some (.ok p') → eInvB p' = true := by
  intro ks
  induction ks with
  | nil =>
    intro p p' fuel maxDom _ hinv h
    rw [adjustGo] at h
    have hp : p = p' := PyRes.ok.inj (Option.some.inj h)
    subst hp
    exact hinv
  | cons k ks ih =>
    intro p p' fuel maxDom hks hinv h
    rw [adjustGo] at h
    split at h
    · simp at h
    · simp at h
    · rename_i p₁ heq
      exact ih (fun kk hkk => hks kk (List.mem_cons_of_mem k hkk))
        (syncKey_eInv (hks k (List.mem_cons_self k ks)) hinv heq) h

/-- The whole synchronizer preserves the element-kind invariant. -/
theorem adjust_eInv {fuel maxDom : Nat} {p p' : Params} (hinv : eInvB p = true)
    (h : adjustParamsForMaxDom fuel p maxDom = some (.ok p')) : eInvB p' = true := by
  rw [adjustParamsForMaxDom] at h
  exact adjustGo_eInv listParams (fun k hk => hk) hinv h

/-! ### The `configure_share` date loop -/

theorem pyAppendS_ok {v v' : Value} {x : Scalar} (h : pyAppendS v x = .ok v') :
    ∃ xs, v = .VList xs ∧ v' = .VList (xs ++ [x]) := by
  cases v <;> simp [pyAppendS] at h
  case VList xs => exact ⟨xs, rfl, h.symm⟩

/-- A successful date loop only appends copies of elements already in the
list at `key` (each appended entry is the element at index 0), reaching
length `maxDom` exactly when growth was needed. -/
theorem dateLoop_ok_shape : ∀ (fuel : Nat) (p : Params) (key : Str)
    (maxDom : Nat) (p' : Params),
    dateLoop fuel p key maxDom = some (.ok p') →
    (∀ k, k ≠ key → dlookup p' k = dlookup p k) ∧
    p'.map Prod.fst = p.map Prod.fst ∧
    (∀ xs, dlookup p key = some (.VList xs) →
      ∃ t, dlookup p' key = some (.VList (xs ++ t)) ∧
        (∀ x ∈ t, x ∈ xs) ∧
        (xs.length < maxDom → (xs ++ t).length = maxDom) ∧
        (maxDom ≤ xs.length → t = [])) := by
  intro fuel
  induction fuel with
  | zero =>
    intro p key maxDom p' h
    simp [dateLoop] at h
  | succ fuel ih =>
    intro p key maxDom p' h
    rw [dateLoop] at h
    split at h
    · simp at h
    · rename_i v hget
      split at h
      · simp at h
      · rename_i n hlen
        split at h
        · rename_i hlt
          split at h
          · simp at h
          · rename_i p₁ hbody
            obtain ⟨hfr, hkeys, hval⟩ := ih p₁ key maxDom p' h
            rcases (bind_ok_iff _ _ _).mp hbody with ⟨x, hx, hbody⟩
            rcases (bind_ok_iff _ _ _).mp hbody with ⟨v', happ, hbody⟩
            have hp₁ : p₁ = dset p key v' := by
              simp only [pyres_pure_eq, PyRes.ok.injEq] at hbody
              exact hbody.symm
            rcases pyAppendS_ok happ with ⟨xs, rfl, rfl⟩
            subst hp₁
            have hpresent : dlookup p key ≠ none := by
              rw [(dgetP_ok_iff _ _ _).mp hget]
              exact fun hc => Option.noConfusion hc
            refine ⟨?_, ?_, ?_⟩
            · intro k hkne
              rw [hfr k hkne, dlookup_dset_ne _ _ _ _ hkne]
            · rw [hkeys, keys_dset _ _ _ hpresent]
            · intro ys hys
              have hysxs : ys = xs := by
                have h1 := (dgetP_ok_iff p key _).mp hget
                rw [hys] at h1
                exact Value.VList.inj (Option.some.inj h1)
              subst hysxs
              have hn : n = ys.length := by
                simpa [pyLen] using (PyRes.ok.inj hlen).symm
              have hxmem : x ∈ ys := pyIndexS_mem hx
              obtain ⟨t, ht, hel, hlen2, hshort⟩ :=
                hval (ys ++ [x]) (by rw [dlookup_dset_self])
              refine ⟨[x] ++ t, ?_, ?_, ?_, ?_⟩
              · rw [ht, List.append_assoc]
              · intro y hy
                rcases List.mem_append.mp hy with hy1 | hy1
                · rcases List.mem_cons.mp hy1 with rfl | hy2
                  · exact hxmem
                  · exact absurd hy2 (List.not_mem_nil y)
                · rcases List.mem_append.mp (hel y hy1) with hy2 | hy2
                  · exact hy2
                  · rcases List.mem_cons.mp hy2 with rfl | hy3
                    · exact hxmem
                    · exact absurd hy3 (List.not_mem_nil y)
              · intro _
                by_cases h2 : (ys ++ [x]).length < maxDom
                · have := hlen2 h2
                  rw [List.append_assoc] at this
                  exact this
                · have ht0 : t = [] := hshort (by omega)
                  subst ht0
                  simp only [List.append_nil] at *
                  simp only [List.length_append, List.length_singleton] at h2 ⊢
                  omega
              · intro hge
                omega
        · rename_i hlt
          have hp : p = p' := by
            have h1 := Option.some.inj h
            exact PyRes.ok.inj h1
          subst hp
          refine ⟨fun _ _ => rfl, rfl, ?_⟩
          intro xs hxs
          have hvxs : v = Value.VList xs := by
            have h1 := (dgetP_ok_iff p key v).mp hget
            rw [hxs] at h1
            exact (Option.some.inj h1).symm
          have hn : n = xs.length := by
            rw [hvxs] at hlen
            simpa [pyLen] using (PyRes.ok.inj hlen).symm
          exact ⟨[], by simpa using hxs, fun y hy => absurd hy (List.not_mem_nil y),
            by omega, fun _ => rfl⟩

/-- One key of the share date synchronization (grow then trim): the final
list has exactly `maxDom` entries, all drawn from the original list. -/
theorem adjustShareDatesKey_ok {fuel : Nat} {p : Params} {key : Str}
    {maxDom : Nat} {p' : Params}
    (h : adjustShareDatesKey fuel p key maxDom = some (.ok p')) :
    (∀ k, k ≠ key → dlookup p' k = dlookup p k) ∧
    p'.map Prod.fst = p.map Prod.fst ∧
    (∀ xs, dlookup p key = some (.VList xs) → xs.length ≤ maxDom →
      ∃ ys, dlookup p' key = some (.VList ys) ∧ (∀ x ∈ ys, x ∈ xs)
        ∧ ys.length = maxDom) := by
  rw [adjustShareDatesKey] at h
  split at h
  · simp at h
  · simp at h
  · rename_i p₁ hr
    obtain ⟨hfr, hkeys, hval⟩ := dateLoop_ok_shape fuel p key maxDom p₁ hr
    split at h
    · simp at h
    · rename_i v hv
      split at h
      · simp at h
      · rename_i v' hv'
        have hp' : p' = dset p₁ key v' := (PyRes.ok.inj (Option.some.inj h)).symm
        subst hp'
        have hp₁present : dlookup p₁ key ≠ none := by
          rw [(dgetP_ok_iff _ _ _).mp hv]
          exact fun hc => Option.noConfusion hc
        refine ⟨?_, ?_, ?_⟩
        · intro k hkne
          rw [dlookup_dset_ne _ _ _ _ hkne, hfr k hkne]
        · rw [keys_dset _ _ _ hp₁present, hkeys]
        · intro xs hxs hle
          obtain ⟨t, ht, hel, hlen2, hshort⟩ := hval xs hxs
          have hve : v = Value.VList (xs ++ t) := by
            have h1 := (dgetP_ok_iff _ _ _).mp hv
            rw [ht] at h1
            exact (Option.some.inj h1).symm
          have hv'e : v' = Value.VList ((xs ++ t).take maxDom) := by
            rw [hve] at hv'
            exact (PyRes.ok.inj hv').symm
          subst hv'e
          refine ⟨(xs ++ t).take maxDom, by rw [dlookup_dset_self], ?_, ?_⟩
          · intro x hx
            rcases List.mem_append.mp (List.take_subset _ _ hx) with h1 | h1
            · exact h1
            · exact hel x h1
          · rw [List.length_take]
            by_cases hlt : xs.length < maxDom
            · have := hlen2 hlt
              omega
            · have ht0 : t = [] := hshort (by omega)
              subst ht0
              simp only [List.append_nil, List.length_append]
              omega

/-- The whole `configure_share` date synchronization. -/
theorem adjustShareDates_ok {fuel : Nat} {p p' : Params} {d : Nat}
    (hmd : shareMaxDom p = .ok d)
    (h : adjustShareDates fuel p = some (.ok p')) :
    (∀ k, k ≠ strOf ("start_date") → k ≠ strOf ("end_date") →
      dlookup p' k = dlookup p k) ∧
    p'.map Prod.fst = p.map Prod.fst ∧
    (∀ key, key = strOf ("start_date") ∨ key = strOf ("end_date") →
      ∀ xs, dlookup p key = some (.VList xs) → xs.length ≤ d →
      ∃ ys, dlookup p' key = some (.VList ys) ∧ (∀ x ∈ ys, x ∈ xs)
        ∧ ys.length = d) := by
  rw [adjustShareDates, hmd] at h
  split at h
  · rename_i heq
    exact PyRes.noConfusion heq
  · rename_i d₁ heq
    injection heq with hd
    subst hd
    split at h
    · simp at h
    · simp at h
    · rename_i p₁ h₁
      obtain ⟨hfr1, hkeys1, hval1⟩ := adjustShareDatesKey_ok h₁
      obtain ⟨hfr2, hkeys2, hval2⟩ := adjustShareDatesKey_ok h
      have hne : strOf ("start_date") ≠ strOf ("end_date") := by decide
      refine ⟨?_, hkeys2.trans hkeys1, ?_⟩
      · intro k hk1 hk2
        rw [hfr2 k hk2, hfr1 k hk1]
      · intro key hkey xs hxs hle
        rcases hkey with rfl | rfl
        · obtain ⟨ys, hys, hel, hlen⟩ := hval1 xs hxs hle
          rw [← hfr2 _ hne] at hys
          exact ⟨ys, hys, hel, hlen⟩
        · rw [← hfr1 _ (fun hc => hne hc.symm)] at hxs
          exact hval2 xs hxs hle

/-! ### Goodness of the synchronized stores -/

theorem dlookup_of_mem : ∀ {p : Params}, (p.map Prod.fst).Nodup →
    ∀ {kv : Str × Value}, kv ∈ p → dlookup p kv.1 = some kv.2 := by
  intro p
  induction p with
  | nil =>
    intro _ kv h
    exact absurd h (List.not_mem_nil kv)
  | cons hd rest ih =>
    intro hnd kv hm
    obtain ⟨k₀, v₀⟩ := hd
    rw [List.map_cons, List.nodup_cons] at hnd
    rcases List.mem_cons.mp hm with rfl | hm2
    · rw [dlookup, if_pos rfl]
    · have hne : k₀ ≠ kv.1 := by
        intro hcon
        have h4 : kv.1 ∈ rest.map Prod.fst := List.mem_map.mpr ⟨kv, hm2, rfl⟩
        apply hnd.1
        rw [hcon]
        exact h4
      rw [dlookup, if_neg hne]
      exact ih hnd.2 hm2

theorem goodParamsB_of (p : Params) (hnd : (p.map Prod.fst).Nodup)
    (hpt : ∀ kv ∈ p, goodEntryB kv = true) : goodParamsB p = true := by
  rw [goodParamsB, Bool.and_eq_true]
  exact ⟨List.all_eq_true.mpr hpt, decide_eq_true hnd⟩

theorem isSIntB_not_SStr {x : Scalar} (h : isSIntB x = true) : isSStrB x = false := by
  cases x with
  | SInt i => rfl
  | SFloat q => exact absurd h Bool.noConfusion
  | SStr s => exact absurd h Bool.noConfusion

theorem goodScalarB_of_int {x : Scalar} (h : isSIntB x = true) : goodScalarB x = true := by
  cases x with
  | SInt i => rfl
  | SFloat q => exact absurd h Bool.noConfusion
  | SStr s => exact absurd h Bool.noConfusion

theorem isSStrB_of_goodStr {x : Scalar} (h : goodStrB x = true) : isSStrB x = true := by
  cases x with
  | SInt i => exact absurd h Bool.noConfusion
  | SFloat q => exact absurd h Bool.noConfusion
  | SStr s => rfl

theorem goodScalarB_of_goodStr {x : Scalar} (h : goodStrB x = true) :
    goodScalarB x = true := by
  cases x with
  | SInt i => exact absurd h Bool.noConfusion
  | SFloat q => exact absurd h Bool.noConfusion
  | SStr s => exact h

theorem goodValB_intList {ys : List Scalar} (hne : ys ≠ [])
    (hall : ys.all isSIntB = true) : goodValB true (.VList ys) = true := by
  have h1 : ys.isEmpty = false := by
    cases ys
    · exact absurd rfl hne
    · rfl
  have h2 : ys.all (fun x => !(isSStrB x)) = true :=
    List.all_eq_true.mpr (fun x hx => by
      rw [isSIntB_not_SStr (List.all_eq_true.mp hall x hx)]
      rfl)
  have h3 : ys.all goodScalarB = true :=
    List.all_eq_true.mpr (fun x hx =>
      goodScalarB_of_int (List.all_eq_true.mp hall x hx))
  rw [goodValB, if_pos rfl, h1, h2, h3]
  simp

theorem goodValB_strList {ys : List Scalar} (hne : ys ≠ [])
    (hall : ys.all goodStrB = true) : goodValB true (.VList ys) = true := by
  have h1 : ys.isEmpty = false := by
    cases ys
    · exact absurd rfl hne
    · rfl
  have h2 : ys.all isSStrB = true :=
    List.all_eq_true.mpr (fun x hx =>
      isSStrB_of_goodStr (List.all_eq_true.mp hall x hx))
  have h3 : ys.all goodScalarB = true :=
    List.all_eq_true.mpr (fun x hx =>
      goodScalarB_of_goodStr (List.all_eq_true.mp hall x hx))
  rw [goodValB, if_pos rfl, h1, h2, h3]
  simp

theorem ne_nil_of_length_pos {ys : List Scalar} {d : Nat} (hd : 1 ≤ d)
    (hlen : ys.length = d) : ys ≠ [] := by
  intro hcon
  subst hcon
  simp at hlen
  omega

theorem entry_good_of_intList {d : Nat} {ys : List Scalar} {k : Str}
    (hd : 1 ≤ d) (hkg : goodKeyB k = true) (hkw : decide (k ∈ wrapKeys) = true)
    (hlen : ys.length = d) (hall : ys.all isSIntB = true) :
    goodEntryB (k, .VList ys) = true := by
  rw [goodEntryB]
  dsimp only
  rw [Bool.and_eq_true]
  refine ⟨hkg, ?_⟩
  rw [hkw]
  exact goodValB_intList (ne_nil_of_length_pos hd hlen) hall

theorem entry_good_of_strList {d : Nat} {ys : List Scalar} {k : Str}
    (hd : 1 ≤ d) (hkg : goodKeyB k = true) (hkw : decide (k ∈ wrapKeys) = true)
    (hlen : ys.length = d) (hall : ys.all goodStrB = true) :
    goodEntryB (k, .VList ys) = true := by
  rw [goodEntryB]
  dsimp only
  rw [Bool.and_eq_true]
  refine ⟨hkg, ?_⟩
  rw [hkw]
  exact goodValB_strList (ne_nil_of_length_pos hd hlen) hall

/-- The geogrid store synchronized from the defaults is good for the
codec: fixed identifier keys, `int` lists of length `max_dom` at the six
numeric list keys, comma-free string lists at `geog_data_res`, untouched
good scalars elsewhere. -/
theorem geogrid_synced_good {fuel d : Nat} {g : Params} (hd : 1 ≤ d)
    (hg : adjustParamsForMaxDom fuel defaultGeogridParams d = some (.ok g)) :
    goodParamsB g = true := by
  rw [adjustParamsForMaxDom] at hg
  obtain ⟨hframe, hkeys⟩ := adjustGo_frame listParams defaultGeogridParams g fuel d
    (fun k hk => hk) hg
  have hinv : eInvB g = true := adjustGo_eInv listParams (fun k hk => hk) (by decide) hg
  have hval := adjustGo_value listParams defaultGeogridParams g fuel d (by decide)
    (fun k hk => hk) hg
  have hnd : (g.map Prod.fst).Nodup := by
    rw [hkeys]
    decide
  apply goodParamsB_of g hnd
  intro kv hkv
  obtain ⟨k, v⟩ := kv
  have hl : dlookup g k = some v := dlookup_of_mem hnd hkv
  have hkmem : k ∈ g.map Prod.fst := List.mem_map.mpr ⟨(k, v), hkv, rfl⟩
  rw [hkeys] at hkmem
  have hkm2 : k ∈ [kPid, kPgr, kIps, kJps, kEwe, kEsn, kGdr,
      strOf ("dx"), strOf ("dy"), strOf ("map_proj"), strOf ("ref_lat"),
      strOf ("ref_lon"), strOf ("truelat1"), strOf ("truelat2"),
      strOf ("stand_lon"), strOf ("geog_data_path")] := hkmem
  have hlist : ∀ k₀, k₀ ∈ listParams → k₀ ≠ kGdr →
      dlookup g k₀ = some v → ∀ xs₀, dlookup defaultGeogridParams k₀ = some (.VList xs₀) →
      xs₀.length ≤ d → goodKeyB k₀ = true → decide (k₀ ∈ wrapKeys) = true →
      goodEntryB (k₀, v) = true := by
    intro k₀ hk₀ hkne hl₀ xs₀ hxs₀ hle hkg hkw
    obtain ⟨ys, hys, _, hlen⟩ := hval k₀ hk₀ xs₀ hxs₀ hle
    have hv : v = .VList ys := by
      rw [hl₀] at hys
      exact Option.some.inj hys
    subst hv
    rcases keyInvB_some (eInvB_key hinv k₀ hk₀) hys with ⟨ys', heq, hall⟩
    injection heq with he
    subst he
    rw [keyElem, if_neg hkne] at hall
    exact entry_good_of_intList hd hkg hkw hlen hall
  simp only [List.mem_cons, List.not_mem_nil, or_false] at hkm2
  rcases hkm2 with rfl | rfl | rfl | rfl | rfl | rfl | rfl | rfl | rfl | rfl
    | rfl | rfl | rfl | rfl | rfl | rfl
  · exact hlist kPid (by decide) (by decide) hl [.SInt 1] rfl hd (by decide) (by decide)
  · exact hlist kPgr (by decide) (by decide) hl [.SInt 1] rfl hd (by decide) (by decide)
  · exact hlist kIps (by decide) (by decide) hl [.SInt 1] rfl hd (by decide) (by decide)
  · exact hlist kJps (by decide) (by decide) hl [.SInt 1] rfl hd (by decide) (by decide)
  · exact hlist kEwe (by decide) (by decide) hl [.SInt 100] rfl hd (by decide) (by decide)
  · exact hlist kEsn (by decide) (by decide) hl [.SInt 100] rfl hd (by decide) (by decide)
  · -- geog_data_res
    obtain ⟨ys, hys, _, hlen⟩ := hval kGdr (by decide) [.SStr (strOf ("default"))] rfl hd
    have hv : v = .VList ys := by
      rw [hl] at hys
      exact Option.some.inj hys
    subst hv
    rcases keyInvB_some (eInvB_key hinv kGdr (by decide)) hys with ⟨ys', heq, hall⟩
    injection heq with he
    subst he
    rw [keyElem, if_pos rfl] at hall
    exact entry_good_of_strList hd (by decide) (by decide) hlen hall
  · have hfr := hframe (strOf ("dx")) (by decide)
    rw [hfr] at hl
    have hv : v = .VInt 30000 := (Option.some.inj hl).symm
    subst hv
    decide
  · have hfr := hframe (strOf ("dy")) (by decide)
    rw [hfr] at hl
    have hv : v = .VInt 30000 := (Option.some.inj hl).symm
    subst hv
    decide
  · have hfr := hframe (strOf ("map_proj")) (by decide)
    rw [hfr] at hl
    have hv : v = .VStr (strOf ("lambert")) := (Option.some.inj hl).symm
    subst hv
    decide
  · have hfr := hframe (strOf ("ref_lat")) (by decide)
    rw [hfr] at hl
    have hv : v = .VFloat 34 := (Option.some.inj hl).symm
    subst hv
    decide
  · have hfr := hframe (strOf ("ref_lon")) (by decide)
    rw [hfr] at hl
    have hv : v = .VFloat (-81) := (Option.some.inj hl).symm
    subst hv
    decide
  · have hfr := hframe (strOf ("truelat1")) (by decide)
    rw [hfr] at hl
    have hv : v = .VFloat 30 := (Option.some.inj hl).symm
    subst hv
    decide
  · have hfr := hframe (strOf ("truelat2")) (by decide)
    rw [hfr] at hl
    have hv : v = .VFloat 60 := (Option.some.inj hl).symm
    subst hv
    decide
  · have hfr := hframe (strOf ("stand_lon")) (by decide)
    rw [hfr] at hl
    have hv : v = .VFloat (-81) := (Option.some.inj hl).symm
    subst hv
    decide
  · have hfr := hframe (strOf ("geog_data_path")) (by decide)
    rw [hfr] at hl
    have hv : v = .VStr (strOf ("/path/to/geog")) := (Option.some.inj hl).symm
    subst hv
    decide

/-- The share store after `configure_share`'s `max_dom` update and date
synchronization is good for the codec. -/
theorem share_synced_good {fuel d : Nat} {D E : Str} {sh : Params} (hd : 1 ≤ d)
    (hD : D.elem ',' = false) (hE : E.elem ',' = false)
    (hsh : adjustShareDates fuel
        (dset (defaultShareParams D E) (strOf ("max_dom")) (.VInt (d : Int)))
      = some (.ok sh)) :
    goodParamsB sh = true := by
  have hmd : shareMaxDom
      (dset (defaultShareParams D E) (strOf ("max_dom")) (.VInt (d : Int))) = .ok d := rfl
  obtain ⟨hfr, hkeys, hval⟩ := adjustShareDates_ok hmd hsh
  have hnd : (sh.map Prod.fst).Nodup := by
    rw [hkeys]
    show ([strOf ("wrf_core"), strOf ("max_dom"), strOf ("start_date"),
      strOf ("end_date"), strOf ("interval_seconds"), strOf ("io_form_geogrid"),
      strOf ("debug_level")] : List Str).Nodup
    decide
  apply goodParamsB_of sh hnd
  intro kv hkv
  obtain ⟨k, v⟩ := kv
  have hl : dlookup sh k = some v := dlookup_of_mem hnd hkv
  have hkmem : k ∈ sh.map Prod.fst := List.mem_map.mpr ⟨(k, v), hkv, rfl⟩
  rw [hkeys] at hkmem
  have hkm2 : k ∈ [strOf ("wrf_core"), strOf ("max_dom"), strOf ("start_date"),
      strOf ("end_date"), strOf ("interval_seconds"), strOf ("io_form_geogrid"),
      strOf ("debug_level")] := hkmem
  have hdate : ∀ k₀, (k₀ = strOf ("start_date") ∨ k₀ = strOf ("end_date")) →
      ∀ s0 : Str, s0.elem ',' = false →
      dlookup sh k₀ = some v →
      dlookup (dset (defaultShareParams D E) (strOf ("max_dom")) (.VInt (d : Int))) k₀
        = some (.VList [.SStr s0]) →
      goodKeyB k₀ = true → decide (k₀ ∈ wrapKeys) = true →
      goodEntryB (k₀, v) = true := by
    intro k₀ hk₀ s0 hs0 hl₀ hlook hkg hkw
    obtain ⟨ys, hys, hel, hlen⟩ := hval k₀ hk₀ [.SStr s0] hlook hd
    have hv : v = .VList ys := by
      rw [hl₀] at hys
      exact Option.some.inj hys
    subst hv
    have hall : ys.all goodStrB = true := by
      apply List.all_eq_true.mpr
      intro x hx
      rcases List.mem_cons.mp (hel x hx) with rfl | hx2
      · rw [goodStrB, hs0]
        rfl
      · exact absurd hx2 (List.not_mem_nil x)
    exact entry_good_of_strList hd hkg hkw hlen hall
  simp only [List.mem_cons, List.not_mem_nil, or_false] at hkm2
  rcases hkm2 with rfl | rfl | rfl | rfl | rfl | rfl | rfl
  · rw [hfr _ (by decide) (by decide)] at hl
    have hv : v = .VStr (strOf ("ARW")) := (Option.some.inj hl).symm
    subst hv
    decide
  · rw [hfr _ (by decide) (by decide)] at hl
    have hv : v = .VInt (d : Int) := (Option.some.inj hl).symm
    subst hv
    rw [goodEntryB]
    dsimp only
    rw [Bool.and_eq_true]
    refine ⟨by decide, ?_⟩
    rw [show decide (strOf ("max_dom") ∈ wrapKeys) = false from by decide]
    rfl
  · exact hdate _ (Or.inl rfl) D hD hl rfl (by decide) (by decide)
  · exact hdate _ (Or.inr rfl) E hE hl rfl (by decide) (by decide)
  · rw [hfr _ (by decide) (by decide)] at hl
    have hv : v = .VInt 21600 := (Option.some.inj hl).symm
    subst hv
    decide
  · rw [hfr _ (by decide) (by decide)] at hl
    have hv : v = .VInt 2 := (Option.some.inj hl).symm
    subst hv
    decide
  · rw [hfr _ (by decide) (by decide)] at hl
    have hv : v = .VInt 0 := (Option.some.inj hl).symm
    subst hv
    decide

/-- C1: for every parameter store produced by the defaults plus the
synchronization calls — the share defaults with `max_dom` set and the
start/end date lists grown by `configure_share`, the geogrid defaults
grown by `adjust_params_for_max_dom`, and the ungrib/metgrid defaults —
serializing with `write_namelist_wps`'s line format and re-parsing with
`read_existing_namelist` returns exactly the original store in every
section and at every key; on this family the round trip is exact, with no
numeric representation drift (floats are written with `.0` and parse back
as the same rationals, integers parse back as integers). -/
theorem c1_roundtrip (d : Nat) (D E : Str) (fs fg : Nat) (sh g : Params)
    (hd : 1 ≤ d) (hD : D.elem ',' = false) (hE : E.elem ',' = false)
    (hsh : adjustShareDates fs
        (dset (defaultShareParams D E) (strOf ("max_dom")) (.VInt (d : Int)))
      = some (.ok sh))
    (hg : adjustParamsForMaxDom fg defaultGeogridParams d = some (.ok g)) :
    parseLines (writeLines sh g defaultUngribParams defaultMetgridParams)
      = (sh, g, defaultUngribParams, defaultMetgridParams) :=
  writeLines_roundTrip (share_synced_good hd hD hE hsh) (geogrid_synced_good hd hg)
    (by decide) (by decide)

/-- The share store the date synchronization produces for `max_dom = 3`. -/
def shW : Params :=
  [(strOf ("wrf_core"), .VStr (strOf ("ARW"))),
   (strOf ("max_dom"), .VInt 3),
   (strOf ("start_date"), .VList [.SStr (strOf ("2024-01-01_00:00:00")),
      .SStr (strOf ("2024-01-01_00:00:00")), .SStr (strOf ("2024-01-01_00:00:00"))]),
   (strOf ("end_date"), .VList [.SStr (strOf ("2024-01-02_00:00:00")),
      .SStr (strOf ("2024-01-02_00:00:00")), .SStr (strOf ("2024-01-02_00:00:00"))]),
   (strOf ("interval_seconds"), .VInt 21600),
   (strOf ("io_form_geogrid"), .VInt 2),
   (strOf ("debug_level"), .VInt 0)]

/-- The geogrid store the synchronizer produces for `max_dom = 3`. -/
def gW : Params :=
  [(kPid, .VList [.SInt 1, .SInt 1, .SInt 2]),
   (kPgr, .VList [.SInt 1, .SInt 3, .SInt 3]),
   (kIps, .VList [.SInt 1, .SInt 1, .SInt 1]),
   (kJps, .VList [.SInt 1, .SInt 1, .SInt 1]),
   (kEwe, .VList [.SInt 100, .SInt 101, .SInt 101]),
   (kEsn, .VList [.SInt 100, .SInt 101, .SInt 101]),
   (kGdr, .VList [.SStr (strOf ("default")), .SStr (strOf ("default")),
      .SStr (strOf ("default"))]),
   (strOf ("dx"), .VInt 30000),
   (strOf ("dy"), .VInt 30000),
   (strOf ("map_proj"), .VStr (strOf ("lambert"))),
   (strOf ("ref_lat"), .VFloat 34),
   (strOf ("ref_lon"), .VFloat (-81)),
   (strOf ("truelat1"), .VFloat 30),
   (strOf ("truelat2"), .VFloat 60),
   (strOf ("stand_lon"), .VFloat (-81)),
   (strOf ("geog_data_path"), .VStr (strOf ("/path/to/geog")))]

theorem c1_witness :
    parseLines (writeLines shW gW defaultUngribParams defaultMetgridParams)
      = (shW, gW, defaultUngribParams, defaultMetgridParams) :=
  c1_roundtrip 3 (strOf ("2024-01-01_00:00:00")) (strOf ("2024-01-02_00:00:00"))
    8 8 shW gW (by decide) (by decide) (by decide) rfl rfl

end Wps
